import Mathlib

/-!
# Serializability tests for transaction schedules

A shallow embedding of `grafo.c` (precedence graph with depth-first cycle
detection), `algoritmos.c` (conflict- and view-serializability tests) and the
read loop of `main.c` (segmentation of the input into schedules), followed by
theorems about the embedded functions.

Conventions of the embedding:

* C arrays with their length field are Lean lists (`op_count = ops.length`,
  `trans_count = trans_ids.length`); `int` values are `Int`, loop counters that
  only range over `0 .. n-1` are `Nat`.
* C truth values `0` / `1` returned by the tests are `Bool`.
* A function whose C body can access memory outside an allocated block
  returns `Option`; `none` stands for that undefined access.  Functions defined
  with recursion fuel also return `Option`, `none` standing for exhausted fuel,
  and the theorems show that the fuel handed over by the callers is enough.
* Allocation never fails (`malloc` / `calloc` always succeed).
-/

/-! ## grafo.c -/

/-- Vertex colours used by the depth-first search (`typedef enum Color`). -/
inductive Color where
  | WHITE
  | GRAY
  | BLACK
deriving DecidableEq, Repr

/-- The adjacency-matrix graph of `grafo.h`: `matrix` is the array of rows. -/
structure Graph where
  num_vertices : Nat
  matrix : List (List Int)
deriving DecidableEq, Repr

/-- The shape promised by `create_graph`: `num_vertices` rows of `num_vertices`
entries each. -/
def Graph.WellFormed (g : Graph) : Prop :=
  g.matrix.length = g.num_vertices ∧ ∀ row ∈ g.matrix, row.length = g.num_vertices

/-- The read `g->matrix[u][v]`. -/
def Graph.entry (g : Graph) (u v : Nat) : Int :=
  (g.matrix.getD u []).getD v 0

/-- Function `create_graph`: `none` is the `NULL` result; every row comes from `calloc`,
hence is zero-filled. -/
def create_graph (num_vertices : Int) : Option Graph :=
  if num_vertices ≤ 0 then none
  else some (Graph.mk num_vertices.toNat
    (List.replicate num_vertices.toNat (List.replicate num_vertices.toNat 0)))

/-- Function `add_edge` on a non-null graph.  The guard only compares the indices with
`num_vertices` from above; when it lets the indices through, the store
`g->matrix[from][to] = 1` is performed, and the result is `none` when that store
falls outside the allocated rows. -/
def add_edge (g : Graph) (from_v to_v : Int) : Option Graph :=
  if from_v < (g.num_vertices : Int) ∧ to_v < (g.num_vertices : Int) then
    if 0 ≤ from_v ∧ 0 ≤ to_v ∧ from_v.toNat < g.matrix.length ∧
        to_v.toNat < (g.matrix.getD from_v.toNat []).length then
      some (Graph.mk g.num_vertices
        (g.matrix.set from_v.toNat ((g.matrix.getD from_v.toNat []).set to_v.toNat 1)))
    else none
  else some g

/-- The `for (v = 0; v < num_vertices; v++)` loop of `has_cycle_util`, run over
the remaining values of `v`; `visit` is the recursive call.  The result pairs
the returned flag with the colour array as the call leaves it. -/
def has_cycle_loop (g : Graph) (visit : Nat → List Color → Option (Bool × List Color))
    (u : Nat) : List Nat → List Color → Option (Bool × List Color)
  | [], color => some (false, color)
  | v :: vs, color =>
    if g.entry u v = 1 then
      if color.getD v Color.WHITE = Color.GRAY then some (true, color)
      else if color.getD v Color.WHITE = Color.WHITE then
        match visit v color with
        | none => none
        | some (true, color1) => some (true, color1)
        | some (false, color1) => has_cycle_loop g visit u vs color1
      else has_cycle_loop g visit u vs color
    else has_cycle_loop g visit u vs color

/-- Function `has_cycle_util(g, u, color)` with recursion fuel as first argument. -/
def has_cycle_util (g : Graph) : Nat → Nat → List Color → Option (Bool × List Color)
  | 0, _, _ => none
  | fuel + 1, u, color =>
    match has_cycle_loop g (has_cycle_util g fuel) u (List.range g.num_vertices)
        (color.set u Color.GRAY) with
    | none => none
    | some (true, color1) => some (true, color1)
    | some (false, color1) => some (false, color1.set u Color.BLACK)

/-- The `for (i = 0; i < num_vertices; i++)` loop of `has_cycle`. -/
def has_cycle_scan (g : Graph) : List Nat → List Color → Option Bool
  | [], _ => some false
  | i :: rest, color =>
    if color.getD i Color.WHITE = Color.WHITE then
      match has_cycle_util g g.num_vertices i color with
      | none => none
      | some (true, _) => some true
      | some (false, color1) => has_cycle_scan g rest color1
    else has_cycle_scan g rest color

/-- Function `has_cycle` on a non-null graph: the colour array starts all `WHITE`
(`calloc`), and the recursion is given `num_vertices` units of fuel. -/
def has_cycle (g : Graph) : Option Bool :=
  has_cycle_scan g (List.range g.num_vertices) (List.replicate g.num_vertices Color.WHITE)

/-- An edge `u → v` of the graph: both indices are vertices and the matrix
holds `1` at row `u`, column `v`. -/
def Graph.edge (g : Graph) (u v : Nat) : Prop :=
  u < g.num_vertices ∧ v < g.num_vertices ∧ g.entry u v = 1

/-- A directed cycle: a non-empty path of edges from a vertex back to itself. -/
def Graph.HasCycle (g : Graph) : Prop :=
  ∃ v, Relation.TransGen g.edge v v

/-! ## algoritmos.c -/

/-- One operation of a transaction (`struct Operation`). -/
structure Operation where
  time : Int
  trans_id : Int
  op : Char
  attr : Char
deriving DecidableEq, Repr

/-- A schedule (`struct Schedule`): the operations in arrival order and the
array of unique transaction ids.  `op_count` and `trans_count` are the lengths of
the two arrays; `op_capacity` only drives reallocation and is left out. -/
structure Schedule where
  ops : List Operation
  trans_ids : List Int
deriving DecidableEq, Repr

/-- The field `op_count`. -/
def Schedule.op_count (s : Schedule) : Nat := s.ops.length

/-- The field `trans_count`. -/
def Schedule.trans_count (s : Schedule) : Nat := s.trans_ids.length

/-- Function `create_schedule`: no operation, `trans_ids = NULL`, `trans_count = 0`. -/
def create_schedule : Schedule := Schedule.mk [] []

/-- Function `add_operation`: append one operation at the end of `ops`. -/
def add_operation (s : Schedule) (time trans_id : Int) (op attr : Char) : Schedule :=
  Schedule.mk (s.ops ++ [Operation.mk time trans_id op attr]) s.trans_ids

/-- Reduction of an integer to the range of a 32-bit signed `int`. -/
def wrap32 (x : Int) : Int := (x + 2147483648) % 4294967296 - 2147483648

/-- Function `compare_ints`: the difference of the two values, computed in `int`
(a difference outside the 32-bit range wraps around). -/
def compare_ints (a b : Int) : Int := wrap32 (a - b)

/-- Stand-in for the C library routine `qsort` on an `int` array: an insertion
sort that places `a` before `b` when the comparison function does not return a
positive value. -/
def qsort (cmp : Int → Int → Int) (arr : List Int) : List Int :=
  arr.insertionSort (fun a b => cmp a b ≤ 0)

/-- The first loop of `find_unique_transactions`: `temp_ids` receives each
transaction id the first time it is met. -/
def collect_ids : List Operation → List Int → List Int
  | [], temp_ids => temp_ids
  | o :: rest, temp_ids =>
    if o.trans_id ∈ temp_ids then collect_ids rest temp_ids
    else collect_ids rest (temp_ids ++ [o.trans_id])

/-- Function `find_unique_transactions`: nothing happens on an empty schedule; otherwise
`trans_ids` becomes the sorted array of the distinct transaction ids. -/
def find_unique_transactions (s : Schedule) : Schedule :=
  if s.op_count = 0 then s
  else Schedule.mk s.ops (qsort compare_ints (collect_ids s.ops []))

/-- The loop of `get_trans_index`, entered at index `i`. -/
def get_trans_index_from : List Int → Nat → Int → Int
  | [], _, _ => -1
  | t :: rest, i, trans_id =>
    if t = trans_id then (i : Int) else get_trans_index_from rest (i + 1) trans_id

/-- Function `get_trans_index`: first index of `trans_id` in `trans_ids`, or `-1`. -/
def get_trans_index (s : Schedule) (trans_id : Int) : Int :=
  get_trans_index_from s.trans_ids 0 trans_id

/-- Inner loop of `is_conflict_serializable` (`j = i + 1 .. op_count - 1`) for a
fixed `op1 = ops[i]`, run over the operations after `op1`. -/
def conflict_inner (s : Schedule) (op1 : Operation) : List Operation → Graph → Option Graph
  | [], g => some g
  | op2 :: rest, g =>
    if op1.trans_id = op2.trans_id ∨ op1.attr ≠ op2.attr ∨ op1.attr = '-' then
      conflict_inner s op1 rest g
    else if op1.op = 'W' ∨ op2.op = 'W' then
      match add_edge g (get_trans_index s op1.trans_id) (get_trans_index s op2.trans_id) with
      | none => none
      | some g1 => conflict_inner s op1 rest g1
    else conflict_inner s op1 rest g

/-- Outer loop of `is_conflict_serializable` (`i = 0 .. op_count - 1`), run over
the remaining operations. -/
def conflict_outer (s : Schedule) : List Operation → Graph → Option Graph
  | [], g => some g
  | op1 :: rest, g =>
    match conflict_inner s op1 rest g with
    | none => none
    | some g1 => conflict_outer s rest g1

/-- Function `is_conflict_serializable`: the trivial acceptance, the construction of
the precedence graph from all pairs of operations, and the cycle test. -/
def is_conflict_serializable (s : Schedule) : Option Bool :=
  if s.trans_count ≤ 1 then some true
  else
    match create_graph (s.trans_count : Int) with
    | none => some false
    | some g =>
      match conflict_outer s s.ops g with
      | none => none
      | some g1 =>
        match has_cycle g1 with
        | none => none
        | some has_cycle_result => some (!has_cycle_result)

/-- Function `find_last_writer`: scan `ops[0 .. before_op_idx - 1]`, remembering the
transaction of the last `W` on `attr`; `0` is the initial database value. -/
def find_last_writer (s : Schedule) (attr : Char) (before_op_idx : Nat) : Int :=
  (s.ops.take before_op_idx).foldl
    (fun last_writer_id o => if o.op = 'W' ∧ o.attr = attr then o.trans_id else last_writer_id) 0

/-- The scan over all operations made for one transaction `current_tid` of the
serial order, in `find_last_writer_serial` and in `compare_read_from`. -/
def scan_writes_of (s : Schedule) (attr : Char) (last_writer_id : Int) (current_tid : Int) : Int :=
  s.ops.foldl
    (fun last o => if o.trans_id = current_tid ∧ o.op = 'W' ∧ o.attr = attr then current_tid
      else last) last_writer_id

/-- Function `find_last_writer_serial`; `order_len` is the length of `serial_order`. -/
def find_last_writer_serial (s : Schedule) (serial_order : List Int) (attr : Char) : Int :=
  serial_order.foldl (scan_writes_of s attr) 0

/-- The index `attr - 'A'` used with the table `processed_attrs`. -/
def attr_index (attr : Char) : Int := (attr.toNat : Int) - ('A'.toNat : Int)

/-- The loop of `compare_final_writes` over the remaining operations; the table
`processed_attrs` has 26 entries, and an index outside `0 .. 25` is an access
outside the table (`none`). -/
def compare_final_writes_loop (s : Schedule) (serial_order : List Int) :
    List Operation → List Int → Option Bool
  | [], _ => some true
  | o :: rest, processed_attrs =>
    if o.attr ≠ '-' then
      if 0 ≤ attr_index o.attr ∧ attr_index o.attr < (processed_attrs.length : Int) then
        if processed_attrs.getD (attr_index o.attr).toNat 0 = 0 then
          if find_last_writer s o.attr s.op_count ≠
              find_last_writer_serial s serial_order o.attr then some false
          else compare_final_writes_loop s serial_order rest
            (processed_attrs.set (attr_index o.attr).toNat 1)
        else compare_final_writes_loop s serial_order rest processed_attrs
      else none
    else compare_final_writes_loop s serial_order rest processed_attrs

/-- Function `compare_final_writes`; `order_len` is the length of `serial_order`. -/
def compare_final_writes (s : Schedule) (serial_order : List Int) : Option Bool :=
  compare_final_writes_loop s serial_order s.ops (List.replicate 26 0)

/-- The loop that sets `reader_pos`: the last index `j` with
`serial_order[j] == trans_id`, starting from the given value. -/
def reader_pos_from : List Int → Nat → Int → Int → Int
  | [], _, _, reader_pos => reader_pos
  | t :: rest, j, trans_id, reader_pos =>
    reader_pos_from rest (j + 1) trans_id (if t = trans_id then (j : Int) else reader_pos)

/-- The writer that `compare_read_from` assigns to `read_op` under the serial
order: the scan over the transactions at positions `0 .. reader_pos - 1`. -/
def serial_writer (s : Schedule) (serial_order : List Int) (read_op : Operation) : Int :=
  (serial_order.take (reader_pos_from serial_order 0 read_op.trans_id (-1)).toNat).foldl
    (scan_writes_of s read_op.attr) 0

/-- The loop of `compare_read_from` over the operations from index `i` on. -/
def compare_read_from_loop (s : Schedule) (serial_order : List Int) :
    List Operation → Nat → Bool
  | [], _ => true
  | read_op :: rest, i =>
    if read_op.op = 'R' then
      if find_last_writer s read_op.attr i ≠ serial_writer s serial_order read_op then false
      else compare_read_from_loop s serial_order rest (i + 1)
    else compare_read_from_loop s serial_order rest (i + 1)

/-- Function `compare_read_from`; `order_len` is the length of `serial_order`. -/
def compare_read_from (s : Schedule) (serial_order : List Int) : Bool :=
  compare_read_from_loop s serial_order s.ops 0

/-- Function `swap(arr + a, arr + b)`: exchange two entries of the array. -/
def swap (arr : List Int) (a b : Nat) : List Int :=
  (arr.set a (arr.getD b 0)).set b (arr.getD a 0)

/-- The test made on a complete permutation: `compare_final_writes(...) &&
compare_read_from(...)`, the second call being made only when the first
returns `1`. -/
def test_order (s : Schedule) (serial_order : List Int) : Option Bool :=
  match compare_final_writes s serial_order with
  | none => none
  | some false => some false
  | some true => some (compare_read_from s serial_order)

/-- The `for (i = start; i <= end; i++)` loop of `check_all_permutations` over
the remaining values of `i`; `visit` is the recursive call on `start + 1`.  The
array is passed along, as the C code updates it in place. -/
def check_all_permutations_loop (visit : List Int → Option (Bool × List Int)) (start : Nat) :
    List Nat → List Int → Option (Bool × List Int)
  | [], arr => some (false, arr)
  | i :: rest, arr =>
    match visit (swap arr start i) with
    | none => none
    | some (true, arr1) => some (true, arr1)
    | some (false, arr1) => check_all_permutations_loop visit start rest (swap arr1 start i)

/-- Function `check_all_permutations(s, arr, start, end)` for `start ≤ end`, by recursion
on the distance `end - start` (first explicit argument). -/
def check_all_permutations_rec (s : Schedule) (end_v : Nat) :
    Nat → List Int → Nat → Option (Bool × List Int)
  | 0, arr, _ =>
    match test_order s (arr.take (end_v + 1)) with
    | none => none
    | some r => some (r, arr)
  | d + 1, arr, start =>
    check_all_permutations_loop (fun arr1 => check_all_permutations_rec s end_v d arr1 (start + 1))
      start (List.range' start (d + 2)) arr

/-- Function `check_all_permutations(s, arr, start, end)`: with `end < start` the two
indices differ and the loop body never runs, so the result is `0`. -/
def check_all_permutations (s : Schedule) (arr : List Int) (start : Nat) (end_v : Int) :
    Option (Bool × List Int) :=
  if end_v < (start : Int) then some (false, arr)
  else check_all_permutations_rec s end_v.toNat (end_v.toNat - start) arr start

/-- Function `is_view_serializable`; the search works on a copy of `trans_ids`. -/
def is_view_serializable (s : Schedule) : Option Bool :=
  match is_conflict_serializable s with
  | none => none
  | some true => some true
  | some false =>
    match check_all_permutations s s.trans_ids 0 ((s.trans_count : Int) - 1) with
    | none => none
    | some (result, _) => some result

/-! ## Predicates used in the analysis of the depth-first search -/

/-- Each colour of `c1` is the colour in `c`, or went from `WHITE` to `BLACK`. -/
def ColorStep (c c1 : List Color) : Prop :=
  c1.length = c.length ∧
    ∀ w, c1.getD w Color.WHITE = c.getD w Color.WHITE ∨
      (c.getD w Color.WHITE = Color.WHITE ∧ c1.getD w Color.WHITE = Color.BLACK)

/-- Number of `WHITE` vertices: the measure that bounds the recursion depth. -/
def whiteCount (g : Graph) (c : List Color) : Nat :=
  ((Finset.range g.num_vertices).filter (fun w => c.getD w Color.WHITE = Color.WHITE)).card

/-- The invariant of the search: the colour array has one entry per vertex, the
`BLACK` vertices are closed under edges, and no `BLACK` vertex lies on a cycle. -/
def DfsInv (g : Graph) (c : List Color) : Prop :=
  c.length = g.num_vertices ∧
  (∀ w x, c.getD w Color.WHITE = Color.BLACK → g.edge w x → c.getD x Color.WHITE = Color.BLACK) ∧
  (∀ w, c.getD w Color.WHITE = Color.BLACK → ¬ Relation.TransGen g.edge w w)

/-- What a call of `has_cycle_util` with `fuel` units delivers on a `WHITE`
vertex when the invariant holds and every `GRAY` vertex reaches it. -/
def UtilSpec (g : Graph) (fuel : Nat) : Prop :=
  ∀ v c, v < g.num_vertices → c.getD v Color.WHITE = Color.WHITE → DfsInv g c →
    (∀ w, c.getD w Color.WHITE = Color.GRAY → Relation.ReflTransGen g.edge w v) →
    whiteCount g c ≤ fuel →
    ∃ b c1, has_cycle_util g fuel v c = some (b, c1) ∧ (b = true → g.HasCycle) ∧
      (b = false → ColorStep c c1 ∧ DfsInv g c1 ∧ c1.getD v Color.WHITE = Color.BLACK)

/-! ## Notions of the specification -/

instance (g : Graph) : Decidable g.WellFormed := by
  unfold Graph.WellFormed
  exact inferInstance

/-- An uppercase letter `'A' .. 'Z'`. -/
def UpperLetter (c : Char) : Prop :=
  'A'.toNat ≤ c.toNat ∧ c.toNat ≤ 'Z'.toNat

instance (c : Char) : Decidable (UpperLetter c) := by
  unfold UpperLetter
  exact inferInstance

/-- Every attribute of the schedule is an uppercase letter or the sentinel `'-'`. -/
def AttrsInRange (s : Schedule) : Prop :=
  ∀ o ∈ s.ops, o.attr = '-' ∨ UpperLetter o.attr

instance (s : Schedule) : Decidable (AttrsInRange s) := by
  unfold AttrsInRange
  exact inferInstance

/-- The `trans_id` of the last `W` operation on attribute `a` in a sequence of
operations, `0` if there is none. -/
def lastWriteOn (ops : List Operation) (a : Char) : Int :=
  (((ops.filter (fun o => o.op = 'W' ∧ o.attr = a)).getLast?).map Operation.trans_id).getD 0

/-- Transaction `t` has a `W` operation on attribute `a` among `ops`. -/
def WritesOn (ops : List Operation) (a : Char) (t : Int) : Prop :=
  ∃ o ∈ ops, o.trans_id = t ∧ o.op = 'W' ∧ o.attr = a

instance (ops : List Operation) (a : Char) (t : Int) : Decidable (WritesOn ops a t) := by
  unfold WritesOn
  exact inferInstance

/-- The last element `t` of `p` such that transaction `t` has a `W` operation on
`a` among `ops`, `0` if there is none. -/
def lastWritingElement (ops : List Operation) (p : List Int) (a : Char) : Int :=
  ((p.filter (fun t => WritesOn ops a t)).getLast?).getD 0

/-- Final-write agreement on attribute `a`: the last writer of `a` in the
schedule is the last element of the serial order `p` that writes `a`. -/
def FinalWriterAgrees (s : Schedule) (p : List Int) (a : Char) : Prop :=
  lastWriteOn s.ops a = lastWritingElement s.ops p a

/-- The orderings that the search can still produce from `arr` once the
positions below `start` are settled: the permutations of `arr` that agree with it
on the first `start` entries. -/
def Reachable (arr : List Int) (start : Nat) (q : List Int) : Prop :=
  q.Perm arr ∧ q.take start = arr.take start

/-- What a call of the search on `arr` from position `start` yields, in terms
of the test applied to the orderings it can reach: `none` only if the test is
undefined on one of them, `1` only if one of them passes, and `0` only if all
of them fail, the array being restored. -/
def SearchOutcome (test : List Int → Option Bool) (arr : List Int) (start : Nat)
    (r : Option (Bool × List Int)) : Prop :=
  match r with
  | none => ∃ q, Reachable arr start q ∧ test q = none
  | some (true, _) => ∃ q, Reachable arr start q ∧ test q = some true
  | some (false, arr1) => arr1 = arr ∧ ∀ q, Reachable arr start q → test q = some false

/-- The same for the loop over the candidates `cands` for position `start`. -/
def LoopOutcome (test : List Int → Option Bool) (arr : List Int) (start : Nat)
    (cands : List Nat) (r : Option (Bool × List Int)) : Prop :=
  match r with
  | none => ∃ q, Reachable arr start q ∧ test q = none
  | some (true, _) => ∃ q, Reachable arr start q ∧ test q = some true
  | some (false, arr1) => arr1 = arr ∧
      ∀ i ∈ cands, ∀ q, Reachable (swap arr start i) (start + 1) q → test q = some false

/-- The conflict test made on a pair of operations by
`is_conflict_serializable`: different transactions, same attribute other than
`'-'`, and at least one of the two is a `W`. -/
def Conflict (op1 op2 : Operation) : Prop :=
  op1.trans_id ≠ op2.trans_id ∧ op1.attr = op2.attr ∧ op1.attr ≠ '-' ∧
    (op1.op = 'W' ∨ op2.op = 'W')

/-- Operation `op1` stands at a position of `ops` before a position where
`op2` stands. -/
def InOrder (ops : List Operation) (op1 op2 : Operation) : Prop :=
  ∃ i j : Nat, i < j ∧ ops[i]? = some op1 ∧ ops[j]? = some op2

/-- The conflict relation on transactions: `u` precedes `v` when `u ≠ v` and
there are positions `i < j` with `ops[i].trans_id = u`, `ops[j].trans_id = v`,
`ops[i].attr = ops[j].attr ≠ '-'` and at least one of the two operations is a
`W`. -/
def Precedes (ops : List Operation) (u v : Int) : Prop :=
  u ≠ v ∧ ∃ (i j : Nat) (oi oj : Operation), i < j ∧ ops[i]? = some oi ∧ ops[j]? = some oj ∧
    oi.trans_id = u ∧ oj.trans_id = v ∧ oi.attr = oj.attr ∧ oi.attr ≠ '-' ∧
    (oi.op = 'W' ∨ oj.op = 'W')

/-- The conflict relation has no cycle. -/
def ConflictAcyclic (ops : List Operation) : Prop :=
  ∀ u, ¬ Relation.TransGen (Precedes ops) u u

/-- Every operation of the schedule belongs to a transaction listed in
`trans_ids`. -/
def Covered (s : Schedule) : Prop :=
  ∀ o ∈ s.ops, o.trans_id ∈ s.trans_ids

/-- The graph vertex of a transaction: its index in `trans_ids`. -/
def vertex_of (s : Schedule) (t : Int) : Nat := (get_trans_index s t).toNat

/-- The schedule has been finalised: it is the result of
`find_unique_transactions`. -/
def Finalised (s : Schedule) : Prop :=
  ∃ s0, s = find_unique_transactions s0

/-- The serial schedule for the order `p`: the operations of each transaction,
in their original relative order, one transaction after the other in the order
`p`.  Every operation is paired with its position in the original schedule. -/
def serial_schedule (ops : List Operation) (p : List Int) : List (Nat × Operation) :=
  p.flatMap (fun t => ops.enum.filter (fun e => e.2.trans_id = t))

/-- The reads-from pairs of a sequence of operations: for each `R` operation,
its original position and the transaction of the most recent preceding `W` on the
same attribute in that sequence (`0` if there is none). -/
def readsFrom (l : List (Nat × Operation)) : List (Nat × Int) :=
  (List.range l.length).filterMap (fun k =>
    match l[k]? with
    | some (i, o) =>
      if o.op = 'R' then some (i, lastWriteOn ((l.take k).map Prod.snd) o.attr) else none
    | none => none)

/-- View equivalence of two sequences of the same operations: every read reads
from the same transaction, and every attribute has the same final writer. -/
def ViewEquivalent (l1 l2 : List (Nat × Operation)) : Prop :=
  (∀ e, e ∈ readsFrom l1 ↔ e ∈ readsFrom l2) ∧
    ∀ a, lastWriteOn (l1.map Prod.snd) a = lastWriteOn (l2.map Prod.snd) a

/-- The schedule is view-equivalent to some serial schedule of its
transactions. -/
def ViewSerializable (s : Schedule) : Prop :=
  ∃ p, p.Perm s.trans_ids ∧ ViewEquivalent s.ops.enum (serial_schedule s.ops p)

/-! ## Sample schedules -/

/-- The serial schedule `R1(A) W1(A) C1 R2(A) W2(A) C2`, finalised. -/
def schedule_serial : Schedule :=
  find_unique_transactions (Schedule.mk
    [Operation.mk 1 1 'R' 'A', Operation.mk 2 1 'W' 'A', Operation.mk 3 1 'C' '-',
     Operation.mk 4 2 'R' 'A', Operation.mk 5 2 'W' 'A', Operation.mk 6 2 'C' '-'] [])

/-- The one-transaction schedule `W1(A) R1(A) C1`, finalised. -/
def schedule_single : Schedule :=
  find_unique_transactions (Schedule.mk
    [Operation.mk 1 1 'W' 'A', Operation.mk 2 1 'R' 'A', Operation.mk 3 1 'C' '-'] [])

/-- The schedule `R1(A) W2(A) W1(A) W3(A) C1 C2 C3`, finalised. -/
def schedule_blind_write : Schedule :=
  find_unique_transactions (Schedule.mk
    [Operation.mk 1 1 'R' 'A', Operation.mk 2 2 'W' 'A', Operation.mk 3 1 'W' 'A',
     Operation.mk 4 3 'W' 'A', Operation.mk 5 1 'C' '-', Operation.mk 6 2 'C' '-',
     Operation.mk 7 3 'C' '-'] [])

/-- The schedule `R1(A) W2(A) W1(A) R1(A) W3(A) C1 C2 C3`, finalised: transaction
1 reads `A` again after its own write. -/
def schedule_own_read : Schedule :=
  find_unique_transactions (Schedule.mk
    [Operation.mk 1 1 'R' 'A', Operation.mk 2 2 'W' 'A', Operation.mk 3 1 'W' 'A',
     Operation.mk 4 1 'R' 'A', Operation.mk 5 3 'W' 'A', Operation.mk 6 1 'C' '-',
     Operation.mk 7 2 'C' '-', Operation.mk 8 3 'C' '-'] [])

/-- The serial schedule `W1(A) R1(A) C1 W2(A) C2`, finalised: transaction 1 reads
`A` after its own write. -/
def schedule_serial_own_read : Schedule :=
  find_unique_transactions (Schedule.mk
    [Operation.mk 1 1 'W' 'A', Operation.mk 2 1 'R' 'A', Operation.mk 3 1 'C' '-',
     Operation.mk 4 2 'W' 'A', Operation.mk 5 2 'C' '-'] [])

/-- The schedule `R2(a) W1(a) W2(a) C1 C2`, finalised, whose attribute is a
lowercase letter. -/
def schedule_lowercase : Schedule :=
  find_unique_transactions (Schedule.mk
    [Operation.mk 1 2 'R' 'a', Operation.mk 2 1 'W' 'a', Operation.mk 3 2 'W' 'a',
     Operation.mk 4 1 'C' '-', Operation.mk 5 2 'C' '-'] [])

/-- The schedule `R1(A) W2(B) W1(A) R2(B) C2 C1`, finalised: two interleaved
transactions on different attributes. -/
def schedule_disjoint : Schedule :=
  find_unique_transactions (Schedule.mk
    [Operation.mk 1 1 'R' 'A', Operation.mk 2 2 'W' 'B', Operation.mk 3 1 'W' 'A',
     Operation.mk 4 2 'R' 'B', Operation.mk 5 2 'C' '-', Operation.mk 6 1 'C' '-'] [])

/-- No two operations of different transactions carry the same attribute other
than `'-'`. -/
def DisjointAttrs (ops : List Operation) : Prop :=
  ∀ o1 ∈ ops, ∀ o2 ∈ ops, o1.trans_id ≠ o2.trans_id → o1.attr = o2.attr → o1.attr = '-'

instance (ops : List Operation) : Decidable (DisjointAttrs ops) := by
  unfold DisjointAttrs
  exact inferInstance

/-- The argument pairs `(idx1, idx2)` of the `add_edge` calls made by the inner
loop of `is_conflict_serializable` for a fixed `op1`, in the order of the
calls. -/
def add_edge_calls_inner (s : Schedule) (op1 : Operation) : List Operation → List (Int × Int)
  | [] => []
  | op2 :: rest =>
    if op1.trans_id = op2.trans_id ∨ op1.attr ≠ op2.attr ∨ op1.attr = '-' then
      add_edge_calls_inner s op1 rest
    else if op1.op = 'W' ∨ op2.op = 'W' then
      (get_trans_index s op1.trans_id, get_trans_index s op2.trans_id) ::
        add_edge_calls_inner s op1 rest
    else add_edge_calls_inner s op1 rest

/-- The argument pairs of all `add_edge` calls made by the two loops of
`is_conflict_serializable`, in the order of the calls. -/
def add_edge_calls (s : Schedule) : List Operation → List (Int × Int)
  | [] => []
  | op1 :: rest => add_edge_calls_inner s op1 rest ++ add_edge_calls s rest

/-- The graph after a sequence of `add_edge` calls. -/
def apply_edge_calls : List (Int × Int) → Graph → Option Graph
  | [], g => some g
  | c :: rest, g =>
    match add_edge g c.1 c.2 with
    | none => none
    | some g1 => apply_edge_calls rest g1

/-- The schedule is already serial: the operations of each transaction are
contiguous, that is, an operation standing between two operations of one
transaction belongs to that transaction as well. -/
def Contiguous (ops : List Operation) : Prop :=
  ∀ k < ops.length, ∀ j < k, ∀ i < j,
    (ops.map Operation.trans_id).getD i 0 = (ops.map Operation.trans_id).getD k 0 →
    (ops.map Operation.trans_id).getD j 0 = (ops.map Operation.trans_id).getD i 0

instance (ops : List Operation) : Decidable (Contiguous ops) := by
  unfold Contiguous
  exact inferInstance

/-- The content of an operation apart from its arrival time. -/
def op_key (o : Operation) : Int × Char × Char := (o.trans_id, o.op, o.attr)

/-- The operations of three transactions `t1`, `t2`, `t3`, each consisting only of
one `W(A)` followed by its Commit. -/
def scenario_b_keys (t1 t2 t3 : Int) : List (Int × Char × Char) :=
  [(t1, 'W', 'A'), (t1, 'C', '-'), (t2, 'W', 'A'), (t2, 'C', '-'), (t3, 'W', 'A'), (t3, 'C', '-')]

/-- The sequence `ops` is an interleaving of three distinct transactions `t1`,
`t2`, `t3`, each consisting only of one `W(A)` followed by its Commit: it holds
exactly these six operations, and each `W(A)` stands before the Commit of its
transaction. -/
def ScenarioB (t1 t2 t3 : Int) (ops : List Operation) : Prop :=
  t1 ≠ t2 ∧ t1 ≠ t3 ∧ t2 ≠ t3 ∧ (ops.map op_key).Perm (scenario_b_keys t1 t2 t3) ∧
    ∀ t ∈ [t1, t2, t3],
      (ops.map op_key).indexOf (t, 'W', 'A') < (ops.map op_key).indexOf (t, 'C', '-')

instance (t1 t2 t3 : Int) (ops : List Operation) : Decidable (ScenarioB t1 t2 t3 ops) := by
  unfold ScenarioB
  exact inferInstance

/-- The interleaving `W1(A) W2(A) W3(A) C1 C2 C3`. -/
def scenario_b_ops : List Operation :=
  [Operation.mk 1 1 'W' 'A', Operation.mk 2 2 'W' 'A', Operation.mk 3 3 'W' 'A',
   Operation.mk 4 1 'C' '-', Operation.mk 5 2 'C' '-', Operation.mk 6 3 'C' '-']

/-- The largest value of a 32-bit signed `int`. -/
def INT_MAX : Int := 2147483647

/-- A schedule as built by `create_schedule` and `add_operation`, not yet
finalised: `W3(A) R1(A) W2(B) C1 C3 C2`. -/
def schedule_raw : Schedule :=
  Schedule.mk
    [Operation.mk 1 3 'W' 'A', Operation.mk 2 1 'R' 'A', Operation.mk 3 2 'W' 'B',
     Operation.mk 4 1 'C' '-', Operation.mk 5 3 'C' '-', Operation.mk 6 2 'C' '-'] []

/-! ## main.c -/

/-- Function `add_active_trans` on the array of the `count` active transactions:
nothing happens when `trans_id` is already listed, otherwise it is appended. -/
def add_active_trans (active_list : List Int) (trans_id : Int) : List Int :=
  if trans_id ∈ active_list then active_list else active_list ++ [trans_id]

/-- Function `remove_active_trans`: when `trans_id` is listed, its first
occurrence is overwritten with the last entry and the count is decremented. -/
def remove_active_trans (active_list : List Int) (trans_id : Int) : List Int :=
  if trans_id ∈ active_list then
    (active_list.set (active_list.indexOf trans_id)
      (active_list.getD (active_list.length - 1) 0)).dropLast
  else active_list

/-- The variables of `main` that drive the segmentation, together with the list
of the calls `process_schedule(current_schedule, schedule_counter)` made so far. -/
structure MainState where
  current_schedule : Schedule
  active_trans : List Int
  schedule_counter : Int
  processed : List (Schedule × Int)

/-- One iteration of the read loop of `main` on the record `r` delivered by
`scanf` (its four fields are those of an operation). -/
def main_step (st : MainState) (r : Operation) : MainState :=
  let current := add_operation st.current_schedule r.time r.trans_id r.op r.attr
  let active1 := add_active_trans st.active_trans r.trans_id
  let active2 := if r.op = 'C' then remove_active_trans active1 r.trans_id else active1
  if active2.length = 0 ∧ 0 < current.op_count then
    MainState.mk create_schedule active2 (st.schedule_counter + 1)
      (st.processed ++ [(current, st.schedule_counter)])
  else MainState.mk current active2 st.schedule_counter st.processed

/-- The read loop of `main` as a fold over the input records, from the initial
state (empty schedule, no active transaction, counter `1`). -/
def main_loop (input : List Operation) : MainState :=
  input.foldl main_step (MainState.mk create_schedule [] 1 [])

/-- The last operation of transaction `t` among `ops` exists and is its
Commit. -/
def LastIsCommit (ops : List Operation) (t : Int) : Prop :=
  ∃ o, (ops.filter (fun x => x.trans_id = t)).getLast? = some o ∧ o.op = 'C'

/-- Transaction `t` occurs among `ops` and its last operation there is not a
Commit. -/
def Uncommitted (ops : List Operation) (t : Int) : Prop :=
  ∃ o, (ops.filter (fun x => x.trans_id = t)).getLast? = some o ∧ o.op ≠ 'C'

/-- An input stream with two blocks and a trailing open transaction:
`R1(A) W2(A) C1 C2 W3(B) C3 R4(A)`. -/
def sample_input : List Operation :=
  [Operation.mk 1 1 'R' 'A', Operation.mk 2 2 'W' 'A', Operation.mk 3 1 'C' '-',
   Operation.mk 4 2 'C' '-', Operation.mk 5 3 'W' 'B', Operation.mk 6 3 'C' '-',
   Operation.mk 7 4 'R' 'A']

/-- The properties of a schedule handed to `process_schedule`: it is not empty,
it ends with a Commit, and the last operation of every transaction that occurs
in it is its Commit. -/
def BlockClosed (c : Schedule × Int) : Prop :=
  c.1.ops ≠ [] ∧ (∃ o, c.1.ops.getLast? = some o ∧ o.op = 'C') ∧
    ∀ o ∈ c.1.ops, LastIsCommit c.1.ops o.trans_id

/-- The invariant of the read loop after the records `input`: the active list
has no repetition and holds exactly the transactions of the current block whose
last operation is not a Commit; every schedule handed over is closed; the
indices handed over are `1, 2, ...` and the counter is the next one; the blocks
handed over, followed by the current block, are the input. -/
def MainInv (input : List Operation) (st : MainState) : Prop :=
  st.active_trans.Nodup ∧
  (∀ t, t ∈ st.active_trans ↔ Uncommitted st.current_schedule.ops t) ∧
  (∀ c ∈ st.processed, BlockClosed c) ∧
  st.schedule_counter = (st.processed.length : Int) + 1 ∧
  st.processed.map Prod.snd = (List.range st.processed.length).map (fun k : Nat => (k : Int) + 1) ∧
  st.processed.flatMap (fun c => c.1.ops) ++ st.current_schedule.ops = input

/-! ## The permutation search with the list of tested orderings -/

/-- The loop of `check_all_permutations` as in `check_all_permutations_loop`,
where every call also reports the orderings handed to the test, in the order of
the tests. -/
def check_all_permutations_log_loop
    (visit : List Int → Option (Bool × List Int) × List (List Int)) (start : Nat) :
    List Nat → List Int → Option (Bool × List Int) × List (List Int)
  | [], arr => (some (false, arr), [])
  | i :: rest, arr =>
    match visit (swap arr start i) with
    | (none, log) => (none, log)
    | (some (true, arr1), log) => (some (true, arr1), log)
    | (some (false, arr1), log) =>
      ((check_all_permutations_log_loop visit start rest (swap arr1 start i)).1,
        log ++ (check_all_permutations_log_loop visit start rest (swap arr1 start i)).2)

/-- The recursion of `check_all_permutations` as in `check_all_permutations_rec`,
for an arbitrary test on complete orderings, with the list of the orderings
handed to the test. -/
def check_all_permutations_log_rec (test : List Int → Option Bool) (end_v : Nat) :
    Nat → List Int → Nat → Option (Bool × List Int) × List (List Int)
  | 0, arr, _ =>
    (match test (arr.take (end_v + 1)) with
      | none => none
      | some r => some (r, arr),
     [arr.take (end_v + 1)])
  | d + 1, arr, start =>
    check_all_permutations_log_loop
      (fun arr1 => check_all_permutations_log_rec test end_v d arr1 (start + 1))
      start (List.range' start (d + 2)) arr

/-- The search `check_all_permutations(s, arr, start, end)` for an arbitrary
test, with the list of the orderings handed to the test. -/
def check_all_permutations_log (test : List Int → Option Bool) (arr : List Int) (start : Nat)
    (end_v : Int) : Option (Bool × List Int) × List (List Int) :=
  if end_v < (start : Int) then (some (false, arr), [])
  else check_all_permutations_log_rec test end_v.toNat (end_v.toNat - start) arr start

/-- The outcome of the search from position `start` when every test fails: the
result is `0`, the array is restored, and the tested orderings are, without
repetition, the orderings reachable from `arr`. -/
def EnumSpec (arr : List Int) (start : Nat)
    (r : Option (Bool × List Int) × List (List Int)) : Prop :=
  r.1 = some (false, arr) ∧ r.2.Nodup ∧ ∀ q, q ∈ r.2 ↔ Reachable arr start q

/-- The outcome `r` of the search for the test `test`, compared with the list
`full` of the orderings tested when every test fails: either every ordering of
`full` fails, all of them are tested and the result is `0` with the array
restored; or the tested orderings are those of `full` up to and including the
first one that does not fail, which passes when the result is `1` and has no
test result when the search has none. -/
def StopSpec (test : List Int → Option Bool) (arr : List Int) (full : List (List Int))
    (r : Option (Bool × List Int) × List (List Int)) : Prop :=
  ((∀ x ∈ full, test x = some false) ∧ r = (some (false, arr), full)) ∨
  ∃ l q rest, full = l ++ q :: rest ∧ (∀ x ∈ l, test x = some false) ∧ r.2 = l ++ [q] ∧
    ((test q = none ∧ r.1 = none) ∨ (test q = some true ∧ ∃ arr1, r.1 = some (true, arr1)))

/-! ## Reads after an own write -/

/-- No transaction reads an attribute after having itself written that
attribute: before an `R` operation, no `W` operation of the same transaction
carries the same attribute. -/
def NoOwnRead (ops : List Operation) : Prop :=
  ∀ e ∈ ops.enum, e.2.op = 'R' →
    ∀ w ∈ ops.take e.1, w.trans_id = e.2.trans_id → w.op = 'W' → w.attr ≠ e.2.attr

instance (ops : List Operation) : Decidable (NoOwnRead ops) := by
  unfold NoOwnRead
  exact inferInstance

section DfsProof

open Relation

theorem getD_set_color (c : List Color) (u w : Nat) (a : Color) :
    (c.set u a).getD w Color.WHITE =
      if w = u ∧ u < c.length then a else c.getD w Color.WHITE := by
  simp only [List.getD_eq_getElem?_getD, List.getElem?_set]
  by_cases h : u = w
  · subst h
    by_cases h2 : u < c.length
    · simp [h2]
    · simp [h2, List.getElem?_eq_none (Nat.le_of_not_lt h2)]
  · have h3 : ¬ w = u := fun e => h e.symm
    simp [h, h3]

theorem lt_length_of_getD_ne {c : List Color} {w : Nat}
    (h : c.getD w Color.WHITE ≠ Color.WHITE) : w < c.length := by
  by_contra hlt
  apply h
  simp [List.getD_eq_getElem?_getD, List.getElem?_eq_none (Nat.le_of_not_lt hlt)]

theorem colorStep_refl (c : List Color) : ColorStep c c :=
  ⟨rfl, fun _ => Or.inl rfl⟩

theorem colorStep_trans {a b c : List Color} (h1 : ColorStep a b) (h2 : ColorStep b c) :
    ColorStep a c := by
  refine ⟨h2.1.trans h1.1, fun w => ?_⟩
  rcases h2.2 w with e2 | ⟨e2, e2b⟩
  · rcases h1.2 w with e1 | ⟨e1, e1b⟩
    · exact Or.inl (e2.trans e1)
    · exact Or.inr ⟨e1, e2.trans e1b⟩
  · rcases h1.2 w with e1 | ⟨e1, e1b⟩
    · exact Or.inr ⟨e1 ▸ e2, e2b⟩
    · rw [e1b] at e2; cases e2

theorem colorStep_black {c c1 : List Color} (h : ColorStep c c1) {w : Nat}
    (hb : c.getD w Color.WHITE = Color.BLACK) : c1.getD w Color.WHITE = Color.BLACK := by
  rcases h.2 w with e | ⟨e, _⟩
  · rw [e, hb]
  · rw [hb] at e; cases e

theorem colorStep_gray_iff {c c1 : List Color} (h : ColorStep c c1) (w : Nat) :
    c1.getD w Color.WHITE = Color.GRAY ↔ c.getD w Color.WHITE = Color.GRAY := by
  rcases h.2 w with e | ⟨e, e1⟩
  · rw [e]
  · rw [e, e1]; constructor <;> intro h <;> cases h

theorem colorStep_white {c c1 : List Color} (h : ColorStep c c1) {w : Nat}
    (hw : c1.getD w Color.WHITE = Color.WHITE) : c.getD w Color.WHITE = Color.WHITE := by
  rcases h.2 w with e | ⟨e, _⟩
  · rw [← e, hw]
  · exact e

theorem whiteCount_le_of_step (g : Graph) {c c1 : List Color} (h : ColorStep c c1) :
    whiteCount g c1 ≤ whiteCount g c := by
  apply Finset.card_le_card
  intro w hw
  simp only [Finset.mem_filter] at hw ⊢
  exact ⟨hw.1, colorStep_white h hw.2⟩

theorem whiteCount_set_gray (g : Graph) (c : List Color) (u : Nat) (hu : u < g.num_vertices)
    (hlen : c.length = g.num_vertices) (hw : c.getD u Color.WHITE = Color.WHITE) :
    whiteCount g (c.set u Color.GRAY) < whiteCount g c := by
  apply Finset.card_lt_card
  rw [Finset.ssubset_iff_of_subset]
  · refine ⟨u, ?_, ?_⟩
    · simp only [Finset.mem_filter, Finset.mem_range]
      exact ⟨hu, hw⟩
    · simp only [Finset.mem_filter, Finset.mem_range, getD_set_color, hlen, hu, and_self,
        if_true, true_and]
      decide
  · intro w hw1
    simp only [Finset.mem_filter, getD_set_color] at hw1 ⊢
    refine ⟨hw1.1, ?_⟩
    have h2 := hw1.2
    split_ifs at h2 with hc
    exact h2

theorem dfsInv_black_reach {g : Graph} {c : List Color} (h : DfsInv g c) {w x : Nat}
    (hb : c.getD w Color.WHITE = Color.BLACK) (hr : ReflTransGen g.edge w x) :
    c.getD x Color.WHITE = Color.BLACK := by
  induction hr with
  | refl => exact hb
  | tail _ hstep ih => exact h.2.1 _ _ ih hstep

theorem transGen_of_reach_step {α : Type} {r : α → α → Prop} {a b c : α}
    (h : ReflTransGen r a b) (hs : r b c) : TransGen r a c := by
  rcases Relation.reflTransGen_iff_eq_or_transGen.1 h with e | ht
  · subst e; exact TransGen.single hs
  · exact ht.tail hs

theorem has_cycle_loop_spec (g : Graph) (fuel : Nat) (u : Nat) (hu : u < g.num_vertices)
    (ih : UtilSpec g fuel) :
    ∀ (vs : List Nat) (c : List Color), (∀ v ∈ vs, v < g.num_vertices) →
      c.getD u Color.WHITE = Color.GRAY → DfsInv g c →
      (∀ w, c.getD w Color.WHITE = Color.GRAY → ReflTransGen g.edge w u) →
      whiteCount g c ≤ fuel →
      ∃ b c1, has_cycle_loop g (has_cycle_util g fuel) u vs c = some (b, c1) ∧
        (b = true → g.HasCycle) ∧
        (b = false → ColorStep c c1 ∧ DfsInv g c1 ∧
            ∀ v ∈ vs, g.edge u v → c1.getD v Color.WHITE = Color.BLACK) := by
  intro vs
  induction vs with
  | nil =>
    intro c _ _ hinv _ _
    exact ⟨false, c, rfl, by simp, fun _ => ⟨colorStep_refl c, hinv, by simp⟩⟩
  | cons v vs ihvs =>
    intro c hvs hgu hinv hreach hfuel
    have hv : v < g.num_vertices := hvs v (List.mem_cons_self _ _)
    have hvs1 : ∀ x ∈ vs, x < g.num_vertices := fun x hx => hvs x (List.mem_cons_of_mem _ hx)
    rw [has_cycle_loop]
    by_cases he : g.entry u v = 1
    · rw [if_pos he]
      have huv : g.edge u v := ⟨hu, hv, he⟩
      by_cases hg : c.getD v Color.WHITE = Color.GRAY
      · rw [if_pos hg]
        refine ⟨true, c, rfl, fun _ => ⟨v, ?_⟩, by simp⟩
        exact transGen_of_reach_step (hreach v hg) huv
      · rw [if_neg hg]
        by_cases hwv : c.getD v Color.WHITE = Color.WHITE
        · rw [if_pos hwv]
          obtain ⟨b, c1, hcall, htrue, hfalse⟩ :=
            ih v c hv hwv hinv (fun w hw => (hreach w hw).tail huv) hfuel
          rw [hcall]
          cases b with
          | true => exact ⟨true, c1, rfl, fun _ => htrue rfl, by simp⟩
          | false =>
            obtain ⟨hstep, hinv1, hblack⟩ := hfalse rfl
            obtain ⟨b2, c2, hrest, htrue2, hfalse2⟩ := ihvs c1 hvs1
              ((colorStep_gray_iff hstep u).2 hgu) hinv1
              (fun w hw => hreach w ((colorStep_gray_iff hstep w).1 hw))
              (le_trans (whiteCount_le_of_step g hstep) hfuel)
            refine ⟨b2, c2, hrest, htrue2, fun hb => ?_⟩
            obtain ⟨hstep2, hinv2, hall⟩ := hfalse2 hb
            refine ⟨colorStep_trans hstep hstep2, hinv2, fun x hx hux => ?_⟩
            rcases List.mem_cons.1 hx with rfl | hx
            · exact colorStep_black hstep2 hblack
            · exact hall x hx hux
        · rw [if_neg hwv]
          have hbv : c.getD v Color.WHITE = Color.BLACK := by
            cases hcv : c.getD v Color.WHITE with
            | WHITE => exact absurd hcv hwv
            | GRAY => exact absurd hcv hg
            | BLACK => rfl
          obtain ⟨b2, c2, hrest, htrue2, hfalse2⟩ := ihvs c hvs1 hgu hinv hreach hfuel
          refine ⟨b2, c2, hrest, htrue2, fun hb => ?_⟩
          obtain ⟨hstep2, hinv2, hall⟩ := hfalse2 hb
          refine ⟨hstep2, hinv2, fun x hx hux => ?_⟩
          rcases List.mem_cons.1 hx with rfl | hx
          · exact colorStep_black hstep2 hbv
          · exact hall x hx hux
    · rw [if_neg he]
      obtain ⟨b2, c2, hrest, htrue2, hfalse2⟩ := ihvs c hvs1 hgu hinv hreach hfuel
      refine ⟨b2, c2, hrest, htrue2, fun hb => ?_⟩
      obtain ⟨hstep2, hinv2, hall⟩ := hfalse2 hb
      refine ⟨hstep2, hinv2, fun x hx hux => ?_⟩
      rcases List.mem_cons.1 hx with rfl | hx
      · exact absurd hux.2.2 he
      · exact hall x hx hux

theorem has_cycle_util_spec (g : Graph) : ∀ fuel, UtilSpec g fuel := by
  intro fuel
  induction fuel with
  | zero =>
    intro v c hv hw _ _ hfuel
    exfalso
    have hpos : 0 < whiteCount g c := by
      apply Finset.card_pos.2
      exact ⟨v, by simp only [Finset.mem_filter, Finset.mem_range]; exact ⟨hv, hw⟩⟩
    omega
  | succ fuel ih =>
    intro u c hu hw hinv hreach hfuel
    obtain ⟨hlen, hclosed, hnocyc⟩ := hinv
    have hul : u < c.length := hlen ▸ hu
    -- the colour array after `color[u] = GRAY`
    have hget0 : ∀ w, (c.set u Color.GRAY).getD w Color.WHITE =
        if w = u then Color.GRAY else c.getD w Color.WHITE := by
      intro w
      rw [getD_set_color]
      by_cases e : w = u <;> simp [e, hul]
    have hblack0 : ∀ w, (c.set u Color.GRAY).getD w Color.WHITE = Color.BLACK ↔
        c.getD w Color.WHITE = Color.BLACK := by
      intro w
      rw [hget0]
      by_cases e : w = u
      · subst e; rw [if_pos rfl, hw]; constructor <;> intro h <;> cases h
      · rw [if_neg e]
    have hinv0 : DfsInv g (c.set u Color.GRAY) := by
      refine ⟨by rw [List.length_set]; exact hlen, fun w x hb hwx => ?_, fun w hb => ?_⟩
      · exact (hblack0 x).2 (hclosed w x ((hblack0 w).1 hb) hwx)
      · exact hnocyc w ((hblack0 w).1 hb)
    have hreach0 : ∀ w, (c.set u Color.GRAY).getD w Color.WHITE = Color.GRAY →
        ReflTransGen g.edge w u := by
      intro w hg
      rw [hget0] at hg
      by_cases e : w = u
      · subst e; exact ReflTransGen.refl
      · rw [if_neg e] at hg; exact hreach w hg
    have hfuel0 : whiteCount g (c.set u Color.GRAY) ≤ fuel := by
      have := whiteCount_set_gray g c u hu hlen hw
      omega
    obtain ⟨b, c1, hloop, htrue, hfalse⟩ := has_cycle_loop_spec g fuel u hu ih
      (List.range g.num_vertices) (c.set u Color.GRAY) (fun v hv => List.mem_range.1 hv)
      (by rw [hget0, if_pos rfl]) hinv0 hreach0 hfuel0
    rw [has_cycle_util, hloop]
    cases b with
    | true => exact ⟨true, c1, rfl, fun _ => htrue rfl, by simp⟩
    | false =>
      obtain ⟨hstep, hinv1, hall⟩ := hfalse rfl
      obtain ⟨hlen1, hclosed1, hnocyc1⟩ := hinv1
      have hul1 : u < c1.length := hlen1 ▸ hu
      have hgray1 : c1.getD u Color.WHITE = Color.GRAY :=
        (colorStep_gray_iff hstep u).2 (by rw [hget0, if_pos rfl])
      have hget1 : ∀ w, (c1.set u Color.BLACK).getD w Color.WHITE =
          if w = u then Color.BLACK else c1.getD w Color.WHITE := by
        intro w
        rw [getD_set_color]
        by_cases e : w = u <;> simp [e, hul1]
      have hout : ∀ x, g.edge u x → c1.getD x Color.WHITE = Color.BLACK :=
        fun x hx => hall x (List.mem_range.2 hx.2.1) hx
      refine ⟨false, c1.set u Color.BLACK, rfl, by simp, fun _ => ⟨⟨?_, ?_⟩, ⟨?_, ?_, ?_⟩, ?_⟩⟩
      · rw [List.length_set, hstep.1, List.length_set]
      · intro w
        rw [hget1]
        by_cases e : w = u
        · subst e; rw [if_pos rfl]; exact Or.inr ⟨hw, rfl⟩
        · rw [if_neg e]
          have := hstep.2 w
          rw [hget0, if_neg e] at this
          exact this
      · rw [List.length_set]; exact hlen1
      · intro w x hb hwx
        rw [hget1] at hb ⊢
        by_cases ex : x = u
        · rw [if_pos ex]
        · rw [if_neg ex]
          by_cases e : w = u
          · subst e; exact hout x hwx
          · rw [if_neg e] at hb; exact hclosed1 w x hb hwx
      · intro w hb hcyc
        rw [hget1] at hb
        by_cases e : w = u
        · subst e
          obtain ⟨x, hwx, hxw⟩ := TransGen.head'_iff.1 hcyc
          have hxb := hout x hwx
          have := dfsInv_black_reach ⟨hlen1, hclosed1, hnocyc1⟩ hxb hxw
          rw [hgray1] at this
          cases this
        · rw [if_neg e] at hb
          exact hnocyc1 w hb hcyc
      · rw [hget1, if_pos rfl]

theorem has_cycle_scan_spec (g : Graph) :
    ∀ (l : List Nat) (c : List Color), (∀ i ∈ l, i < g.num_vertices) → DfsInv g c →
      (∀ w, c.getD w Color.WHITE ≠ Color.GRAY) →
      ∃ b, has_cycle_scan g l c = some b ∧ (b = true → g.HasCycle) ∧
        (b = false → ∃ c1, ColorStep c c1 ∧ DfsInv g c1 ∧
          ∀ i ∈ l, c1.getD i Color.WHITE = Color.BLACK) := by
  intro l
  induction l with
  | nil =>
    intro c _ hinv _
    exact ⟨false, rfl, by simp, fun _ => ⟨c, colorStep_refl c, hinv, by simp⟩⟩
  | cons i rest ih =>
    intro c hl hinv hnogray
    have hi : i < g.num_vertices := hl i (List.mem_cons_self _ _)
    have hrest : ∀ x ∈ rest, x < g.num_vertices := fun x hx => hl x (List.mem_cons_of_mem _ hx)
    rw [has_cycle_scan]
    by_cases hw : c.getD i Color.WHITE = Color.WHITE
    · rw [if_pos hw]
      have hfuel : whiteCount g c ≤ g.num_vertices := by
        unfold whiteCount
        exact (Finset.card_filter_le _ _).trans (by simp)
      obtain ⟨b, c1, hcall, htrue, hfalse⟩ := has_cycle_util_spec g g.num_vertices i c hi hw hinv
        (fun w hg => absurd hg (hnogray w)) hfuel
      rw [hcall]
      cases b with
      | true => exact ⟨true, rfl, fun _ => htrue rfl, by simp⟩
      | false =>
        obtain ⟨hstep, hinv1, hblack⟩ := hfalse rfl
        obtain ⟨b2, hscan, htrue2, hfalse2⟩ := ih c1 hrest hinv1
          (fun w hg => hnogray w ((colorStep_gray_iff hstep w).1 hg))
        refine ⟨b2, hscan, htrue2, fun hb => ?_⟩
        obtain ⟨c2, hstep2, hinv2, hall⟩ := hfalse2 hb
        refine ⟨c2, colorStep_trans hstep hstep2, hinv2, fun x hx => ?_⟩
        rcases List.mem_cons.1 hx with rfl | hx
        · exact colorStep_black hstep2 hblack
        · exact hall x hx
    · rw [if_neg hw]
      have hbi : c.getD i Color.WHITE = Color.BLACK := by
        cases hci : c.getD i Color.WHITE with
        | WHITE => exact absurd hci hw
        | GRAY => exact absurd hci (hnogray i)
        | BLACK => rfl
      obtain ⟨b2, hscan, htrue2, hfalse2⟩ := ih c hrest hinv hnogray
      refine ⟨b2, hscan, htrue2, fun hb => ?_⟩
      obtain ⟨c2, hstep2, hinv2, hall⟩ := hfalse2 hb
      refine ⟨c2, hstep2, hinv2, fun x hx => ?_⟩
      rcases List.mem_cons.1 hx with rfl | hx
      · exact colorStep_black hstep2 hbi
      · exact hall x hx

theorem getD_replicate_white (n w : Nat) :
    (List.replicate n Color.WHITE).getD w Color.WHITE = Color.WHITE := by
  rw [List.getD_eq_getElem?_getD]
  by_cases h : w < n
  · simp [List.getElem?_replicate, h]
  · simp [List.getElem?_replicate, h]

/-- The search decides the existence of a directed cycle, on every graph. -/
theorem has_cycle_eq_decide (g : Graph) [Decidable g.HasCycle] :
    has_cycle g = some (decide g.HasCycle) := by
  have hinit : DfsInv g (List.replicate g.num_vertices Color.WHITE) := by
    refine ⟨by simp, fun w x hb _ => ?_, fun w hb => ?_⟩ <;>
    · rw [getD_replicate_white] at hb; cases hb
  obtain ⟨b, hscan, htrue, hfalse⟩ := has_cycle_scan_spec g (List.range g.num_vertices)
    (List.replicate g.num_vertices Color.WHITE) (fun i hi => List.mem_range.1 hi) hinit
    (fun w => by rw [getD_replicate_white]; decide)
  unfold has_cycle
  rw [hscan]
  cases b with
  | true => simp [htrue rfl]
  | false =>
    obtain ⟨c1, _, hinv1, hall⟩ := hfalse rfl
    have hno : ¬ g.HasCycle := by
      rintro ⟨v, hv⟩
      obtain ⟨x, hvx, _⟩ := TransGen.head'_iff.1 hv
      exact hinv1.2.2 v (hall v (List.mem_range.2 hvx.1)) hv
    simp [hno]

end DfsProof

/-! ## The two equivalence checks -/

theorem foldl_ite_eq_last {α β : Type} (P : α → Prop) [DecidablePred P] (f : α → β) :
    ∀ (l : List α) (init : β),
      l.foldl (fun acc x => if P x then f x else acc) init =
        (((l.filter (fun x => P x)).getLast?).map f).getD init := by
  intro l
  induction l using List.reverseRecOn with
  | nil => intro init; rfl
  | append_singleton l x ih =>
    intro init
    rw [List.foldl_append, ih, List.filter_append]
    by_cases hx : P x
    · simp [hx, List.getLast?_append]
    · simp [hx]

theorem scan_writes_of_eq (s : Schedule) (a : Char) (last t : Int) :
    scan_writes_of s a last t = if WritesOn s.ops a t then t else last := by
  unfold scan_writes_of
  rw [foldl_ite_eq_last (fun o : Operation => o.trans_id = t ∧ o.op = 'W' ∧ o.attr = a)
    (fun _ => t)]
  by_cases h : WritesOn s.ops a t
  · rw [if_pos h]
    obtain ⟨o, ho, hq⟩ := h
    have hmem : o ∈ s.ops.filter (fun x => x.trans_id = t ∧ x.op = 'W' ∧ x.attr = a) := by
      simp [List.mem_filter, ho, hq]
    cases hl : (s.ops.filter (fun x => x.trans_id = t ∧ x.op = 'W' ∧ x.attr = a)).getLast? with
    | none =>
      rw [List.getLast?_eq_none_iff] at hl
      rw [hl] at hmem
      cases hmem
    | some y => rfl
  · rw [if_neg h]
    have hnil : s.ops.filter (fun x => x.trans_id = t ∧ x.op = 'W' ∧ x.attr = a) = [] := by
      rw [List.filter_eq_nil_iff]
      intro o ho hq
      exact h ⟨o, ho, by simpa using hq⟩
    rw [hnil]
    rfl

theorem find_last_writer_eq (s : Schedule) (a : Char) (k : Nat) :
    find_last_writer s a k = lastWriteOn (s.ops.take k) a := by
  unfold find_last_writer lastWriteOn
  exact foldl_ite_eq_last (fun o : Operation => o.op = 'W' ∧ o.attr = a) Operation.trans_id _ 0

theorem foldl_scan_writes_eq (s : Schedule) (a : Char) (p : List Int) :
    p.foldl (scan_writes_of s a) 0 = lastWritingElement s.ops p a := by
  have h : scan_writes_of s a = fun last t => if WritesOn s.ops a t then id t else last := by
    funext last t
    exact scan_writes_of_eq s a last t
  rw [h, foldl_ite_eq_last (fun t => WritesOn s.ops a t) id]
  unfold lastWritingElement
  simp

theorem find_last_writer_serial_eq (s : Schedule) (p : List Int) (a : Char) :
    find_last_writer_serial s p a = lastWritingElement s.ops p a :=
  foldl_scan_writes_eq s a p

theorem char_eq_of_toNat_eq {a b : Char} (h : a.toNat = b.toNat) : a = b := by
  have h2 := congrArg Char.ofNat h
  rwa [Char.ofNat_toNat, Char.ofNat_toNat] at h2

theorem getD_set_eq {α : Type} (l : List α) (i j : Nat) (a d : α) :
    (l.set i a).getD j d = if j = i ∧ i < l.length then a else l.getD j d := by
  simp only [List.getD_eq_getElem?_getD, List.getElem?_set]
  by_cases h : i = j
  · subst h
    by_cases h2 : i < l.length
    · simp [h2]
    · simp [h2, List.getElem?_eq_none (Nat.le_of_not_lt h2)]
  · have h3 : ¬ j = i := fun e => h e.symm
    simp [h, h3]

theorem attr_index_of_upper {c : Char} (h : UpperLetter c) :
    0 ≤ attr_index c ∧ attr_index c < 26 := by
  unfold UpperLetter at h
  unfold attr_index
  have hA : 'A'.toNat = 65 := by decide
  have hZ : 'Z'.toNat = 90 := by decide
  rw [hA] at h
  rw [hZ] at h
  rw [hA]
  omega

theorem attr_index_toNat_inj {a b : Char} (ha : UpperLetter a) (hb : UpperLetter b)
    (h : (attr_index a).toNat = (attr_index b).toNat) : a = b := by
  apply char_eq_of_toNat_eq
  have h1 := attr_index_of_upper ha
  have h2 := attr_index_of_upper hb
  unfold attr_index at h h1 h2
  omega

theorem final_writer_code_iff (s : Schedule) (p : List Int) (a : Char) :
    find_last_writer s a s.op_count = find_last_writer_serial s p a ↔
      FinalWriterAgrees s p a := by
  rw [find_last_writer_eq, find_last_writer_serial_eq]
  unfold Schedule.op_count FinalWriterAgrees
  rw [List.take_length]

theorem compare_final_writes_loop_spec (s : Schedule) (p : List Int) :
    ∀ (rest : List Operation) (tbl : List Int), tbl.length = 26 →
      (∀ o ∈ rest, o.attr = '-' ∨ UpperLetter o.attr) →
      (∀ o ∈ rest, o.attr ≠ '-' → tbl.getD (attr_index o.attr).toNat 0 ≠ 0 →
        FinalWriterAgrees s p o.attr) →
      ∃ b, compare_final_writes_loop s p rest tbl = some b ∧
        (b = true ↔ ∀ o ∈ rest, o.attr ≠ '-' → FinalWriterAgrees s p o.attr) := by
  intro rest
  induction rest with
  | nil =>
    intro tbl _ _ _
    exact ⟨true, rfl, by simp⟩
  | cons o rest ih =>
    intro tbl hlen hattr hinv
    have hattr1 : ∀ x ∈ rest, x.attr = '-' ∨ UpperLetter x.attr :=
      fun x hx => hattr x (List.mem_cons_of_mem _ hx)
    have hinv1 : ∀ x ∈ rest, x.attr ≠ '-' → tbl.getD (attr_index x.attr).toNat 0 ≠ 0 →
        FinalWriterAgrees s p x.attr := fun x hx => hinv x (List.mem_cons_of_mem _ hx)
    rw [compare_final_writes_loop]
    by_cases hdash : o.attr = '-'
    · rw [if_neg (not_not.2 hdash)]
      obtain ⟨b, hb, hiff⟩ := ih tbl hlen hattr1 hinv1
      refine ⟨b, hb, hiff.trans ?_⟩
      simp only [List.forall_mem_cons]
      exact ⟨fun h => ⟨fun hne => absurd hdash hne, h⟩, fun h => h.2⟩
    · rw [if_pos hdash]
      have hup : UpperLetter o.attr := (hattr o (List.mem_cons_self _ _)).resolve_left hdash
      have hidx := attr_index_of_upper hup
      rw [if_pos ⟨hidx.1, by rw [hlen]; exact_mod_cast hidx.2⟩]
      by_cases hproc : tbl.getD (attr_index o.attr).toNat 0 = 0
      · rw [if_pos hproc]
        by_cases hne : find_last_writer s o.attr s.op_count ≠
            find_last_writer_serial s p o.attr
        · rw [if_pos hne]
          refine ⟨false, rfl, ?_⟩
          simp only [List.forall_mem_cons]
          constructor
          · intro h; cases h
          · intro h
            exact absurd ((final_writer_code_iff s p o.attr).2 (h.1 hdash)) hne
        · rw [if_neg hne]
          have hag : FinalWriterAgrees s p o.attr :=
            (final_writer_code_iff s p o.attr).1 (not_not.1 hne)
          obtain ⟨b, hb, hiff⟩ := ih (tbl.set (attr_index o.attr).toNat 1)
            (by rw [List.length_set]; exact hlen) hattr1 (by
              intro x hx hxd hxt
              rw [getD_set_eq] at hxt
              by_cases hsame : (attr_index x.attr).toNat = (attr_index o.attr).toNat
              · have hxu : UpperLetter x.attr := (hattr1 x hx).resolve_left hxd
                rw [attr_index_toNat_inj hxu hup hsame]
                exact hag
              · rw [if_neg (fun h => hsame h.1)] at hxt
                exact hinv1 x hx hxd hxt)
          refine ⟨b, hb, hiff.trans ?_⟩
          simp only [List.forall_mem_cons]
          exact ⟨fun h => ⟨fun _ => hag, h⟩, fun h => h.2⟩
      · rw [if_neg hproc]
        have hag : FinalWriterAgrees s p o.attr :=
          hinv o (List.mem_cons_self _ _) hdash hproc
        obtain ⟨b, hb, hiff⟩ := ih tbl hlen hattr1 hinv1
        refine ⟨b, hb, hiff.trans ?_⟩
        simp only [List.forall_mem_cons]
        exact ⟨fun h => ⟨fun _ => hag, h⟩, fun h => h.2⟩

theorem compare_final_writes_spec (s : Schedule) (p : List Int) (hattr : AttrsInRange s) :
    ∃ b, compare_final_writes s p = some b ∧
      (b = true ↔ ∀ o ∈ s.ops, o.attr ≠ '-' → FinalWriterAgrees s p o.attr) := by
  unfold compare_final_writes
  refine compare_final_writes_loop_spec s p s.ops (List.replicate 26 0) (by simp) hattr ?_
  intro o _ _ h
  exfalso
  apply h
  rw [List.getD_eq_getElem?_getD, List.getElem?_replicate]
  split <;> rfl

theorem upper_of_attr_index {c : Char} (h0 : 0 ≤ attr_index c) (h1 : attr_index c < 26) :
    UpperLetter c := by
  unfold UpperLetter
  unfold attr_index at h0 h1
  have hA : 'A'.toNat = 65 := by decide
  have hZ : 'Z'.toNat = 90 := by decide
  rw [hA] at h0 h1
  rw [hA, hZ]
  omega

theorem compare_final_writes_loop_true (s : Schedule) (p : List Int) :
    ∀ (rest : List Operation) (tbl : List Int), tbl.length = 26 →
      compare_final_writes_loop s p rest tbl = some true →
      ∀ o ∈ rest, o.attr = '-' ∨ UpperLetter o.attr := by
  intro rest
  induction rest with
  | nil => intro _ _ _ o ho; cases ho
  | cons x rest ih =>
    intro tbl hlen hres o ho
    rw [compare_final_writes_loop] at hres
    by_cases hdash : x.attr = '-'
    · rw [if_neg (not_not.2 hdash)] at hres
      rcases List.mem_cons.1 ho with rfl | ho
      · exact Or.inl hdash
      · exact ih tbl hlen hres o ho
    · rw [if_pos hdash] at hres
      by_cases hin : 0 ≤ attr_index x.attr ∧ attr_index x.attr < (tbl.length : Int)
      · rw [if_pos hin] at hres
        have hup : UpperLetter x.attr :=
          upper_of_attr_index hin.1 (by have := hin.2; rw [hlen] at this; exact_mod_cast this)
        have hrest : ∀ y ∈ rest, y.attr = '-' ∨ UpperLetter y.attr := by
          by_cases hproc : tbl.getD (attr_index x.attr).toNat 0 = 0
          · rw [if_pos hproc] at hres
            by_cases hne : find_last_writer s x.attr s.op_count ≠
                find_last_writer_serial s p x.attr
            · rw [if_pos hne] at hres; cases hres
            · rw [if_neg hne] at hres
              exact ih _ (by rw [List.length_set]; exact hlen) hres
          · rw [if_neg hproc] at hres
            exact ih tbl hlen hres
        rcases List.mem_cons.1 ho with rfl | ho
        · exact Or.inr hup
        · exact hrest o ho
      · rw [if_neg hin] at hres; cases hres

theorem attrs_in_range_of_final_writes {s : Schedule} {p : List Int}
    (h : compare_final_writes s p = some true) : AttrsInRange s :=
  compare_final_writes_loop_true s p s.ops (List.replicate 26 0) (by simp) h

theorem reader_pos_from_eq (t : Int) :
    ∀ (l : List Int) (j : Nat) (pos : Int), l.count t ≤ 1 →
      reader_pos_from l j t pos = if t ∈ l then ((j + l.indexOf t : Nat) : Int) else pos := by
  intro l
  induction l with
  | nil => intro j pos _; simp [reader_pos_from]
  | cons x rest ih =>
    intro j pos hc
    rw [reader_pos_from]
    by_cases hx : x = t
    · subst hx
      have hnot : x ∉ rest := by
        rw [← List.count_eq_zero]
        rw [List.count_cons_self] at hc
        omega
      rw [ih (j + 1) _ (by rw [List.count_eq_zero.2 hnot]; omega), if_neg hnot, if_pos rfl,
        if_pos (List.mem_cons_self _ _), List.indexOf_cons_eq _ rfl]
      rfl
    · have hc1 : rest.count t ≤ 1 := by
        rw [List.count_cons_of_ne (fun e => hx e.symm)] at hc
        exact hc
      rw [ih (j + 1) _ hc1, if_neg hx, List.indexOf_cons_ne _ hx]
      have hmem : t ∈ x :: rest ↔ t ∈ rest := by
        rw [List.mem_cons]
        exact ⟨fun h => h.resolve_left (fun e => hx e.symm), Or.inr⟩
      by_cases hm : t ∈ rest
      · rw [if_pos hm, if_pos (hmem.2 hm)]
        congr 1
        omega
      · rw [if_neg hm, if_neg (fun h => hm (hmem.1 h))]

theorem serial_writer_eq (s : Schedule) (p : List Int) (o : Operation)
    (h : p.count o.trans_id = 1) :
    serial_writer s p o = lastWritingElement s.ops (p.take (p.indexOf o.trans_id)) o.attr := by
  unfold serial_writer
  have hmem : o.trans_id ∈ p := List.count_pos_iff.1 (by omega)
  rw [reader_pos_from_eq o.trans_id p 0 (-1) (le_of_eq h), if_pos hmem, foldl_scan_writes_eq]
  simp

theorem compare_read_from_loop_spec (s : Schedule) (p : List Int) :
    ∀ (rest : List Operation) (i : Nat),
      compare_read_from_loop s p rest i = true ↔
        ∀ k o, rest[k]? = some o → o.op = 'R' →
          find_last_writer s o.attr (i + k) = serial_writer s p o := by
  intro rest
  induction rest with
  | nil => intro i; simp [compare_read_from_loop]
  | cons x rest ih =>
    intro i
    have hsplit : (∀ k o, (x :: rest)[k]? = some o → o.op = 'R' →
        find_last_writer s o.attr (i + k) = serial_writer s p o) ↔
        ((x.op = 'R' → find_last_writer s x.attr i = serial_writer s p x) ∧
          ∀ k o, rest[k]? = some o → o.op = 'R' →
            find_last_writer s o.attr (i + 1 + k) = serial_writer s p o) := by
      constructor
      · intro h
        refine ⟨fun hr => by simpa using h 0 x (by simp) hr, fun k o hk hr => ?_⟩
        have := h (k + 1) o (by simpa using hk) hr
        rwa [show i + (k + 1) = i + 1 + k by omega] at this
      · rintro ⟨h0, h1⟩ k o hk hr
        cases k with
        | zero =>
          simp only [List.getElem?_cons_zero, Option.some.injEq] at hk
          subst hk
          exact h0 hr
        | succ k =>
          have := h1 k o (by simpa using hk) hr
          rwa [show i + 1 + k = i + (k + 1) by omega] at this
    rw [compare_read_from_loop, hsplit]
    by_cases hr : x.op = 'R'
    · rw [if_pos hr]
      by_cases hne : find_last_writer s x.attr i ≠ serial_writer s p x
      · rw [if_pos hne]
        constructor
        · intro h; cases h
        · intro h; exact absurd (h.1 hr) hne
      · rw [if_neg hne, ih (i + 1)]
        exact ⟨fun h => ⟨fun _ => not_not.1 hne, h⟩, fun h => h.2⟩
    · rw [if_neg hr, ih (i + 1)]
      exact ⟨fun h => ⟨fun h2 => absurd h2 hr, h⟩, fun h => h.2⟩

/-! ## The permutation search -/

theorem swap_length (arr : List Int) (a b : Nat) : (swap arr a b).length = arr.length := by
  simp [swap]

theorem swap_getElem? (arr : List Int) (a b k : Nat) (ha : a < arr.length)
    (hb : b < arr.length) :
    (swap arr a b)[k]? = if k = b then arr[a]? else if k = a then arr[b]? else arr[k]? := by
  unfold swap
  rw [List.getElem?_set, List.getElem?_set, List.length_set,
    List.getD_eq_getElem _ _ ha, List.getD_eq_getElem _ _ hb]
  by_cases h1 : b = k
  · subst h1; simp [hb]
  · have h1' : ¬ k = b := fun e => h1 e.symm
    rw [if_neg h1, if_neg h1']
    by_cases h2 : a = k
    · subst h2; simp [ha, hb]
    · have h2' : ¬ k = a := fun e => h2 e.symm
      rw [if_neg h2, if_neg h2']

theorem swap_swap (arr : List Int) (a b : Nat) (ha : a < arr.length) (hb : b < arr.length) :
    swap (swap arr a b) a b = arr := by
  apply List.ext_getElem?
  intro k
  rw [swap_getElem? _ a b k (by rw [swap_length]; exact ha) (by rw [swap_length]; exact hb),
    swap_getElem? arr a b a ha hb, swap_getElem? arr a b b ha hb, swap_getElem? arr a b k ha hb]
  by_cases h1 : k = b
  · subst h1
    rw [if_pos rfl, if_pos rfl]
    by_cases h2 : a = k
    · subst h2; rw [if_pos rfl]
    · rw [if_neg h2]
  · rw [if_neg h1]
    by_cases h2 : k = a
    · subst h2
      rw [if_pos rfl, if_pos rfl]
    · rw [if_neg h2, if_neg h1, if_neg h2]

theorem swap_perm (arr : List Int) (a b : Nat) (ha : a < arr.length) (hb : b < arr.length) :
    (swap arr a b).Perm arr := by
  rw [List.perm_iff_count]
  intro c
  unfold swap
  rw [List.count_set _ _ _ _ (by rw [List.length_set]; exact hb), List.count_set _ _ _ _ ha,
    List.getD_eq_getElem _ _ ha, List.getD_eq_getElem _ _ hb]
  have hb2 : b < (arr.set a arr[b]).length := by rw [List.length_set]; exact hb
  have hsetb : (arr.set a arr[b])[b] = arr[b] := by
    rw [List.getElem_set]
    split
    · rfl
    · rfl
  rw [hsetb]
  have hca : (if (arr[a] == c) = true then 1 else 0) ≤ arr.count c := by
    split
    · rename_i h
      have : arr[a] = c := by simpa using h
      exact List.count_pos_iff.2 (this ▸ List.getElem_mem _)
    · exact Nat.zero_le _
  omega

theorem take_swap (arr : List Int) (start i : Nat) (hs : start < arr.length)
    (hi : i < arr.length) (hle : start ≤ i) :
    (swap arr start i).take start = arr.take start := by
  apply List.ext_getElem?
  intro k
  rw [List.getElem?_take, List.getElem?_take]
  by_cases hk : k < start
  · rw [if_pos hk, if_pos hk, swap_getElem? arr start i k hs hi,
      if_neg (by omega), if_neg (by omega)]
  · rw [if_neg hk, if_neg hk]

theorem take_succ_swap (arr : List Int) (start i : Nat) (hs : start < arr.length)
    (hi : i < arr.length) (hle : start ≤ i) :
    (swap arr start i).take (start + 1) = arr.take start ++ [arr[i]] := by
  rw [List.take_succ, take_swap arr start i hs hi hle, swap_getElem? arr start i start hs hi]
  by_cases h : start = i
  · subst h
    rw [if_pos rfl, List.getElem?_eq_getElem hs]
    rfl
  · rw [if_neg h, if_pos rfl, List.getElem?_eq_getElem hi]
    rfl

theorem reachable_drop_perm {arr q : List Int} {start : Nat} (h : Reachable arr start q) :
    (q.drop start).Perm (arr.drop start) := by
  have hp := h.1
  rw [← List.take_append_drop start q, ← List.take_append_drop start arr, h.2] at hp
  exact (List.perm_append_left_iff _).1 hp

theorem reachable_last {arr q : List Int} {start : Nat} (h : Reachable arr start q)
    (hlen : arr.length = start + 1) : q = arr := by
  have hd := reachable_drop_perm h
  have hl : (arr.drop start).length = 1 := by rw [List.length_drop]; omega
  obtain ⟨a, ha⟩ := List.length_eq_one.1 hl
  rw [ha] at hd
  have hq := List.perm_singleton.1 hd
  rw [← List.take_append_drop start q, ← List.take_append_drop start arr, h.2, hq, ha]

theorem reachable_of_swap {arr q : List Int} {start i : Nat} (hs : start < arr.length)
    (hi : i < arr.length) (hle : start ≤ i)
    (h : Reachable (swap arr start i) (start + 1) q) : Reachable arr start q := by
  refine ⟨h.1.trans (swap_perm arr start i hs hi), ?_⟩
  have h2 := congrArg (List.take start) h.2
  rw [List.take_take, List.take_take, Nat.min_eq_left (Nat.le_succ start),
    take_swap arr start i hs hi hle] at h2
  exact h2

theorem reachable_step {arr q : List Int} {start : Nat} (h : Reachable arr start q)
    (hs : start < arr.length) :
    ∃ i, start ≤ i ∧ i < arr.length ∧ Reachable (swap arr start i) (start + 1) q := by
  have hql : q.length = arr.length := h.1.length_eq
  have hsq : start < q.length := by omega
  have hmem : q[start] ∈ arr.drop start := by
    apply (reachable_drop_perm h).subset
    rw [List.mem_iff_getElem]
    exact ⟨0, by rw [List.length_drop]; omega, by simp⟩
  obtain ⟨k, hk, hkeq⟩ := List.mem_iff_getElem.1 hmem
  have hk2 : start + k < arr.length := by
    rw [List.length_drop] at hk
    omega
  rw [List.getElem_drop] at hkeq
  refine ⟨start + k, Nat.le_add_right _ _, hk2, ?_, ?_⟩
  · exact h.1.trans (swap_perm arr start _ hs hk2).symm
  · rw [take_succ_swap arr start (start + k) hs hk2 (Nat.le_add_right _ _), hkeq, List.take_succ,
      h.2, List.getElem?_eq_getElem hsq]
    rfl

theorem check_all_permutations_loop_spec (test : List Int → Option Bool) (n start : Nat)
    (visit : List Int → Option (Bool × List Int)) (hs : start < n)
    (hvisit : ∀ arr1, arr1.length = n → SearchOutcome test arr1 (start + 1) (visit arr1)) :
    ∀ (cands : List Nat) (arr : List Int), arr.length = n →
      (∀ i ∈ cands, start ≤ i ∧ i < n) →
      LoopOutcome test arr start cands (check_all_permutations_loop visit start cands arr) := by
  intro cands
  induction cands with
  | nil =>
    intro arr _ _
    exact ⟨rfl, fun i hi => by cases hi⟩
  | cons i rest ih =>
    intro arr hlen hc
    obtain ⟨hle, hi⟩ := hc i (List.mem_cons_self _ _)
    have hs1 : start < arr.length := hlen ▸ hs
    have hi1 : i < arr.length := hlen ▸ hi
    have hv := hvisit (swap arr start i) (by rw [swap_length]; exact hlen)
    rw [check_all_permutations_loop]
    cases hr : visit (swap arr start i) with
    | none =>
      rw [hr] at hv
      obtain ⟨q, hq, ht⟩ := hv
      exact ⟨q, reachable_of_swap hs1 hi1 hle hq, ht⟩
    | some res =>
      obtain ⟨b, arr1⟩ := res
      rw [hr] at hv
      cases b with
      | true =>
        obtain ⟨q, hq, ht⟩ := hv
        exact ⟨q, reachable_of_swap hs1 hi1 hle hq, ht⟩
      | false =>
        obtain ⟨harr, hall⟩ := hv
        subst harr
        show LoopOutcome test arr start (i :: rest)
          (check_all_permutations_loop visit start rest (swap (swap arr start i) start i))
        rw [swap_swap arr start i hs1 hi1]
        have hrest := ih arr hlen (fun j hj => hc j (List.mem_cons_of_mem _ hj))
        cases hl : check_all_permutations_loop visit start rest arr with
        | none => rw [hl] at hrest; exact hrest
        | some res2 =>
          obtain ⟨b2, arr2⟩ := res2
          rw [hl] at hrest
          cases b2 with
          | true => exact hrest
          | false =>
            refine ⟨hrest.1, fun j hj q hq => ?_⟩
            rcases List.mem_cons.1 hj with rfl | hj
            · exact hall q hq
            · exact hrest.2 j hj q hq

theorem check_all_permutations_rec_spec (s : Schedule) (end_v : Nat) :
    ∀ (d : Nat) (arr : List Int) (start : Nat), arr.length = end_v + 1 → start + d = end_v →
      SearchOutcome (test_order s) arr start (check_all_permutations_rec s end_v d arr start) := by
  intro d
  induction d with
  | zero =>
    intro arr start hlen hsd
    have hse : start = end_v := by omega
    subst hse
    rw [check_all_permutations_rec, ← hlen, List.take_length]
    have hself : Reachable arr start arr := ⟨List.Perm.refl _, rfl⟩
    cases ht : test_order s arr with
    | none => exact ⟨arr, hself, ht⟩
    | some b =>
      cases b with
      | true => exact ⟨arr, hself, ht⟩
      | false =>
        refine ⟨rfl, fun q hq => ?_⟩
        rw [reachable_last hq hlen]
        exact ht
  | succ d ih =>
    intro arr start hlen hsd
    rw [check_all_permutations_rec]
    have hloop := check_all_permutations_loop_spec (test_order s) (end_v + 1) start
      (fun arr1 => check_all_permutations_rec s end_v d arr1 (start + 1)) (by omega)
      (fun arr1 h1 => ih arr1 (start + 1) h1 (by omega))
      (List.range' start (d + 2)) arr hlen (fun i hi => by
        rw [List.mem_range'_1] at hi
        omega)
    cases hl : check_all_permutations_loop
        (fun arr1 => check_all_permutations_rec s end_v d arr1 (start + 1)) start
        (List.range' start (d + 2)) arr with
    | none => rw [hl] at hloop; exact hloop
    | some res =>
      obtain ⟨b, arr1⟩ := res
      rw [hl] at hloop
      cases b with
      | true => exact hloop
      | false =>
        refine ⟨hloop.1, fun q hq => ?_⟩
        obtain ⟨i, hle, hi, hqi⟩ := reachable_step hq (by omega)
        exact hloop.2 i (by rw [List.mem_range'_1]; omega) q hqi

/-! ## The conflict-serializability test -/

theorem get_trans_index_from_mem (t : Int) :
    ∀ (l : List Int) (i : Nat), t ∈ l →
      ∃ k : Nat, get_trans_index_from l i t = ((i + k : Nat) : Int) ∧ l[k]? = some t := by
  intro l
  induction l with
  | nil => intro i h; cases h
  | cons x rest ih =>
    intro i h
    rw [get_trans_index_from]
    by_cases hx : x = t
    · rw [if_pos hx]
      exact ⟨0, rfl, by simp [hx]⟩
    · rw [if_neg hx]
      have hm : t ∈ rest := (List.mem_cons.1 h).resolve_left (fun e => hx e.symm)
      obtain ⟨k, hk, hget⟩ := ih (i + 1) hm
      exact ⟨k + 1, by rw [hk]; congr 1; omega, by simpa using hget⟩

theorem get_trans_index_mem (s : Schedule) (t : Int) (h : t ∈ s.trans_ids) :
    ∃ k : Nat, get_trans_index s t = (k : Int) ∧ k < s.trans_count ∧
      s.trans_ids[k]? = some t := by
  obtain ⟨k, hk, hget⟩ := get_trans_index_from_mem t s.trans_ids 0 h
  refine ⟨k, by rw [get_trans_index, hk, Nat.zero_add], ?_, hget⟩
  by_contra hlt
  unfold Schedule.trans_count at hlt
  rw [List.getElem?_eq_none (Nat.le_of_not_lt hlt)] at hget
  cases hget

theorem add_edge_spec (g : Graph) (hwf : g.WellFormed) (a b : Nat) (ha : a < g.num_vertices)
    (hb : b < g.num_vertices) :
    ∃ g1, add_edge g (a : Int) (b : Int) = some g1 ∧ g1.WellFormed ∧
      g1.num_vertices = g.num_vertices ∧
      ∀ u v, g1.entry u v = if u = a ∧ v = b then 1 else g.entry u v := by
  obtain ⟨hrows, hcols⟩ := hwf
  have harow : a < g.matrix.length := hrows ▸ ha
  have hrow_mem : g.matrix.getD a [] ∈ g.matrix := by
    rw [List.getD_eq_getElem _ _ harow]
    exact List.getElem_mem _
  have hrow_len : (g.matrix.getD a []).length = g.num_vertices := hcols _ hrow_mem
  refine ⟨Graph.mk g.num_vertices
    (g.matrix.set a ((g.matrix.getD a []).set b 1)), ?_, ⟨?_, ?_⟩, rfl, ?_⟩
  · unfold add_edge
    rw [if_pos ⟨by exact_mod_cast ha, by exact_mod_cast hb⟩]
    simp only [Int.toNat_ofNat]
    rw [if_pos ⟨Int.natCast_nonneg a, Int.natCast_nonneg b, harow, by rw [hrow_len]; exact hb⟩]
  · show (g.matrix.set a _).length = g.num_vertices
    rw [List.length_set]; exact hrows
  · intro row hrow
    show row.length = g.num_vertices
    rcases List.mem_or_eq_of_mem_set hrow with h | h
    · exact hcols row h
    · rw [h, List.length_set]; exact hrow_len
  · intro u v
    show ((g.matrix.set a ((g.matrix.getD a []).set b 1)).getD u []).getD v 0 = _
    rw [getD_set_eq]
    by_cases hu : u = a
    · subst hu
      rw [if_pos ⟨rfl, harow⟩, getD_set_eq]
      by_cases hv : v = b
      · subst hv
        rw [if_pos ⟨rfl, by rw [hrow_len]; exact hb⟩, if_pos ⟨rfl, rfl⟩]
      · rw [if_neg (fun h => hv h.1), if_neg (fun h => hv h.2)]
        rfl
    · rw [if_neg (fun h => hu h.1), if_neg (fun h => hu h.1)]
      rfl

theorem add_edge_above_range (g : Graph) (from_v to_v : Int)
    (h : (g.num_vertices : Int) ≤ from_v ∨ (g.num_vertices : Int) ≤ to_v) :
    add_edge g from_v to_v = some g := by
  unfold add_edge
  rw [if_neg]
  rintro ⟨h1, h2⟩
  rcases h with h | h <;> omega

theorem vertex_of_mem (s : Schedule) (t : Int) (h : t ∈ s.trans_ids) :
    get_trans_index s t = (vertex_of s t : Int) ∧ vertex_of s t < s.trans_count ∧
      s.trans_ids[vertex_of s t]? = some t := by
  obtain ⟨k, hk, hlt, hget⟩ := get_trans_index_mem s t h
  have hv : vertex_of s t = k := by
    unfold vertex_of
    rw [hk, Int.toNat_ofNat]
  rw [hv]
  exact ⟨hk, hlt, hget⟩

theorem exists_mem_cons_iff {α : Type} (P : α → Prop) (x : α) (rest : List α) :
    (∃ o ∈ x :: rest, P o) ↔ (P x ∨ ∃ o ∈ rest, P o) := by
  constructor
  · rintro ⟨o, ho, hp⟩
    rcases List.mem_cons.1 ho with rfl | ho
    · exact Or.inl hp
    · exact Or.inr ⟨o, ho, hp⟩
  · rintro (hp | ⟨o, ho, hp⟩)
    · exact ⟨x, List.mem_cons_self _ _, hp⟩
    · exact ⟨o, List.mem_cons_of_mem _ ho, hp⟩

theorem conflict_inner_spec (s : Schedule) (op1 : Operation) (h1 : op1.trans_id ∈ s.trans_ids) :
    ∀ (rest : List Operation) (g : Graph), g.WellFormed → g.num_vertices = s.trans_count →
      (∀ o ∈ rest, o.trans_id ∈ s.trans_ids) →
      ∃ g1, conflict_inner s op1 rest g = some g1 ∧ g1.WellFormed ∧
        g1.num_vertices = s.trans_count ∧
        ∀ u v, g1.entry u v = 1 ↔ (g.entry u v = 1 ∨ ∃ op2 ∈ rest, Conflict op1 op2 ∧
          vertex_of s op1.trans_id = u ∧ vertex_of s op2.trans_id = v) := by
  intro rest
  induction rest with
  | nil =>
    intro g hwf hn _
    exact ⟨g, rfl, hwf, hn, fun u v => by simp⟩
  | cons op2 rest ih =>
    intro g hwf hn hcov
    have hcov1 : ∀ o ∈ rest, o.trans_id ∈ s.trans_ids :=
      fun o ho => hcov o (List.mem_cons_of_mem _ ho)
    rw [conflict_inner]
    by_cases hskip : op1.trans_id = op2.trans_id ∨ op1.attr ≠ op2.attr ∨ op1.attr = '-'
    · rw [if_pos hskip]
      have hno : ¬ Conflict op1 op2 := by
        rintro ⟨c1, c2, c3, _⟩
        rcases hskip with h | h | h
        · exact c1 h
        · exact h c2
        · exact c3 h
      obtain ⟨g1, hres, hwf1, hn1, hent⟩ := ih g hwf hn hcov1
      refine ⟨g1, hres, hwf1, hn1, fun u v => (hent u v).trans ?_⟩
      rw [exists_mem_cons_iff]
      simp only [hno, false_and, false_or]
    · rw [if_neg hskip]
      have hc123 : op1.trans_id ≠ op2.trans_id ∧ op1.attr = op2.attr ∧ op1.attr ≠ '-' := by
        refine ⟨fun h => hskip (Or.inl h), ?_, fun h => hskip (Or.inr (Or.inr h))⟩
        by_contra h
        exact hskip (Or.inr (Or.inl h))
      by_cases hw : op1.op = 'W' ∨ op2.op = 'W'
      · rw [if_pos hw]
        have hconf : Conflict op1 op2 := ⟨hc123.1, hc123.2.1, hc123.2.2, hw⟩
        obtain ⟨e1, l1, _⟩ := vertex_of_mem s op1.trans_id h1
        obtain ⟨e2, l2, _⟩ := vertex_of_mem s op2.trans_id (hcov op2 (List.mem_cons_self _ _))
        obtain ⟨g0, hadd, hwf0, hn0, hent0⟩ := add_edge_spec g hwf (vertex_of s op1.trans_id)
          (vertex_of s op2.trans_id) (hn ▸ l1) (hn ▸ l2)
        rw [e1, e2, hadd]
        obtain ⟨g1, hres, hwf1, hn1, hent⟩ := ih g0 hwf0 (hn0.trans hn) hcov1
        refine ⟨g1, hres, hwf1, hn1, fun u v => (hent u v).trans ?_⟩
        rw [hent0 u v, exists_mem_cons_iff]
        constructor
        · rintro (h | h)
          · by_cases huv : u = vertex_of s op1.trans_id ∧ v = vertex_of s op2.trans_id
            · exact Or.inr (Or.inl ⟨hconf, huv.1.symm, huv.2.symm⟩)
            · rw [if_neg huv] at h; exact Or.inl h
          · exact Or.inr (Or.inr h)
        · rintro (h | h | h)
          · by_cases huv : u = vertex_of s op1.trans_id ∧ v = vertex_of s op2.trans_id
            · rw [if_pos huv]; exact Or.inl rfl
            · rw [if_neg huv]; exact Or.inl h
          · rw [if_pos ⟨h.2.1.symm, h.2.2.symm⟩]; exact Or.inl rfl
          · exact Or.inr h
      · rw [if_neg hw]
        have hno : ¬ Conflict op1 op2 := fun c => hw c.2.2.2
        obtain ⟨g1, hres, hwf1, hn1, hent⟩ := ih g hwf hn hcov1
        refine ⟨g1, hres, hwf1, hn1, fun u v => (hent u v).trans ?_⟩
        rw [exists_mem_cons_iff]
        simp only [hno, false_and, false_or]

theorem inOrder_cons (x : Operation) (rest : List Operation) (a b : Operation) :
    InOrder (x :: rest) a b ↔ (a = x ∧ b ∈ rest) ∨ InOrder rest a b := by
  constructor
  · rintro ⟨i, j, hij, hi, hj⟩
    cases j with
    | zero => omega
    | succ j =>
      rw [List.getElem?_cons_succ] at hj
      cases i with
      | zero =>
        simp only [List.getElem?_cons_zero, Option.some.injEq] at hi
        exact Or.inl ⟨hi.symm, List.mem_iff_getElem?.2 ⟨j, hj⟩⟩
      | succ i =>
        rw [List.getElem?_cons_succ] at hi
        exact Or.inr ⟨i, j, by omega, hi, hj⟩
  · rintro (⟨rfl, hb⟩ | ⟨i, j, hij, hi, hj⟩)
    · obtain ⟨j, hj⟩ := List.mem_iff_getElem?.1 hb
      exact ⟨0, j + 1, by omega, by simp, by simpa using hj⟩
    · exact ⟨i + 1, j + 1, by omega, by simpa using hi, by simpa using hj⟩

theorem conflict_outer_spec (s : Schedule) :
    ∀ (l : List Operation) (g : Graph), g.WellFormed → g.num_vertices = s.trans_count →
      (∀ o ∈ l, o.trans_id ∈ s.trans_ids) →
      ∃ g1, conflict_outer s l g = some g1 ∧ g1.WellFormed ∧
        g1.num_vertices = s.trans_count ∧
        ∀ u v, g1.entry u v = 1 ↔ (g.entry u v = 1 ∨ ∃ op1 op2, InOrder l op1 op2 ∧
          Conflict op1 op2 ∧ vertex_of s op1.trans_id = u ∧ vertex_of s op2.trans_id = v) := by
  intro l
  induction l with
  | nil =>
    intro g hwf hn _
    refine ⟨g, rfl, hwf, hn, fun u v => ?_⟩
    constructor
    · exact Or.inl
    · rintro (h | ⟨_, _, ⟨i, j, _, hi, _⟩, _⟩)
      · exact h
      · simp at hi
  | cons x rest ih =>
    intro g hwf hn hcov
    have hcov1 : ∀ o ∈ rest, o.trans_id ∈ s.trans_ids :=
      fun o ho => hcov o (List.mem_cons_of_mem _ ho)
    obtain ⟨g0, hres0, hwf0, hn0, hent0⟩ := conflict_inner_spec s x
      (hcov x (List.mem_cons_self _ _)) rest g hwf hn hcov1
    obtain ⟨g1, hres1, hwf1, hn1, hent1⟩ := ih g0 hwf0 hn0 hcov1
    rw [conflict_outer, hres0]
    refine ⟨g1, hres1, hwf1, hn1, fun u v => (hent1 u v).trans ?_⟩
    rw [hent0 u v]
    constructor
    · rintro ((h | ⟨op2, hop2, hc, hu, hv⟩) | ⟨a, b, hin, hc, hu, hv⟩)
      · exact Or.inl h
      · exact Or.inr ⟨x, op2, (inOrder_cons x rest x op2).2 (Or.inl ⟨rfl, hop2⟩), hc, hu, hv⟩
      · exact Or.inr ⟨a, b, (inOrder_cons x rest a b).2 (Or.inr hin), hc, hu, hv⟩
    · rintro (h | ⟨a, b, hin, hc, hu, hv⟩)
      · exact Or.inl (Or.inl h)
      · rcases (inOrder_cons x rest a b).1 hin with ⟨rfl, hb⟩ | hin
        · exact Or.inl (Or.inr ⟨b, hb, hc, hu, hv⟩)
        · exact Or.inr ⟨a, b, hin, hc, hu, hv⟩

theorem create_graph_spec (n : Nat) (hn : 0 < n) :
    create_graph (n : Int) = some (Graph.mk n (List.replicate n (List.replicate n 0))) ∧
    (Graph.mk n (List.replicate n (List.replicate n 0))).WellFormed ∧
    ∀ u v, (Graph.mk n (List.replicate n (List.replicate n (0 : Int)))).entry u v = 0 := by
  refine ⟨?_, ⟨by simp, fun row hrow => ?_⟩, fun u v => ?_⟩
  · unfold create_graph
    rw [if_neg (by omega), Int.toNat_ofNat]
  · rw [List.eq_of_mem_replicate hrow]
    simp
  · unfold Graph.entry
    simp only [List.getD_eq_getElem?_getD, List.getElem?_replicate]
    by_cases hu : u < n
    · by_cases hv : v < n <;> simp [hu, hv]
    · simp [hu]

theorem precedes_iff (ops : List Operation) (a b : Int) :
    Precedes ops a b ↔ ∃ op1 op2, InOrder ops op1 op2 ∧ Conflict op1 op2 ∧
      op1.trans_id = a ∧ op2.trans_id = b := by
  constructor
  · rintro ⟨hne, i, j, oi, oj, hij, hi, hj, rfl, rfl, hattr, hdash, hw⟩
    exact ⟨oi, oj, ⟨i, j, hij, hi, hj⟩, ⟨hne, hattr, hdash, hw⟩, rfl, rfl⟩
  · rintro ⟨op1, op2, ⟨i, j, hij, hi, hj⟩, ⟨hne, hattr, hdash, hw⟩, rfl, rfl⟩
    exact ⟨hne, i, j, op1, op2, hij, hi, hj, rfl, rfl, hattr, hdash, hw⟩

theorem inOrder_mem {ops : List Operation} {a b : Operation} (h : InOrder ops a b) :
    a ∈ ops ∧ b ∈ ops := by
  obtain ⟨i, j, _, hi, hj⟩ := h
  exact ⟨List.mem_iff_getElem?.2 ⟨i, hi⟩, List.mem_iff_getElem?.2 ⟨j, hj⟩⟩

theorem eq_of_mem_length_le_one {l : List Int} (h : l.length ≤ 1) {a b : Int} (ha : a ∈ l)
    (hb : b ∈ l) : a = b := by
  match l, h with
  | [], _ => cases ha
  | [x], _ =>
    rw [List.mem_singleton] at ha hb
    rw [ha, hb]

/-- On a schedule whose operations all belong to listed transactions, the test
returns a result, and the result tells whether the conflict relation is
acyclic. -/
theorem is_conflict_serializable_covered (s : Schedule) (hcov : Covered s) :
    ∃ b, is_conflict_serializable s = some b ∧ (b = true ↔ ConflictAcyclic s.ops) := by
  classical
  unfold is_conflict_serializable
  by_cases hcount : s.trans_count ≤ 1
  · rw [if_pos hcount]
    refine ⟨true, rfl, ?_⟩
    simp only [true_iff]
    intro u hu
    obtain ⟨x, hux, _⟩ := Relation.TransGen.head'_iff.1 hu
    obtain ⟨op1, op2, hin, hc, rfl, rfl⟩ := (precedes_iff _ _ _).1 hux
    exact hc.1 (eq_of_mem_length_le_one hcount (hcov _ (inOrder_mem hin).1)
      (hcov _ (inOrder_mem hin).2))
  · rw [if_neg hcount]
    obtain ⟨hcreate, hwf0, hent0⟩ := create_graph_spec s.trans_count (by omega)
    rw [hcreate]
    obtain ⟨g1, hres, _, hn1, hent⟩ := conflict_outer_spec s s.ops _ hwf0 rfl hcov
    simp only [hres]
    rw [has_cycle_eq_decide g1]
    refine ⟨!decide g1.HasCycle, rfl, ?_⟩
    have hedge : ∀ u v, g1.edge u v ↔ ∃ op1 op2, InOrder s.ops op1 op2 ∧ Conflict op1 op2 ∧
        vertex_of s op1.trans_id = u ∧ vertex_of s op2.trans_id = v := by
      intro u v
      unfold Graph.edge
      rw [hent u v, hent0 u v]
      constructor
      · rintro ⟨_, _, h | h⟩
        · exact absurd h (by decide)
        · exact h
      · rintro ⟨op1, op2, hin, hc, rfl, rfl⟩
        refine ⟨?_, ?_, Or.inr ⟨op1, op2, hin, hc, rfl, rfl⟩⟩
        · rw [hn1]; exact (vertex_of_mem s _ (hcov _ (inOrder_mem hin).1)).2.1
        · rw [hn1]; exact (vertex_of_mem s _ (hcov _ (inOrder_mem hin).2)).2.1
    have hiff : g1.HasCycle ↔ ¬ ConflictAcyclic s.ops := by
      constructor
      · rintro ⟨v, hv⟩ hac
        refine hac (s.trans_ids.getD v 0) (Relation.TransGen.lift (fun u => s.trans_ids.getD u 0)
          (fun a b hab => ?_) hv)
        obtain ⟨op1, op2, hin, hc, rfl, rfl⟩ := (hedge a b).1 hab
        rw [precedes_iff]
        refine ⟨op1, op2, hin, hc, ?_, ?_⟩
        · show op1.trans_id = s.trans_ids.getD (vertex_of s op1.trans_id) 0
          rw [List.getD_eq_getElem?_getD,
            (vertex_of_mem s _ (hcov _ (inOrder_mem hin).1)).2.2]
          rfl
        · show op2.trans_id = s.trans_ids.getD (vertex_of s op2.trans_id) 0
          rw [List.getD_eq_getElem?_getD,
            (vertex_of_mem s _ (hcov _ (inOrder_mem hin).2)).2.2]
          rfl
      · intro hac
        unfold ConflictAcyclic at hac
        push_neg at hac
        obtain ⟨t, ht⟩ := hac
        refine ⟨vertex_of s t, Relation.TransGen.lift (vertex_of s) (fun a b hab => ?_) ht⟩
        obtain ⟨op1, op2, hin, hc, rfl, rfl⟩ := (precedes_iff _ _ _).1 hab
        exact (hedge _ _).2 ⟨op1, op2, hin, hc, rfl, rfl⟩
    rw [Bool.not_eq_true', decide_eq_false_iff_not, hiff, not_not]

theorem mem_collect_ids :
    ∀ (ops : List Operation) (temp : List Int) (t : Int),
      t ∈ collect_ids ops temp ↔ (t ∈ temp ∨ ∃ o ∈ ops, o.trans_id = t) := by
  intro ops
  induction ops with
  | nil => intro temp t; simp [collect_ids]
  | cons x rest ih =>
    intro temp t
    rw [collect_ids, exists_mem_cons_iff]
    by_cases hx : x.trans_id ∈ temp
    · rw [if_pos hx, ih]
      constructor
      · rintro (h | h)
        · exact Or.inl h
        · exact Or.inr (Or.inr h)
      · rintro (h | h | h)
        · exact Or.inl h
        · exact Or.inl (h ▸ hx)
        · exact Or.inr h
    · rw [if_neg hx, ih, List.mem_append, List.mem_singleton]
      constructor
      · rintro ((h | h) | h)
        · exact Or.inl h
        · exact Or.inr (Or.inl h.symm)
        · exact Or.inr (Or.inr h)
      · rintro (h | h | h)
        · exact Or.inl (Or.inl h)
        · exact Or.inl (Or.inr h.symm)
        · exact Or.inr h

theorem find_unique_transactions_ops (s : Schedule) :
    (find_unique_transactions s).ops = s.ops := by
  unfold find_unique_transactions
  split <;> rfl

theorem find_unique_transactions_covered (s : Schedule) :
    Covered (find_unique_transactions s) := by
  intro o ho
  rw [find_unique_transactions_ops] at ho
  unfold find_unique_transactions
  by_cases h0 : s.op_count = 0
  · unfold Schedule.op_count at h0
    rw [List.length_eq_zero] at h0
    rw [h0] at ho
    cases ho
  · rw [if_neg h0]
    show o.trans_id ∈ qsort compare_ints (collect_ids s.ops [])
    unfold qsort
    rw [(List.perm_insertionSort _ _).mem_iff, mem_collect_ids]
    exact Or.inr ⟨o, ho, rfl⟩

/-! ## The view-serializability test -/

theorem test_order_true_iff (s : Schedule) (p : List Int) :
    test_order s p = some true ↔
      (compare_final_writes s p = some true ∧ compare_read_from s p = true) := by
  unfold test_order
  cases compare_final_writes s p with
  | none => simp
  | some b => cases b <;> simp

theorem test_order_false_iff (s : Schedule) (p : List Int) :
    test_order s p = some false ↔
      (compare_final_writes s p = some false ∨
        (compare_final_writes s p = some true ∧ compare_read_from s p = false)) := by
  unfold test_order
  cases compare_final_writes s p with
  | none => simp
  | some b => cases b <;> simp

theorem test_order_none_iff (s : Schedule) (p : List Int) :
    test_order s p = none ↔ compare_final_writes s p = none := by
  unfold test_order
  cases compare_final_writes s p with
  | none => simp
  | some b => cases b <;> simp

theorem test_order_ne_none (s : Schedule) (p : List Int) (h : AttrsInRange s) :
    test_order s p ≠ none := by
  rw [Ne, test_order_none_iff]
  obtain ⟨b, hb, _⟩ := compare_final_writes_spec s p h
  rw [hb]
  exact Option.some_ne_none b

theorem reachable_zero (arr q : List Int) : Reachable arr 0 q ↔ q.Perm arr := by
  unfold Reachable
  simp

/-- The search started by `is_view_serializable` on an array of at least one
element, described by the test on the permutations of the array. -/
theorem check_all_permutations_spec (s : Schedule) (arr : List Int) (h : 0 < arr.length) :
    SearchOutcome (test_order s) arr 0
      (check_all_permutations s arr 0 ((arr.length : Int) - 1)) := by
  unfold check_all_permutations
  rw [if_neg (by simp only [Nat.cast_zero]; omega)]
  have hn : ((arr.length : Int) - 1).toNat = arr.length - 1 := by omega
  rw [hn, Nat.sub_zero]
  exact check_all_permutations_rec_spec s (arr.length - 1) (arr.length - 1) arr 0
    (by omega) (by omega)

/-- The answers of `is_view_serializable` on a schedule for which the conflict
test returns a result. -/
theorem is_view_serializable_spec (s : Schedule) (b : Bool)
    (hb : is_conflict_serializable s = some b) :
    (is_view_serializable s = some true ↔
      (is_conflict_serializable s = some true ∨ ∃ p, p.Perm s.trans_ids ∧
        compare_final_writes s p = some true ∧ compare_read_from s p = true)) ∧
    (is_view_serializable s = some false ↔
      (is_conflict_serializable s = some false ∧ ∀ p, p.Perm s.trans_ids →
        (compare_final_writes s p = some false ∨
          (compare_final_writes s p = some true ∧ compare_read_from s p = false)))) ∧
    (AttrsInRange s → is_view_serializable s ≠ none) := by
  cases b with
  | true =>
    have hv : is_view_serializable s = some true := by
      unfold is_view_serializable
      rw [hb]
    rw [hv, hb]
    simp
  | false =>
    have hcount : 0 < s.trans_ids.length := by
      by_contra h0
      have : s.trans_count ≤ 1 := by unfold Schedule.trans_count; omega
      unfold is_conflict_serializable at hb
      rw [if_pos this] at hb
      cases hb
    have hsearch := check_all_permutations_spec s s.trans_ids hcount
    have hv : is_view_serializable s =
        match check_all_permutations s s.trans_ids 0 ((s.trans_ids.length : Int) - 1) with
        | none => none
        | some (result, _) => some result := by
      unfold is_view_serializable Schedule.trans_count
      rw [hb]
    rw [hv, hb]
    cases hr : check_all_permutations s s.trans_ids 0 ((s.trans_ids.length : Int) - 1) with
    | none =>
      rw [hr] at hsearch
      obtain ⟨q, hq, ht⟩ := hsearch
      have hcf : compare_final_writes s q = none := (test_order_none_iff s q).1 ht
      refine ⟨?_, ?_, ?_⟩
      · constructor
        · intro h; cases h
        · rintro (h | ⟨p, _, hp, _⟩)
          · cases h
          · exfalso
            obtain ⟨b, hb2, _⟩ := compare_final_writes_spec s q
              (attrs_in_range_of_final_writes hp)
            rw [hcf] at hb2
            cases hb2
      · constructor
        · intro h; cases h
        · rintro ⟨_, hall⟩
          exfalso
          rcases hall q ((reachable_zero _ _).1 hq) with h | ⟨h, _⟩ <;>
          · rw [hcf] at h; cases h
      · intro hattr
        exact absurd ht (test_order_ne_none s q hattr)
    | some res =>
      obtain ⟨b2, arr1⟩ := res
      rw [hr] at hsearch
      cases b2 with
      | true =>
        obtain ⟨q, hq, ht⟩ := hsearch
        have hpass := (test_order_true_iff s q).1 ht
        refine ⟨?_, ?_, fun _ => by simp⟩
        · constructor
          · intro _
            exact Or.inr ⟨q, (reachable_zero _ _).1 hq, hpass⟩
          · intro _; rfl
        · constructor
          · intro h; cases h
          · rintro ⟨_, hall⟩
            exfalso
            rcases hall q ((reachable_zero _ _).1 hq) with h | ⟨_, h⟩
            · rw [hpass.1] at h; cases h
            · rw [hpass.2] at h; cases h
      | false =>
        obtain ⟨_, hall⟩ := hsearch
        refine ⟨?_, ?_, fun _ => by simp⟩
        · constructor
          · intro h; cases h
          · rintro (h | ⟨p, hperm, hp⟩)
            · cases h
            · exfalso
              have h1 := hall p ((reachable_zero _ _).2 hperm)
              rw [(test_order_true_iff s p).2 hp] at h1
              cases h1
        · constructor
          · intro _
            exact ⟨rfl, fun p hperm =>
              (test_order_false_iff s p).1 (hall p ((reachable_zero _ _).2 hperm))⟩
          · intro _; rfl

theorem finalised_covered {s : Schedule} (h : Finalised s) : Covered s := by
  obtain ⟨s0, rfl⟩ := h
  exact find_unique_transactions_covered s0

theorem lastWriteOn_eq_zero (l : List Operation) (a : Char)
    (h : ∀ o ∈ l, o.op = 'W' → o.attr ≠ a) : lastWriteOn l a = 0 := by
  unfold lastWriteOn
  have hnil : l.filter (fun o => o.op = 'W' ∧ o.attr = a) = [] := by
    rw [List.filter_eq_nil_iff]
    intro o ho hq
    have hq2 : o.op = 'W' ∧ o.attr = a := by simpa using hq
    exact h o ho hq2.1 hq2.2
  rw [hnil]
  rfl

/-! ## Schedules without conflicts -/

theorem conflict_inner_no_conflict (s : Schedule) (op1 : Operation) :
    ∀ (rest : List Operation) (g : Graph),
      (∀ op2 ∈ rest, op1.trans_id = op2.trans_id ∨ op1.attr ≠ op2.attr ∨ op1.attr = '-') →
      conflict_inner s op1 rest g = some g := by
  intro rest
  induction rest with
  | nil => intro g _; rfl
  | cons op2 rest ih =>
    intro g h
    rw [conflict_inner, if_pos (h op2 (List.mem_cons_self _ _))]
    exact ih g (fun o ho => h o (List.mem_cons_of_mem _ ho))

theorem conflict_outer_no_conflict (s : Schedule) :
    ∀ (l : List Operation) (g : Graph), DisjointAttrs l → conflict_outer s l g = some g := by
  intro l
  induction l with
  | nil => intro g _; rfl
  | cons op1 rest ih =>
    intro g h
    have hinner : conflict_inner s op1 rest g = some g := by
      apply conflict_inner_no_conflict
      intro op2 hop2
      by_cases ht : op1.trans_id = op2.trans_id
      · exact Or.inl ht
      · by_cases ha : op1.attr = op2.attr
        · exact Or.inr (Or.inr (h op1 (List.mem_cons_self _ _) op2
            (List.mem_cons_of_mem _ hop2) ht ha))
        · exact Or.inr (Or.inl ha)
    rw [conflict_outer, hinner]
    exact ih g (fun o1 h1 o2 h2 =>
      h o1 (List.mem_cons_of_mem _ h1) o2 (List.mem_cons_of_mem _ h2))

theorem conflictAcyclic_of_disjoint {ops : List Operation} (h : DisjointAttrs ops) :
    ConflictAcyclic ops := by
  intro u hu
  obtain ⟨x, hux, _⟩ := Relation.TransGen.head'_iff.1 hu
  obtain ⟨op1, op2, hin, hc, _, _⟩ := (precedes_iff _ _ _).1 hux
  exact hc.2.2.1 (h op1 (inOrder_mem hin).1 op2 (inOrder_mem hin).2 hc.1 hc.2.1)

theorem conflict_true_of_acyclic {s : Schedule} (hfin : Finalised s)
    (hac : ConflictAcyclic s.ops) :
    is_conflict_serializable s = some true ∧ is_view_serializable s = some true := by
  obtain ⟨b, hb, hiff⟩ := is_conflict_serializable_covered s (finalised_covered hfin)
  have hbt : b = true := hiff.2 hac
  subst hbt
  refine ⟨hb, ?_⟩
  unfold is_view_serializable
  rw [hb]

/-! ## The calls of `add_edge` -/

theorem apply_edge_calls_append (l1 l2 : List (Int × Int)) (g : Graph) :
    apply_edge_calls (l1 ++ l2) g =
      match apply_edge_calls l1 g with
      | none => none
      | some g1 => apply_edge_calls l2 g1 := by
  induction l1 generalizing g with
  | nil => rfl
  | cons c rest ih =>
    rw [List.cons_append, apply_edge_calls, apply_edge_calls]
    cases add_edge g c.1 c.2 with
    | none => rfl
    | some g1 => exact ih g1

theorem conflict_inner_eq_calls (s : Schedule) (op1 : Operation) :
    ∀ (rest : List Operation) (g : Graph),
      conflict_inner s op1 rest g = apply_edge_calls (add_edge_calls_inner s op1 rest) g := by
  intro rest
  induction rest with
  | nil => intro g; rfl
  | cons op2 rest ih =>
    intro g
    rw [conflict_inner, add_edge_calls_inner]
    by_cases hskip : op1.trans_id = op2.trans_id ∨ op1.attr ≠ op2.attr ∨ op1.attr = '-'
    · rw [if_pos hskip, if_pos hskip]; exact ih g
    · rw [if_neg hskip, if_neg hskip]
      by_cases hw : op1.op = 'W' ∨ op2.op = 'W'
      · rw [if_pos hw, if_pos hw, apply_edge_calls]
        cases add_edge g (get_trans_index s op1.trans_id) (get_trans_index s op2.trans_id) with
        | none => rfl
        | some g1 => exact ih g1
      · rw [if_neg hw, if_neg hw]; exact ih g

theorem conflict_outer_eq_calls (s : Schedule) :
    ∀ (l : List Operation) (g : Graph),
      conflict_outer s l g = apply_edge_calls (add_edge_calls s l) g := by
  intro l
  induction l with
  | nil => intro g; rfl
  | cons op1 rest ih =>
    intro g
    rw [conflict_outer, add_edge_calls, apply_edge_calls_append, conflict_inner_eq_calls]
    cases apply_edge_calls (add_edge_calls_inner s op1 rest) g with
    | none => rfl
    | some g1 => exact ih g1

theorem mem_add_edge_calls_inner (s : Schedule) (op1 : Operation) (c : Int × Int) :
    ∀ rest : List Operation, c ∈ add_edge_calls_inner s op1 rest →
      ∃ op2 ∈ rest, op1.trans_id ≠ op2.trans_id ∧
        c = (get_trans_index s op1.trans_id, get_trans_index s op2.trans_id) := by
  intro rest
  induction rest with
  | nil => intro h; cases h
  | cons op2 rest ih =>
    intro h
    rw [add_edge_calls_inner] at h
    by_cases hskip : op1.trans_id = op2.trans_id ∨ op1.attr ≠ op2.attr ∨ op1.attr = '-'
    · rw [if_pos hskip] at h
      obtain ⟨o, ho, hne, hc⟩ := ih h
      exact ⟨o, List.mem_cons_of_mem _ ho, hne, hc⟩
    · rw [if_neg hskip] at h
      by_cases hw : op1.op = 'W' ∨ op2.op = 'W'
      · rw [if_pos hw] at h
        rcases List.mem_cons.1 h with h | h
        · exact ⟨op2, List.mem_cons_self _ _, fun e => hskip (Or.inl e), h⟩
        · obtain ⟨o, ho, hne, hc⟩ := ih h
          exact ⟨o, List.mem_cons_of_mem _ ho, hne, hc⟩
      · rw [if_neg hw] at h
        obtain ⟨o, ho, hne, hc⟩ := ih h
        exact ⟨o, List.mem_cons_of_mem _ ho, hne, hc⟩

theorem mem_add_edge_calls (s : Schedule) (c : Int × Int) :
    ∀ l : List Operation, c ∈ add_edge_calls s l →
      ∃ op1 ∈ l, ∃ op2 ∈ l, op1.trans_id ≠ op2.trans_id ∧
        c = (get_trans_index s op1.trans_id, get_trans_index s op2.trans_id) := by
  intro l
  induction l with
  | nil => intro h; cases h
  | cons op1 rest ih =>
    intro h
    rw [add_edge_calls, List.mem_append] at h
    rcases h with h | h
    · obtain ⟨op2, ho2, hne, hc⟩ := mem_add_edge_calls_inner s op1 c rest h
      exact ⟨op1, List.mem_cons_self _ _, op2, List.mem_cons_of_mem _ ho2, hne, hc⟩
    · obtain ⟨o1, h1, o2, h2, hne, hc⟩ := ih h
      exact ⟨o1, List.mem_cons_of_mem _ h1, o2, List.mem_cons_of_mem _ h2, hne, hc⟩

theorem get_trans_index_ne (s : Schedule) {t1 t2 : Int} (h1 : t1 ∈ s.trans_ids)
    (h2 : t2 ∈ s.trans_ids) (hne : t1 ≠ t2) : get_trans_index s t1 ≠ get_trans_index s t2 := by
  obtain ⟨k1, e1, _, g1⟩ := get_trans_index_mem s t1 h1
  obtain ⟨k2, e2, _, g2⟩ := get_trans_index_mem s t2 h2
  rw [e1, e2]
  intro e
  have hk : k1 = k2 := by exact_mod_cast e
  rw [hk, g2] at g1
  exact hne (Option.some.inj g1).symm

/-! ## Acyclicity from a rank -/

theorem transGen_rank_lt {α : Type} {r : α → α → Prop} (f : α → Nat)
    (h : ∀ a b, r a b → f a < f b) {a b : α} (hab : Relation.TransGen r a b) : f a < f b := by
  induction hab with
  | single hs => exact h _ _ hs
  | tail _ hs ih => exact lt_trans ih (h _ _ hs)

theorem conflictAcyclic_of_rank {ops : List Operation} (f : Int → Nat)
    (h : ∀ u v, Precedes ops u v → f u < f v) : ConflictAcyclic ops :=
  fun _ hu => lt_irrefl _ (transGen_rank_lt f h hu)

theorem indexOf_le_of_getElem? {l : List Int} {t : Int} :
    ∀ {i : Nat}, l[i]? = some t → l.indexOf t ≤ i := by
  induction l with
  | nil => intro i h; simp at h
  | cons x rest ih =>
    intro i h
    by_cases hx : x = t
    · rw [List.indexOf_cons_eq _ hx]; exact Nat.zero_le _
    · rw [List.indexOf_cons_ne _ hx]
      cases i with
      | zero =>
        simp only [List.getElem?_cons_zero, Option.some.injEq] at h
        exact absurd h hx
      | succ i =>
        rw [List.getElem?_cons_succ] at h
        exact Nat.succ_le_succ (ih h)

theorem getElem?_indexOf {l : List Int} {t : Int} (h : t ∈ l) :
    l[l.indexOf t]? = some t := by
  have hlt : l.indexOf t < l.length := List.indexOf_lt_length.2 h
  rw [List.getElem?_eq_getElem hlt, List.getElem_indexOf hlt]

theorem getD_of_getElem? {l : List Int} {i : Nat} {t : Int} (h : l[i]? = some t) :
    l.getD i 0 = t := by
  rw [List.getD_eq_getElem?_getD, h]
  rfl

theorem lt_length_of_getElem? {l : List Int} {i : Nat} {t : Int} (h : l[i]? = some t) :
    i < l.length := by
  by_contra hlt
  rw [List.getElem?_eq_none (Nat.le_of_not_lt hlt)] at h
  cases h

theorem conflictAcyclic_of_contiguous {ops : List Operation} (h : Contiguous ops) :
    ConflictAcyclic ops := by
  apply conflictAcyclic_of_rank (fun t => (ops.map Operation.trans_id).indexOf t)
  rintro u v ⟨hne, i, j, oi, oj, hij, hi, hj, rfl, rfl, _⟩
  have hti : (ops.map Operation.trans_id)[i]? = some oi.trans_id := by
    rw [List.getElem?_map, hi]; rfl
  have htj : (ops.map Operation.trans_id)[j]? = some oj.trans_id := by
    rw [List.getElem?_map, hj]; rfl
  have hfu := indexOf_le_of_getElem? hti
  have hfv := indexOf_le_of_getElem? htj
  have hgu := getElem?_indexOf (List.mem_iff_getElem?.2 ⟨i, hti⟩)
  have hgv := getElem?_indexOf (List.mem_iff_getElem?.2 ⟨j, htj⟩)
  show (ops.map Operation.trans_id).indexOf oi.trans_id <
    (ops.map Operation.trans_id).indexOf oj.trans_id
  by_contra hnot
  have hjlen : j < ops.length := by
    have := lt_length_of_getElem? htj
    rwa [List.length_map] at this
  rcases Nat.lt_or_ge ((ops.map Operation.trans_id).indexOf oj.trans_id)
      ((ops.map Operation.trans_id).indexOf oi.trans_id) with hlt | hge
  · have hi2 : (ops.map Operation.trans_id).indexOf oj.trans_id < i := by omega
    have := h j hjlen i hij _ hi2
      (by rw [getD_of_getElem? hgv, getD_of_getElem? htj])
    rw [getD_of_getElem? hti, getD_of_getElem? hgv] at this
    exact hne this
  · have heq : (ops.map Operation.trans_id).indexOf oi.trans_id =
        (ops.map Operation.trans_id).indexOf oj.trans_id := by omega
    rw [heq, hgv] at hgu
    exact hne (Option.some.inj hgu).symm

/-! ## Three transactions of one write each -/

theorem indexOf_eq_of_nodup {α : Type} [BEq α] [LawfulBEq α] :
    ∀ (l : List α) (i : Nat) (x : α), l.Nodup → l[i]? = some x → l.indexOf x = i := by
  intro l
  induction l with
  | nil => intro i x _ h; simp at h
  | cons a rest ih =>
    intro i x hnd h
    rw [List.indexOf_cons]
    cases i with
    | zero =>
      simp only [List.getElem?_cons_zero, Option.some.injEq] at h
      subst h
      simp
    | succ i =>
      rw [List.getElem?_cons_succ] at h
      have hx : x ∈ rest := List.mem_iff_getElem?.2 ⟨i, h⟩
      have hne : (a == x) = false := by
        rw [beq_eq_false_iff_ne]
        rintro rfl
        exact (List.nodup_cons.1 hnd).1 hx
      rw [hne, cond_false, ih i x (List.nodup_cons.1 hnd).2 h]

theorem scenario_b_keys_nodup {t1 t2 t3 : Int} (h12 : t1 ≠ t2) (h13 : t1 ≠ t3)
    (h23 : t2 ≠ t3) : (scenario_b_keys t1 t2 t3).Nodup := by
  have h21 : t2 ≠ t1 := fun e => h12 e.symm
  have h31 : t3 ≠ t1 := fun e => h13 e.symm
  have h32 : t3 ≠ t2 := fun e => h23 e.symm
  simp [scenario_b_keys, h12, h13, h23, h21, h31, h32]

theorem scenario_b_key_of_attr {t1 t2 t3 : Int} {o : Operation}
    (h : op_key o ∈ scenario_b_keys t1 t2 t3) (hattr : o.attr ≠ '-') :
    op_key o = (o.trans_id, 'W', 'A') := by
  unfold scenario_b_keys at h
  unfold op_key at h ⊢
  simp only [List.mem_cons, Prod.mk.injEq, List.mem_singleton, List.not_mem_nil, or_false] at h
  rcases h with h | h | h | h | h | h
  · rw [h.2.1, h.2.2]
  · exact absurd h.2.2 hattr
  · rw [h.2.1, h.2.2]
  · exact absurd h.2.2 hattr
  · rw [h.2.1, h.2.2]
  · exact absurd h.2.2 hattr

theorem conflictAcyclic_of_scenario_b {t1 t2 t3 : Int} {ops : List Operation}
    (h : ScenarioB t1 t2 t3 ops) : ConflictAcyclic ops := by
  obtain ⟨h12, h13, h23, hperm, _⟩ := h
  have hnodup : (ops.map op_key).Nodup :=
    hperm.nodup_iff.2 (scenario_b_keys_nodup h12 h13 h23)
  have hpos : ∀ (i : Nat) (o : Operation), ops[i]? = some o → o.attr ≠ '-' →
      (ops.map op_key).indexOf (o.trans_id, 'W', 'A') = i := by
    intro i o hi hattr
    have hk : (ops.map op_key)[i]? = some (op_key o) := by
      rw [List.getElem?_map, hi]; rfl
    have hmem : op_key o ∈ scenario_b_keys t1 t2 t3 :=
      hperm.subset (List.mem_iff_getElem?.2 ⟨i, hk⟩)
    rw [scenario_b_key_of_attr hmem hattr] at hk
    exact indexOf_eq_of_nodup _ i _ hnodup hk
  apply conflictAcyclic_of_rank (fun t => (ops.map op_key).indexOf (t, 'W', 'A'))
  rintro u v ⟨_, i, j, oi, oj, hij, hi, hj, rfl, rfl, hattr, hdash, _⟩
  show (ops.map op_key).indexOf (oi.trans_id, 'W', 'A') <
    (ops.map op_key).indexOf (oj.trans_id, 'W', 'A')
  rw [hpos i oi hi hdash, hpos j oj hj (hattr ▸ hdash)]
  exact hij

theorem scenario_b_results {t1 t2 t3 : Int} {ops : List Operation}
    (h : ScenarioB t1 t2 t3 ops) :
    is_conflict_serializable (find_unique_transactions (Schedule.mk ops [])) = some true ∧
    is_view_serializable (find_unique_transactions (Schedule.mk ops [])) = some true := by
  apply conflict_true_of_acyclic ⟨_, rfl⟩
  rw [find_unique_transactions_ops]
  exact conflictAcyclic_of_scenario_b h

/-! ## The array of unique transaction ids -/

theorem collect_ids_nodup :
    ∀ (ops : List Operation) (temp : List Int), temp.Nodup → (collect_ids ops temp).Nodup := by
  intro ops
  induction ops with
  | nil => intro temp h; exact h
  | cons o rest ih =>
    intro temp h
    rw [collect_ids]
    by_cases hm : o.trans_id ∈ temp
    · rw [if_pos hm]; exact ih temp h
    · rw [if_neg hm]
      apply ih
      rw [List.nodup_append]
      refine ⟨h, List.nodup_singleton _, ?_⟩
      intro x hx hx2
      rw [List.mem_singleton] at hx2
      exact hm (hx2 ▸ hx)

theorem orderedInsert_congr (r1 r2 : Int → Int → Prop) [DecidableRel r1] [DecidableRel r2]
    (a : Int) : ∀ l : List Int, (∀ b ∈ l, r1 a b ↔ r2 a b) →
      l.orderedInsert r1 a = l.orderedInsert r2 a := by
  intro l
  induction l with
  | nil => intro _; rfl
  | cons b rest ih =>
    intro h
    rw [List.orderedInsert, List.orderedInsert]
    have hb := h b (List.mem_cons_self _ _)
    by_cases h1 : r1 a b
    · rw [if_pos h1, if_pos (hb.1 h1)]
    · rw [if_neg h1, if_neg (fun h2 => h1 (hb.2 h2)),
        ih (fun x hx => h x (List.mem_cons_of_mem _ hx))]

theorem insertionSort_congr (r1 r2 : Int → Int → Prop) [DecidableRel r1] [DecidableRel r2] :
    ∀ l : List Int, (∀ a ∈ l, ∀ b ∈ l, r1 a b ↔ r2 a b) →
      l.insertionSort r1 = l.insertionSort r2 := by
  intro l
  induction l with
  | nil => intro _; rfl
  | cons a rest ih =>
    intro h
    rw [List.insertionSort, List.insertionSort,
      ih (fun x hx y hy => h x (List.mem_cons_of_mem _ hx) y (List.mem_cons_of_mem _ hy))]
    apply orderedInsert_congr
    intro b hb
    have hb2 : b ∈ rest := (List.perm_insertionSort r2 rest).subset hb
    exact h a (List.mem_cons_self _ _) b (List.mem_cons_of_mem _ hb2)

theorem compare_ints_le_iff {a b : Int} (ha : 0 < a ∧ a ≤ INT_MAX) (hb : 0 < b ∧ b ≤ INT_MAX) :
    compare_ints a b ≤ 0 ↔ a ≤ b := by
  unfold INT_MAX at ha hb
  unfold compare_ints wrap32
  omega

theorem qsort_compare_ints_eq (l : List Int) (h : ∀ a ∈ l, 0 < a ∧ a ≤ INT_MAX) :
    qsort compare_ints l = l.insertionSort (fun a b => a ≤ b) := by
  unfold qsort
  apply insertionSort_congr
  intro a ha b hb
  exact compare_ints_le_iff (h a ha) (h b hb)

/-! ## The read loop of main -/

theorem remove_active_trans_shape (a c : List Int) (t : Int) (hta : t ∉ a) :
    remove_active_trans (a ++ t :: c) t =
      match c.getLast? with
      | none => a
      | some z => a ++ z :: c.dropLast := by
  have hidx : (a ++ t :: c).indexOf t = a.length := by
    rw [List.indexOf_append_of_not_mem hta, List.indexOf_cons_eq _ rfl, Nat.add_zero]
  unfold remove_active_trans
  rw [if_pos (by simp), hidx]
  rcases List.eq_nil_or_concat c with rfl | ⟨c1, z, hc⟩
  · simp [List.getD_eq_getElem?_getD, List.set_append]
  · rw [List.concat_eq_append] at hc
    subst hc
    have hlast : (a ++ t :: (c1 ++ [z])).getD ((a ++ t :: (c1 ++ [z])).length - 1) 0 = z := by
      rw [List.getD_eq_getElem?_getD]
      have : (a ++ t :: (c1 ++ [z])).length - 1 = (a ++ t :: c1).length := by
        simp
      rw [this, show a ++ t :: (c1 ++ [z]) = (a ++ t :: c1) ++ [z] by simp,
        List.getElem?_append_right (le_refl _)]
      simp
    rw [hlast]
    simp [List.set_append, List.dropLast_append_cons, List.getLast?_append]
    rw [show z :: (c1 ++ [z]) = (z :: c1) ++ [z] by rfl, List.dropLast_concat]

theorem remove_active_trans_spec (l : List Int) (t : Int) (hnd : l.Nodup) :
    (remove_active_trans l t).Nodup ∧
      ∀ x, x ∈ remove_active_trans l t ↔ (x ∈ l ∧ x ≠ t) := by
  by_cases ht : t ∈ l
  · obtain ⟨a, c, rfl⟩ := List.append_of_mem ht
    have hparts := List.nodup_append.1 hnd
    have hta : t ∉ a := fun h => hparts.2.2 h (List.mem_cons_self _ _)
    have htc : t ∉ c := (List.nodup_cons.1 hparts.2.1).1
    have hc : c.Nodup := (List.nodup_cons.1 hparts.2.1).2
    have hac : ∀ x, x ∈ a → x ∉ c := fun x hx hxc => hparts.2.2 hx (List.mem_cons_of_mem _ hxc)
    rw [remove_active_trans_shape a c t hta]
    rcases List.eq_nil_or_concat c with rfl | ⟨c1, z, hcz⟩
    · refine ⟨hparts.1, fun x => ?_⟩
      show x ∈ a ↔ _
      constructor
      · intro hx
        exact ⟨List.mem_append_left _ hx, fun e => hta (e ▸ hx)⟩
      · rintro ⟨hx, hne⟩
        rcases List.mem_append.1 hx with h | h
        · exact h
        · rw [List.mem_singleton] at h
          exact absurd h hne
    · rw [List.concat_eq_append] at hcz
      subst hcz
      have hlast : (c1 ++ [z]).getLast? = some z := by simp
      rw [hlast, List.dropLast_concat]
      have hc1 := List.nodup_append.1 hc
      have hz1 : z ∉ c1 := fun h => hc1.2.2 h (List.mem_singleton_self z)
      have hza : z ∉ a := fun h => hac z h (List.mem_append_right _ (List.mem_singleton_self z))
      have htz : t ≠ z := fun e => htc (List.mem_append_right _ (e ▸ List.mem_singleton_self z))
      have htc1 : t ∉ c1 := fun h => htc (List.mem_append_left _ h)
      refine ⟨?_, fun x => ?_⟩
      · show (a ++ z :: c1).Nodup
        rw [List.nodup_append]
        refine ⟨hparts.1, List.nodup_cons.2 ⟨hz1, hc1.1⟩, ?_⟩
        intro x hxa hx
        rcases List.mem_cons.1 hx with h | h
        · exact hza (h ▸ hxa)
        · exact hac x hxa (List.mem_append_left _ h)
      · show x ∈ a ++ z :: c1 ↔ _
        simp only [List.mem_append, List.mem_cons, List.not_mem_nil, or_false]
        constructor
        · rintro (h | h | h)
          · exact ⟨Or.inl h, fun e => hta (e ▸ h)⟩
          · exact ⟨Or.inr (Or.inr (Or.inr h)), fun e => htz (e.symm.trans h)⟩
          · exact ⟨Or.inr (Or.inr (Or.inl h)), fun e => htc1 (e ▸ h)⟩
        · rintro ⟨h | h | h | h, hne⟩
          · exact Or.inl h
          · exact absurd h hne
          · exact Or.inr (Or.inr h)
          · exact Or.inr (Or.inl h)
  · have : remove_active_trans l t = l := by
      unfold remove_active_trans
      rw [if_neg ht]
    rw [this]
    exact ⟨hnd, fun x => ⟨fun hx => ⟨hx, fun e => ht (e ▸ hx)⟩, fun h => h.1⟩⟩

theorem add_active_trans_spec (l : List Int) (t : Int) (hnd : l.Nodup) :
    (add_active_trans l t).Nodup ∧ ∀ x, x ∈ add_active_trans l t ↔ (x ∈ l ∨ x = t) := by
  unfold add_active_trans
  by_cases ht : t ∈ l
  · rw [if_pos ht]
    refine ⟨hnd, fun x => ⟨Or.inl, fun h => ?_⟩⟩
    rcases h with h | h
    · exact h
    · exact h ▸ ht
  · rw [if_neg ht]
    refine ⟨?_, fun x => by rw [List.mem_append, List.mem_singleton]⟩
    rw [List.nodup_append]
    refine ⟨hnd, List.nodup_singleton _, ?_⟩
    intro x hx hx2
    rw [List.mem_singleton] at hx2
    exact ht (hx2 ▸ hx)

theorem getLast?_filter_concat (ops : List Operation) (r : Operation) (x : Int) :
    ((ops ++ [r]).filter (fun o => o.trans_id = x)).getLast? =
      if r.trans_id = x then some r else (ops.filter (fun o => o.trans_id = x)).getLast? := by
  rw [List.filter_append]
  by_cases h : r.trans_id = x
  · simp [h, List.getLast?_append]
  · simp [h]

theorem uncommitted_concat (ops : List Operation) (r : Operation) (x : Int) :
    Uncommitted (ops ++ [r]) x ↔
      if r.trans_id = x then r.op ≠ 'C' else Uncommitted ops x := by
  unfold Uncommitted
  rw [getLast?_filter_concat]
  by_cases h : r.trans_id = x
  · rw [if_pos h, if_pos h]
    constructor
    · rintro ⟨o, ho, hop⟩
      exact (Option.some.inj ho) ▸ hop
    · intro hop
      exact ⟨r, rfl, hop⟩
  · rw [if_neg h, if_neg h]

theorem lastIsCommit_of_not_uncommitted {ops : List Operation} {o : Operation}
    (ho : o ∈ ops) (h : ¬ Uncommitted ops o.trans_id) : LastIsCommit ops o.trans_id := by
  have hmem : o ∈ ops.filter (fun x => x.trans_id = o.trans_id) := by
    simp [List.mem_filter, ho]
  cases hl : (ops.filter (fun x => x.trans_id = o.trans_id)).getLast? with
  | none =>
    rw [List.getLast?_eq_none_iff] at hl
    rw [hl] at hmem
    cases hmem
  | some z =>
    refine ⟨z, hl, ?_⟩
    by_contra hz
    exact h ⟨z, hl, hz⟩

theorem not_uncommitted_nil (t : Int) : ¬ Uncommitted [] t := by
  rintro ⟨o, ho, _⟩
  simp at ho

theorem main_step_inv (input : List Operation) (st : MainState) (r : Operation)
    (h : MainInv input st) : MainInv (input ++ [r]) (main_step st r) := by
  obtain ⟨hnd, hact, hclosed, hcount, hids, hparts⟩ := h
  obtain ⟨hnd1, hmem1⟩ := add_active_trans_spec st.active_trans r.trans_id hnd
  -- the active list after the optional removal
  have hact2 : (if r.op = 'C' then remove_active_trans
        (add_active_trans st.active_trans r.trans_id) r.trans_id
      else add_active_trans st.active_trans r.trans_id).Nodup ∧
      ∀ t, t ∈ (if r.op = 'C' then remove_active_trans
        (add_active_trans st.active_trans r.trans_id) r.trans_id
      else add_active_trans st.active_trans r.trans_id) ↔
        Uncommitted (st.current_schedule.ops ++ [r]) t := by
    by_cases hc : r.op = 'C'
    · rw [if_pos hc]
      obtain ⟨hnd2, hmem2⟩ := remove_active_trans_spec _ r.trans_id hnd1
      refine ⟨hnd2, fun t => ?_⟩
      rw [hmem2, hmem1, uncommitted_concat, hact]
      by_cases ht : r.trans_id = t
      · rw [if_pos ht]
        constructor
        · rintro ⟨_, hne⟩; exact absurd ht.symm hne
        · intro hne; exact absurd hc hne
      · rw [if_neg ht]
        constructor
        · rintro ⟨h1 | h1, _⟩
          · exact h1
          · exact absurd h1.symm ht
        · intro h1; exact ⟨Or.inl h1, fun e => ht e.symm⟩
    · rw [if_neg hc]
      refine ⟨hnd1, fun t => ?_⟩
      rw [hmem1, uncommitted_concat, hact]
      by_cases ht : r.trans_id = t
      · rw [if_pos ht]
        exact ⟨fun _ => hc, fun _ => Or.inr ht.symm⟩
      · rw [if_neg ht]
        constructor
        · rintro (h1 | h1)
          · exact h1
          · exact absurd h1.symm ht
        · exact Or.inl
  have hops : (add_operation st.current_schedule r.time r.trans_id r.op r.attr).ops =
      st.current_schedule.ops ++ [r] := rfl
  have hpos : 0 < (add_operation st.current_schedule r.time r.trans_id r.op r.attr).op_count := by
    unfold Schedule.op_count
    rw [hops, List.length_append]
    simp
  unfold main_step
  simp only []
  by_cases hempty : (if r.op = 'C' then remove_active_trans
        (add_active_trans st.active_trans r.trans_id) r.trans_id
      else add_active_trans st.active_trans r.trans_id).length = 0
  · rw [if_pos ⟨hempty, hpos⟩]
    have hnil := List.length_eq_zero.1 hempty
    have hnone : ∀ t, ¬ Uncommitted (st.current_schedule.ops ++ [r]) t := by
      intro t ht
      have := (hact2.2 t).2 ht
      rw [hnil] at this
      cases this
    have hcommit : r.op = 'C' := by
      by_contra hc
      exact hnone r.trans_id ((uncommitted_concat _ _ _).2 (by rw [if_pos rfl]; exact hc))
    refine ⟨hact2.1, fun t => ?_, ?_, ?_, ?_, ?_⟩
    · rw [hnil]
      exact ⟨fun h => (by cases h), fun h => absurd h (not_uncommitted_nil t)⟩
    · intro c hc
      rcases List.mem_append.1 hc with hc | hc
      · exact hclosed c hc
      · rw [List.mem_singleton] at hc
        subst hc
        refine ⟨?_, ⟨r, ?_, hcommit⟩, fun o ho => ?_⟩
        · show (add_operation st.current_schedule r.time r.trans_id r.op r.attr).ops ≠ []
          rw [hops]; simp
        · show (add_operation st.current_schedule r.time r.trans_id r.op r.attr).ops.getLast?
            = some r
          rw [hops]; simp
        · exact lastIsCommit_of_not_uncommitted ho (hnone o.trans_id)
    · show st.schedule_counter + 1 = ((st.processed ++ [_]).length : Int) + 1
      rw [hcount, List.length_append]
      simp
    · show (st.processed ++ [_]).map Prod.snd = _
      rw [List.map_append, List.length_append, hids, List.length_singleton, List.range_succ,
        List.map_append, hcount]
      rfl
    · show (st.processed ++ [_]).flatMap (fun c => c.1.ops) ++ create_schedule.ops = _
      rw [List.flatMap_append, ← hparts]
      simp [create_schedule, hops]
  · rw [if_neg (fun h => hempty h.1)]
    refine ⟨hact2.1, hact2.2, hclosed, hcount, hids, ?_⟩
    show st.processed.flatMap (fun c => c.1.ops) ++
      (add_operation st.current_schedule r.time r.trans_id r.op r.attr).ops = _
    rw [hops, ← hparts, List.append_assoc]

theorem main_loop_concat (input : List Operation) (r : Operation) :
    main_loop (input ++ [r]) = main_step (main_loop input) r := by
  unfold main_loop
  rw [List.foldl_append]
  rfl

theorem main_loop_inv (input : List Operation) : MainInv input (main_loop input) := by
  induction input using List.reverseRecOn with
  | nil =>
    refine ⟨List.nodup_nil, fun t => ?_, fun c hc => (by cases hc), rfl, rfl, rfl⟩
    exact ⟨fun h => (by cases h), fun h => absurd h (not_uncommitted_nil t)⟩
  | append_singleton l r ih =>
    rw [main_loop_concat]
    exact main_step_inv l _ r ih

theorem main_step_closing (st : MainState) (r : Operation) :
    ((main_step st r).active_trans = [] →
      (main_step st r).processed = st.processed ++
        [(add_operation st.current_schedule r.time r.trans_id r.op r.attr,
          st.schedule_counter)]) ∧
    ((main_step st r).active_trans ≠ [] → (main_step st r).processed = st.processed) := by
  have hpos : 0 < (add_operation st.current_schedule r.time r.trans_id r.op r.attr).op_count := by
    unfold Schedule.op_count add_operation
    simp
  unfold main_step
  simp only []
  by_cases hempty : (if r.op = 'C' then remove_active_trans
        (add_active_trans st.active_trans r.trans_id) r.trans_id
      else add_active_trans st.active_trans r.trans_id).length = 0
  · rw [if_pos ⟨hempty, hpos⟩]
    exact ⟨fun _ => rfl, fun h => absurd (List.length_eq_zero.1 hempty) h⟩
  · rw [if_neg (fun h => hempty h.1)]
    exact ⟨fun h => absurd (List.length_eq_zero.2 h) hempty, fun _ => rfl⟩

/-! ## The orderings tested by the permutation search -/

theorem check_all_permutations_log_loop_fst
    (visit : List Int → Option (Bool × List Int) × List (List Int)) (start : Nat) :
    ∀ (cands : List Nat) (arr : List Int),
      (check_all_permutations_log_loop visit start cands arr).1 =
        check_all_permutations_loop (fun a => (visit a).1) start cands arr := by
  intro cands
  induction cands with
  | nil => intro arr; rfl
  | cons i rest ih =>
    intro arr
    rw [check_all_permutations_log_loop, check_all_permutations_loop]
    rcases hv : visit (swap arr start i) with ⟨res, log⟩
    cases res with
    | none => rfl
    | some p =>
      obtain ⟨b, arr1⟩ := p
      cases b with
      | true => rfl
      | false => exact ih (swap arr1 start i)

theorem check_all_permutations_log_rec_fst (s : Schedule) (end_v : Nat) :
    ∀ (d : Nat) (arr : List Int) (start : Nat),
      (check_all_permutations_log_rec (test_order s) end_v d arr start).1 =
        check_all_permutations_rec s end_v d arr start := by
  intro d
  induction d with
  | zero => intro arr start; rfl
  | succ d ih =>
    intro arr start
    rw [check_all_permutations_log_rec, check_all_permutations_rec,
      check_all_permutations_log_loop_fst]
    congr 1
    funext arr1
    exact ih arr1 (start + 1)

theorem check_all_permutations_log_fst (s : Schedule) (arr : List Int) (start : Nat)
    (end_v : Int) :
    (check_all_permutations_log (test_order s) arr start end_v).1 =
      check_all_permutations s arr start end_v := by
  unfold check_all_permutations_log check_all_permutations
  by_cases h : end_v < (start : Int)
  · rw [if_pos h, if_pos h]
  · rw [if_neg h, if_neg h]
    exact check_all_permutations_log_rec_fst s _ _ arr start

theorem reachable_getElem?_start {arr q : List Int} {start i : Nat} (hs : start < arr.length)
    (hi : i < arr.length) (hle : start ≤ i)
    (h : Reachable (swap arr start i) (start + 1) q) : q[start]? = arr[i]? := by
  have htake := h.2
  rw [take_succ_swap arr start i hs hi hle] at htake
  have h1 : (q.take (start + 1))[start]? = q[start]? := by
    rw [List.getElem?_take, if_pos (Nat.lt_succ_self _)]
  rw [← h1, htake, List.getElem?_append_right (by rw [List.length_take]; omega),
    List.length_take, Nat.min_eq_left (Nat.le_of_lt hs), Nat.sub_self,
    List.getElem?_eq_getElem hi]
  rfl

theorem swap_nodup {arr : List Int} {a b : Nat} (ha : a < arr.length) (hb : b < arr.length)
    (h : arr.Nodup) : (swap arr a b).Nodup :=
  (swap_perm arr a b ha hb).nodup_iff.2 h

theorem enum_loop_spec (n start : Nat)
    (visit : List Int → Option (Bool × List Int) × List (List Int)) (hs : start < n)
    (hvisit : ∀ arr1, arr1.length = n → arr1.Nodup → EnumSpec arr1 (start + 1) (visit arr1)) :
    ∀ (cands : List Nat) (arr : List Int), arr.length = n → arr.Nodup → cands.Nodup →
      (∀ i ∈ cands, start ≤ i ∧ i < n) →
      (check_all_permutations_log_loop visit start cands arr).1 = some (false, arr) ∧
      (check_all_permutations_log_loop visit start cands arr).2.Nodup ∧
      ∀ q, q ∈ (check_all_permutations_log_loop visit start cands arr).2 ↔
        ∃ i ∈ cands, Reachable (swap arr start i) (start + 1) q := by
  intro cands
  induction cands with
  | nil =>
    intro arr _ _ _ _
    refine ⟨rfl, List.nodup_nil, fun q => ?_⟩
    constructor
    · intro h; cases h
    · rintro ⟨i, hi, _⟩; cases hi
  | cons i rest ih =>
    intro arr hlen hnd hcn hc
    obtain ⟨hle, hi⟩ := hc i (List.mem_cons_self _ _)
    have hs1 : start < arr.length := hlen ▸ hs
    have hi1 : i < arr.length := hlen ▸ hi
    obtain ⟨hv1, hv2, hv3⟩ := hvisit (swap arr start i) (by rw [swap_length]; exact hlen)
      (swap_nodup hs1 hi1 hnd)
    obtain ⟨hr1, hr2, hr3⟩ := ih arr hlen hnd (List.nodup_cons.1 hcn).2
      (fun j hj => hc j (List.mem_cons_of_mem _ hj))
    rw [check_all_permutations_log_loop]
    rcases hv : visit (swap arr start i) with ⟨res, log⟩
    rw [hv] at hv1 hv2 hv3
    simp only at hv1 hv2 hv3
    subst hv1
    simp only [swap_swap arr start i hs1 hi1]
    refine ⟨hr1, ?_, fun q => ?_⟩
    · rw [List.nodup_append]
      refine ⟨hv2, hr2, ?_⟩
      intro q hq1 hq2
      obtain ⟨j, hj, hqj⟩ := (hr3 q).1 hq2
      obtain ⟨hlej, hjn⟩ := hc j (List.mem_cons_of_mem _ hj)
      have hj1 : j < arr.length := hlen ▸ hjn
      have e1 := reachable_getElem?_start hs1 hi1 hle ((hv3 q).1 hq1)
      have e2 := reachable_getElem?_start hs1 hj1 hlej hqj
      rw [e1, List.getElem?_eq_getElem hi1, List.getElem?_eq_getElem hj1] at e2
      have hij : i = j := (List.Nodup.getElem_inj_iff hnd).1 (Option.some.inj e2)
      exact (List.nodup_cons.1 hcn).1 (hij ▸ hj)
    · rw [List.mem_append, hv3 q, hr3 q, exists_mem_cons_iff]

theorem enum_rec_spec (test : List Int → Option Bool) (htest : ∀ q, test q = some false)
    (end_v : Nat) :
    ∀ (d : Nat) (arr : List Int) (start : Nat), arr.length = end_v + 1 → start + d = end_v →
      arr.Nodup → EnumSpec arr start (check_all_permutations_log_rec test end_v d arr start) := by
  intro d
  induction d with
  | zero =>
    intro arr start hlen hsd _
    have hse : start = end_v := by omega
    subst hse
    rw [check_all_permutations_log_rec, ← hlen, List.take_length, htest arr]
    refine ⟨rfl, List.nodup_singleton _, fun q => ?_⟩
    rw [List.mem_singleton]
    constructor
    · rintro rfl; exact ⟨List.Perm.refl _, rfl⟩
    · intro hq; exact reachable_last hq hlen
  | succ d ih =>
    intro arr start hlen hsd hnd
    rw [check_all_permutations_log_rec]
    obtain ⟨h1, h2, h3⟩ := enum_loop_spec (end_v + 1) start
      (fun arr1 => check_all_permutations_log_rec test end_v d arr1 (start + 1)) (by omega)
      (fun arr1 hl1 hn1 => ih arr1 (start + 1) hl1 (by omega) hn1)
      (List.range' start (d + 2)) arr hlen hnd (List.nodup_range' _ _) (fun i hi => by
        rw [List.mem_range'_1] at hi
        omega)
    refine ⟨h1, h2, fun q => (h3 q).trans ?_⟩
    constructor
    · rintro ⟨i, hi, hq⟩
      rw [List.mem_range'_1] at hi
      exact reachable_of_swap (by omega) (by omega) hi.1 hq
    · intro hq
      obtain ⟨i, hle, hi, hqi⟩ := reachable_step hq (by omega)
      exact ⟨i, by rw [List.mem_range'_1]; omega, hqi⟩

theorem stop_loop_spec (test : List Int → Option Bool) (n start : Nat)
    (visitF visitR : List Int → Option (Bool × List Int) × List (List Int)) (hs : start < n)
    (hF : ∀ arr1, arr1.length = n → (visitF arr1).1 = some (false, arr1))
    (hR : ∀ arr1, arr1.length = n → StopSpec test arr1 (visitF arr1).2 (visitR arr1)) :
    ∀ (cands : List Nat) (arr : List Int), arr.length = n →
      (∀ i ∈ cands, start ≤ i ∧ i < n) →
      (check_all_permutations_log_loop visitF start cands arr).1 = some (false, arr) ∧
      StopSpec test arr (check_all_permutations_log_loop visitF start cands arr).2
        (check_all_permutations_log_loop visitR start cands arr) := by
  intro cands
  induction cands with
  | nil =>
    intro arr _ _
    exact ⟨rfl, Or.inl ⟨fun x hx => (by cases hx), rfl⟩⟩
  | cons i rest ih =>
    intro arr hlen hc
    obtain ⟨_, hi⟩ := hc i (List.mem_cons_self _ _)
    have hs1 : start < arr.length := hlen ▸ hs
    have hi1 : i < arr.length := hlen ▸ hi
    have hlen1 : (swap arr start i).length = n := by rw [swap_length]; exact hlen
    obtain ⟨ihF, ihR⟩ := ih arr hlen (fun j hj => hc j (List.mem_cons_of_mem _ hj))
    have hF1 := hF (swap arr start i) hlen1
    have hR1 := hR (swap arr start i) hlen1
    -- the run with the failing test
    have hrunF : check_all_permutations_log_loop visitF start (i :: rest) arr =
        ((check_all_permutations_log_loop visitF start rest arr).1,
          (visitF (swap arr start i)).2 ++
            (check_all_permutations_log_loop visitF start rest arr).2) := by
      rw [check_all_permutations_log_loop]
      rcases hv : visitF (swap arr start i) with ⟨res, log⟩
      rw [hv] at hF1
      simp only at hF1
      subst hF1
      simp only [swap_swap arr start i hs1 hi1]
    rw [hrunF]
    refine ⟨ihF, ?_⟩
    show StopSpec test arr ((visitF (swap arr start i)).2 ++
      (check_all_permutations_log_loop visitF start rest arr).2) _
    rcases hR1 with ⟨hall, hres⟩ | ⟨l, q, rest1, hfull, hl, hlog, hq⟩
    · have hrunR : check_all_permutations_log_loop visitR start (i :: rest) arr =
          ((check_all_permutations_log_loop visitR start rest arr).1,
            (visitF (swap arr start i)).2 ++
              (check_all_permutations_log_loop visitR start rest arr).2) := by
        rw [check_all_permutations_log_loop, hres]
        simp only [swap_swap arr start i hs1 hi1]
      rw [hrunR]
      rcases ihR with ⟨hall2, hres2⟩ | ⟨l2, q2, rest2, hfull2, hl2, hlog2, hq2⟩
      · left
        refine ⟨fun x hx => ?_, by rw [hres2]⟩
        rcases List.mem_append.1 hx with h | h
        · exact hall x h
        · exact hall2 x h
      · right
        refine ⟨(visitF (swap arr start i)).2 ++ l2, q2, rest2, ?_, fun x hx => ?_, ?_, hq2⟩
        · rw [hfull2, List.append_assoc]
        · rcases List.mem_append.1 hx with h | h
          · exact hall x h
          · exact hl2 x h
        · show (visitF (swap arr start i)).2 ++ _ = _
          rw [hlog2, List.append_assoc]
    · right
      have hrunR : check_all_permutations_log_loop visitR start (i :: rest) arr =
          visitR (swap arr start i) := by
        rw [check_all_permutations_log_loop]
        rcases hv : visitR (swap arr start i) with ⟨res, log⟩
        rw [hv] at hq
        rcases hq with ⟨_, hnone⟩ | ⟨_, arr1, hsome⟩
        · simp only at hnone
          subst hnone
          rfl
        · simp only at hsome
          subst hsome
          rfl
      rw [hrunR]
      refine ⟨l, q, rest1 ++ (check_all_permutations_log_loop visitF start rest arr).2, ?_,
        hl, hlog, hq⟩
      rw [hfull]
      simp

theorem stop_rec_spec (test : List Int → Option Bool) (end_v : Nat) :
    ∀ (d : Nat) (arr : List Int) (start : Nat), arr.length = end_v + 1 → start + d = end_v →
      (check_all_permutations_log_rec (fun _ => some false) end_v d arr start).1 =
        some (false, arr) ∧
      StopSpec test arr
        (check_all_permutations_log_rec (fun _ => some false) end_v d arr start).2
        (check_all_permutations_log_rec test end_v d arr start) := by
  intro d
  induction d with
  | zero =>
    intro arr start hlen _
    rw [check_all_permutations_log_rec, check_all_permutations_log_rec]
    refine ⟨rfl, ?_⟩
    cases ht : test (arr.take (end_v + 1)) with
    | none =>
      exact Or.inr ⟨[], _, [], rfl, fun x hx => (by cases hx), rfl, Or.inl ⟨ht, rfl⟩⟩
    | some b =>
      cases b with
      | false =>
        refine Or.inl ⟨fun x hx => ?_, rfl⟩
        rw [List.mem_singleton] at hx
        rw [hx]; exact ht
      | true =>
        exact Or.inr ⟨[], _, [], rfl, fun x hx => (by cases hx), rfl, Or.inr ⟨ht, arr, rfl⟩⟩
  | succ d ih =>
    intro arr start hlen hsd
    rw [check_all_permutations_log_rec, check_all_permutations_log_rec]
    exact stop_loop_spec test (end_v + 1) start _ _ (by omega)
      (fun arr1 h1 => (ih arr1 (start + 1) h1 (by omega)).1)
      (fun arr1 h1 => (ih arr1 (start + 1) h1 (by omega)).2)
      (List.range' start (d + 2)) arr hlen (fun i hi => by
        rw [List.mem_range'_1] at hi
        omega)

theorem check_all_permutations_log_eq_rec (test : List Int → Option Bool) (arr : List Int)
    (h : 0 < arr.length) :
    check_all_permutations_log test arr 0 ((arr.length : Int) - 1) =
      check_all_permutations_log_rec test (arr.length - 1) (arr.length - 1) arr 0 := by
  unfold check_all_permutations_log
  rw [if_neg (by simp only [Nat.cast_zero]; omega)]
  have hn : ((arr.length : Int) - 1).toNat = arr.length - 1 := by omega
  rw [hn, Nat.sub_zero]

/-! ## The two checks and view equivalence with a serial order -/

theorem lastWriteOn_append_of_no_write (X Y : List Operation) (a : Char)
    (h : ∀ o ∈ Y, o.op = 'W' → o.attr ≠ a) : lastWriteOn (X ++ Y) a = lastWriteOn X a := by
  unfold lastWriteOn
  have hnil : Y.filter (fun o => o.op = 'W' ∧ o.attr = a) = [] := by
    rw [List.filter_eq_nil_iff]
    intro o ho hq
    have hq2 : o.op = 'W' ∧ o.attr = a := by simpa using hq
    exact h o ho hq2.1 hq2.2
  rw [List.filter_append, hnil, List.append_nil]

theorem lastWriteOn_append_of_write (X Y : List Operation) (a : Char)
    (h : ∃ o ∈ Y, o.op = 'W' ∧ o.attr = a) : lastWriteOn (X ++ Y) a = lastWriteOn Y a := by
  unfold lastWriteOn
  obtain ⟨o, ho, hq⟩ := h
  have hmem : o ∈ Y.filter (fun x => x.op = 'W' ∧ x.attr = a) := by
    simp [List.mem_filter, ho, hq]
  rw [List.filter_append, List.getLast?_append]
  cases hl : (Y.filter (fun x => x.op = 'W' ∧ x.attr = a)).getLast? with
  | none =>
    rw [List.getLast?_eq_none_iff] at hl
    rw [hl] at hmem
    cases hmem
  | some z => rfl

theorem lastWriteOn_block (ops : List Operation) (t : Int) (a : Char) :
    lastWriteOn (ops.filter (fun o => o.trans_id = t)) a =
      if WritesOn ops a t then t else 0 := by
  by_cases h : WritesOn ops a t
  · rw [if_pos h]
    obtain ⟨o, ho, ht, hw, ha⟩ := h
    unfold lastWriteOn
    have hmem : o ∈ (ops.filter (fun x => x.trans_id = t)).filter
        (fun x => x.op = 'W' ∧ x.attr = a) := by
      simp [List.mem_filter, ho, ht, hw, ha]
    cases hl : ((ops.filter (fun x => x.trans_id = t)).filter
        (fun x => x.op = 'W' ∧ x.attr = a)).getLast? with
    | none =>
      rw [List.getLast?_eq_none_iff] at hl
      rw [hl] at hmem
      cases hmem
    | some z =>
      have hz : z ∈ (ops.filter (fun x => x.trans_id = t)).filter
          (fun x => x.op = 'W' ∧ x.attr = a) := List.mem_of_getLast?_eq_some hl
      have hzt : z.trans_id = t := by
        have := (List.mem_filter.1 (List.mem_filter.1 hz).1).2
        simpa using this
      show z.trans_id = t
      exact hzt
  · rw [if_neg h]
    apply lastWriteOn_eq_zero
    intro o ho hw ha
    have ho2 := List.mem_filter.1 ho
    exact h ⟨o, ho2.1, by simpa using ho2.2, hw, ha⟩

theorem lastWritingElement_concat (ops : List Operation) (p : List Int) (t : Int) (a : Char) :
    lastWritingElement ops (p ++ [t]) a =
      if WritesOn ops a t then t else lastWritingElement ops p a := by
  unfold lastWritingElement
  rw [List.filter_append]
  by_cases h : WritesOn ops a t
  · simp [h, List.getLast?_append]
  · simp [h]

theorem map_snd_block (ops : List Operation) (t : Int) :
    (ops.enum.filter (fun e => e.2.trans_id = t)).map Prod.snd =
      ops.filter (fun o => o.trans_id = t) := by
  have h := List.filter_map (p := fun o : Operation => decide (o.trans_id = t)) Prod.snd ops.enum
  rw [List.enum_map_snd] at h
  rw [h]
  rfl

theorem lastWriteOn_serial (ops : List Operation) (a : Char) :
    ∀ p : List Int,
      lastWriteOn ((serial_schedule ops p).map Prod.snd) a = lastWritingElement ops p a := by
  intro p
  induction p using List.reverseRecOn with
  | nil => rfl
  | append_singleton p t ih =>
    unfold serial_schedule at ih ⊢
    rw [List.flatMap_append, List.map_append, lastWritingElement_concat]
    have hblock : ([t].flatMap (fun t => ops.enum.filter (fun e => e.2.trans_id = t))).map
        Prod.snd = ops.filter (fun o => o.trans_id = t) := by
      rw [List.flatMap_cons, List.flatMap_nil, List.append_nil, map_snd_block]
    rw [hblock]
    by_cases h : WritesOn ops a t
    · rw [if_pos h, lastWriteOn_append_of_write, lastWriteOn_block, if_pos h]
      obtain ⟨o, ho, ht, hw, ha⟩ := h
      exact ⟨o, List.mem_filter.2 ⟨ho, by simpa using ht⟩, hw, ha⟩
    · rw [if_neg h, lastWriteOn_append_of_no_write, ih]
      intro o ho hw ha
      have ho2 := List.mem_filter.1 ho
      exact h ⟨o, ho2.1, by simpa using ho2.2, hw, ha⟩

theorem flatMap_getElem?_split {α β : Type} (B : α → List β) :
    ∀ (p : List α) (k : Nat) (x : β), (p.flatMap B)[k]? = some x →
      ∃ p1 t p2 j, p = p1 ++ t :: p2 ∧ (B t)[j]? = some x ∧
        (p.flatMap B).take k = p1.flatMap B ++ (B t).take j := by
  intro p
  induction p with
  | nil => intro k x h; simp at h
  | cons t rest ih =>
    intro k x h
    rw [List.flatMap_cons] at h ⊢
    by_cases hk : k < (B t).length
    · rw [List.getElem?_append_left hk] at h
      refine ⟨[], t, rest, k, rfl, h, ?_⟩
      rw [List.take_append_of_le_length (Nat.le_of_lt hk)]
      rfl
    · rw [List.getElem?_append_right (Nat.le_of_not_lt hk)] at h
      obtain ⟨p1, t1, p2, j, hp, hj, htake⟩ := ih (k - (B t).length) x h
      refine ⟨t :: p1, t1, p2, j, by rw [hp]; rfl, hj, ?_⟩
      rw [List.take_append_eq_append_take, List.take_of_length_le (Nat.le_of_not_lt hk), htake,
        List.flatMap_cons, List.append_assoc]

theorem filter_getElem?_split {β : Type} (P : β → Bool) :
    ∀ (l : List β) (j : Nat) (x : β), (l.filter P)[j]? = some x →
      ∃ m, l[m]? = some x ∧ (l.filter P).take j = (l.take m).filter P := by
  intro l
  induction l with
  | nil => intro j x h; simp at h
  | cons y rest ih =>
    intro j x h
    by_cases hy : P y = true
    · rw [List.filter_cons_of_pos hy] at h ⊢
      cases j with
      | zero =>
        simp only [List.getElem?_cons_zero, Option.some.injEq] at h
        exact ⟨0, by simp [h], rfl⟩
      | succ j =>
        rw [List.getElem?_cons_succ] at h
        obtain ⟨m, hm, htake⟩ := ih j x h
        refine ⟨m + 1, by simpa using hm, ?_⟩
        rw [List.take_succ_cons, List.take_succ_cons, List.filter_cons_of_pos hy, htake]
    · rw [List.filter_cons_of_neg hy] at h ⊢
      obtain ⟨m, hm, htake⟩ := ih j x h
      refine ⟨m + 1, by simpa using hm, ?_⟩
      rw [List.take_succ_cons, List.filter_cons_of_neg hy, htake]

theorem mem_readsFrom (l : List (Nat × Operation)) (e : Nat × Int) :
    e ∈ readsFrom l ↔ ∃ k i o, l[k]? = some (i, o) ∧ o.op = 'R' ∧
      e = (i, lastWriteOn ((l.take k).map Prod.snd) o.attr) := by
  unfold readsFrom
  rw [List.mem_filterMap]
  constructor
  · rintro ⟨k, _, hk⟩
    cases hl : l[k]? with
    | none => rw [hl] at hk; cases hk
    | some x =>
      obtain ⟨i, o⟩ := x
      rw [hl] at hk
      simp only at hk
      by_cases hr : o.op = 'R'
      · rw [if_pos hr] at hk
        exact ⟨k, i, o, hl, hr, (Option.some.inj hk).symm⟩
      · rw [if_neg hr] at hk; cases hk
  · rintro ⟨k, i, o, hl, hr, rfl⟩
    have hlt : k < l.length := by
      by_contra hge
      rw [List.getElem?_eq_none (Nat.le_of_not_lt hge)] at hl
      cases hl
    refine ⟨k, List.mem_range.2 hlt, ?_⟩
    rw [hl]
    simp only
    rw [if_pos hr]

theorem getElem?_enum_eq {ops : List Operation} {m i : Nat} {o : Operation}
    (h : ops.enum[m]? = some (i, o)) : m = i ∧ ops[i]? = some o := by
  rw [List.getElem?_enum] at h
  cases ho : ops[m]? with
  | none => rw [ho] at h; cases h
  | some x =>
    rw [ho] at h
    simp only [Option.map_some', Option.some.injEq, Prod.mk.injEq] at h
    obtain ⟨h1, h2⟩ := h
    subst h1
    exact ⟨rfl, by rw [ho, h2]⟩

theorem mem_readsFrom_enum (ops : List Operation) (e : Nat × Int) :
    e ∈ readsFrom ops.enum ↔ ∃ i o, ops[i]? = some o ∧ o.op = 'R' ∧
      e = (i, lastWriteOn (ops.take i) o.attr) := by
  have htake : ∀ i, (ops.enum.take i).map Prod.snd = ops.take i := by
    intro i
    rw [List.map_take, List.enum_map_snd]
  rw [mem_readsFrom]
  constructor
  · rintro ⟨k, i, o, hk, hr, rfl⟩
    obtain ⟨hki, hio⟩ := getElem?_enum_eq hk
    subst hki
    exact ⟨k, o, hio, hr, by rw [htake]⟩
  · rintro ⟨i, o, hio, hr, rfl⟩
    refine ⟨i, i, o, ?_, hr, by rw [htake]⟩
    rw [List.getElem?_enum, hio]
    rfl

theorem mem_serial_schedule (ops : List Operation) (p : List Int) (i : Nat) (o : Operation) :
    (i, o) ∈ serial_schedule ops p ↔ (ops[i]? = some o ∧ o.trans_id ∈ p) := by
  unfold serial_schedule
  rw [List.mem_flatMap]
  constructor
  · rintro ⟨t, ht, hmem⟩
    obtain ⟨h1, h2⟩ := List.mem_filter.1 hmem
    have h3 : o.trans_id = t := by simpa using h2
    exact ⟨List.mk_mem_enum_iff_getElem?.1 h1, h3 ▸ ht⟩
  · rintro ⟨h1, h2⟩
    exact ⟨o.trans_id, h2, List.mem_filter.2 ⟨List.mk_mem_enum_iff_getElem?.2 h1, by simp⟩⟩

theorem serial_getElem?_split (ops : List Operation) (p : List Int) (k i : Nat) (o : Operation)
    (h : (serial_schedule ops p)[k]? = some (i, o)) :
    ops[i]? = some o ∧ ∃ p1 p2, p = p1 ++ o.trans_id :: p2 ∧
      ((serial_schedule ops p).take k).map Prod.snd =
        (serial_schedule ops p1).map Prod.snd ++
          (ops.take i).filter (fun x => x.trans_id = o.trans_id) := by
  unfold serial_schedule at h ⊢
  obtain ⟨p1, t, p2, j, hp, hj, htake⟩ := flatMap_getElem?_split
    (fun t => ops.enum.filter (fun e => e.2.trans_id = t)) p k (i, o) h
  have hmem : (i, o) ∈ ops.enum.filter (fun e => e.2.trans_id = t) :=
    List.mem_iff_getElem?.2 ⟨j, hj⟩
  have ht : o.trans_id = t := by simpa using (List.mem_filter.1 hmem).2
  obtain ⟨m, hm, htake2⟩ := filter_getElem?_split _ ops.enum j (i, o) hj
  obtain ⟨hmi, hio⟩ := getElem?_enum_eq hm
  subst hmi
  subst ht
  refine ⟨hio, p1, p2, hp, ?_⟩
  rw [htake, List.map_append, htake2]
  congr 1
  have h2 := List.filter_map (p := fun x : Operation => decide (x.trans_id = o.trans_id))
    Prod.snd (ops.enum.take m)
  rw [List.map_take, List.enum_map_snd] at h2
  rw [h2]
  rfl

theorem take_indexOf_of_split {p p1 p2 : List Int} {t : Int} (hp : p = p1 ++ t :: p2)
    (hc : p.count t = 1) : p.take (p.indexOf t) = p1 := by
  have hnot : t ∉ p1 := by
    rw [← List.count_eq_zero]
    rw [hp, List.count_append, List.count_cons_self] at hc
    omega
  rw [hp, List.indexOf_append_of_not_mem hnot, List.indexOf_cons_eq _ rfl, Nat.add_zero,
    List.take_left]

theorem serial_writer_true (ops : List Operation) (p : List Int) (hown : NoOwnRead ops)
    (k i : Nat) (o : Operation) (h : (serial_schedule ops p)[k]? = some (i, o))
    (hr : o.op = 'R') (hc : p.count o.trans_id = 1) :
    lastWriteOn (((serial_schedule ops p).take k).map Prod.snd) o.attr =
      lastWritingElement ops (p.take (p.indexOf o.trans_id)) o.attr := by
  obtain ⟨hio, p1, p2, hp, htake⟩ := serial_getElem?_split ops p k i o h
  rw [htake, take_indexOf_of_split hp hc, lastWriteOn_append_of_no_write, lastWriteOn_serial]
  intro w hw hwr
  obtain ⟨hw1, hw2⟩ := List.mem_filter.1 hw
  exact hown (i, o) (List.mk_mem_enum_iff_getElem?.2 hio) hr w hw1 (by simpa using hw2) hwr

theorem finalised_count {s : Schedule} (hfin : Finalised s) :
    ∀ o ∈ s.ops, s.trans_ids.count o.trans_id = 1 := by
  intro o ho
  have hmem := finalised_covered hfin o ho
  obtain ⟨s0, rfl⟩ := hfin
  apply List.count_eq_one_of_mem _ hmem
  unfold find_unique_transactions
  by_cases h0 : s0.op_count = 0
  · exfalso
    rw [find_unique_transactions_ops] at ho
    unfold Schedule.op_count at h0
    rw [List.length_eq_zero] at h0
    rw [h0] at ho
    cases ho
  · rw [if_neg h0]
    show (qsort compare_ints (collect_ids s0.ops [])).Nodup
    unfold qsort
    exact (List.perm_insertionSort _ _).nodup_iff.2 (collect_ids_nodup _ _ List.nodup_nil)

theorem compare_read_from_spec (s : Schedule) (p : List Int)
    (hpos : ∀ o ∈ s.ops, p.count o.trans_id = 1) :
    compare_read_from s p = true ↔
      ∀ i o, s.ops[i]? = some o → o.op = 'R' →
        lastWriteOn (s.ops.take i) o.attr =
          lastWritingElement s.ops (p.take (p.indexOf o.trans_id)) o.attr := by
  unfold compare_read_from
  rw [compare_read_from_loop_spec]
  constructor
  · intro h i o hi hr
    have := h i o hi hr
    rwa [Nat.zero_add, find_last_writer_eq,
      serial_writer_eq s p o (hpos o (List.mem_iff_getElem?.2 ⟨i, hi⟩))] at this
  · intro h i o hi hr
    rw [Nat.zero_add, find_last_writer_eq,
      serial_writer_eq s p o (hpos o (List.mem_iff_getElem?.2 ⟨i, hi⟩))]
    exact h i o hi hr

theorem mem_readsFrom_serial (ops : List Operation) (p : List Int) (hown : NoOwnRead ops)
    (hcount : ∀ o ∈ ops, p.count o.trans_id = 1) (e : Nat × Int) :
    e ∈ readsFrom (serial_schedule ops p) ↔ ∃ i o, ops[i]? = some o ∧ o.op = 'R' ∧
      e = (i, lastWritingElement ops (p.take (p.indexOf o.trans_id)) o.attr) := by
  rw [mem_readsFrom]
  constructor
  · rintro ⟨k, i, o, hk, hr, rfl⟩
    have hio := (serial_getElem?_split ops p k i o hk).1
    have hc := hcount o (List.mem_iff_getElem?.2 ⟨i, hio⟩)
    exact ⟨i, o, hio, hr, by rw [serial_writer_true ops p hown k i o hk hr hc]⟩
  · rintro ⟨i, o, hio, hr, rfl⟩
    have hc := hcount o (List.mem_iff_getElem?.2 ⟨i, hio⟩)
    have hmem : (i, o) ∈ serial_schedule ops p :=
      (mem_serial_schedule ops p i o).2 ⟨hio, List.count_pos_iff.1 (by omega)⟩
    obtain ⟨k, hk⟩ := List.mem_iff_getElem?.1 hmem
    exact ⟨k, i, o, hk, hr, by rw [serial_writer_true ops p hown k i o hk hr hc]⟩

theorem reads_from_iff (ops : List Operation) (p : List Int) (hown : NoOwnRead ops)
    (hcount : ∀ o ∈ ops, p.count o.trans_id = 1) :
    (∀ e, e ∈ readsFrom ops.enum ↔ e ∈ readsFrom (serial_schedule ops p)) ↔
      ∀ i o, ops[i]? = some o → o.op = 'R' →
        lastWriteOn (ops.take i) o.attr =
          lastWritingElement ops (p.take (p.indexOf o.trans_id)) o.attr := by
  constructor
  · intro hall i o hio hr
    have h1 : (i, lastWriteOn (ops.take i) o.attr) ∈ readsFrom ops.enum :=
      (mem_readsFrom_enum ops _).2 ⟨i, o, hio, hr, rfl⟩
    obtain ⟨i1, o1, hio1, _, heq⟩ :=
      (mem_readsFrom_serial ops p hown hcount _).1 ((hall _).1 h1)
    simp only [Prod.mk.injEq] at heq
    obtain ⟨hi, hw⟩ := heq
    subst hi
    rw [hio] at hio1
    rw [← Option.some.inj hio1] at hw
    exact hw
  · intro hok e
    rw [mem_readsFrom_enum, mem_readsFrom_serial ops p hown hcount]
    constructor
    · rintro ⟨i, o, hio, hr, rfl⟩
      exact ⟨i, o, hio, hr, by rw [hok i o hio hr]⟩
    · rintro ⟨i, o, hio, hr, rfl⟩
      exact ⟨i, o, hio, hr, by rw [hok i o hio hr]⟩

theorem lastWritingElement_eq_zero (ops : List Operation) (p : List Int) (a : Char)
    (h : ∀ o ∈ ops, o.op = 'W' → o.attr ≠ a) : lastWritingElement ops p a = 0 := by
  unfold lastWritingElement
  have hnil : p.filter (fun t => WritesOn ops a t) = [] := by
    rw [List.filter_eq_nil_iff]
    intro t _ hq
    have hq2 : WritesOn ops a t := by simpa using hq
    obtain ⟨o, ho, _, hw, ha⟩ := hq2
    exact h o ho hw ha
  rw [hnil]
  rfl

theorem final_writes_iff (s : Schedule) (p : List Int) :
    (∀ o ∈ s.ops, o.attr ≠ '-' → FinalWriterAgrees s p o.attr) ↔
      ∀ a, a ≠ '-' →
        lastWriteOn s.ops a = lastWriteOn ((serial_schedule s.ops p).map Prod.snd) a := by
  constructor
  · intro h a ha
    rw [lastWriteOn_serial]
    by_cases hocc : ∃ o ∈ s.ops, o.attr = a
    · obtain ⟨o, ho, rfl⟩ := hocc
      exact h o ho ha
    · have hno : ∀ o ∈ s.ops, o.op = 'W' → o.attr ≠ a :=
        fun o ho _ he => hocc ⟨o, ho, he⟩
      rw [lastWriteOn_eq_zero _ a hno, lastWritingElement_eq_zero _ p a hno]
  · intro h o _ hd
    have := h o.attr hd
    rw [lastWriteOn_serial] at this
    exact this

theorem both_checks_spec (s : Schedule) (p : List Int) (hfin : Finalised s) (hattr : AttrsInRange s)
    (hown : NoOwnRead s.ops) (hperm : p.Perm s.trans_ids) :
    (compare_final_writes s p = some true ∧ compare_read_from s p = true) ↔
      ((∀ e, e ∈ readsFrom s.ops.enum ↔ e ∈ readsFrom (serial_schedule s.ops p)) ∧
        ∀ a, a ≠ '-' →
          lastWriteOn s.ops a = lastWriteOn ((serial_schedule s.ops p).map Prod.snd) a) := by
  have hcount : ∀ o ∈ s.ops, p.count o.trans_id = 1 := by
    intro o ho
    rw [hperm.count_eq]
    exact finalised_count hfin o ho
  obtain ⟨b, hb, hiff⟩ := compare_final_writes_spec s p hattr
  rw [reads_from_iff s.ops p hown hcount, ← compare_read_from_spec s p hcount,
    ← final_writes_iff s p, ← hiff, hb]
  constructor
  · rintro ⟨h1, h2⟩
    exact ⟨h2, Option.some.inj h1⟩
  · rintro ⟨h1, h2⟩
    exact ⟨by rw [h2], h1⟩

/-! ## Conflict-serializable schedules and the permutation search -/

/-- Claim C2: on a graph with `n > 0` vertices and an `n`-by-`n` adjacency matrix,
`has_cycle` returns `1` exactly when the graph contains a directed cycle (a
non-empty path of edges from a vertex back to itself, self-loops included) and
`0` exactly when it contains none; in particular it returns `0` on a graph
obtained by deleting an edge `a → b` that every cycle passes through. -/
theorem has_cycle_iff_directed_cycle (g : Graph) (_hn : 0 < g.num_vertices)
    (_hwf : g.WellFormed) :
    (has_cycle g = some true ↔ g.HasCycle) ∧
    (has_cycle g = some false ↔ ¬ g.HasCycle) ∧
    (∀ (g1 : Graph) (a b : Nat), g1.WellFormed →
      (∀ x y, g1.edge x y ↔ (g.edge x y ∧ ¬ (x = a ∧ y = b))) →
      (∀ v, ¬ Relation.TransGen (fun x y => g.edge x y ∧ ¬ (x = a ∧ y = b)) v v) →
      has_cycle g1 = some false) := by
  classical
  refine ⟨?_, ?_, ?_⟩
  · rw [has_cycle_eq_decide g]; simp
  · rw [has_cycle_eq_decide g]; simp
  · intro g1 a b _ hedge hall
    rw [has_cycle_eq_decide g1]
    have hno : ¬ g1.HasCycle := by
      rintro ⟨v, hv⟩
      exact hall v (Relation.TransGen.mono (fun x y hxy => (hedge x y).1 hxy) hv)
    simp [hno]

/-- Instance of claim C2 on the three-vertex cycle `0 → 1 → 2 → 0`. -/
theorem has_cycle_iff_directed_cycle_witness :
    0 < (Graph.mk 3 [[0, 1, 0], [0, 0, 1], [1, 0, 0]]).num_vertices ∧
    (Graph.mk 3 [[0, 1, 0], [0, 0, 1], [1, 0, 0]]).WellFormed ∧
    has_cycle (Graph.mk 3 [[0, 1, 0], [0, 0, 1], [1, 0, 0]]) = some true ∧
    (Graph.mk 3 [[0, 1, 0], [0, 0, 1], [1, 0, 0]]).HasCycle ∧
    has_cycle (Graph.mk 3 [[0, 1, 0], [0, 0, 1], [0, 0, 0]]) = some false :=
  ⟨by decide, by decide, by decide,
    (has_cycle_iff_directed_cycle (Graph.mk 3 [[0, 1, 0], [0, 0, 1], [1, 0, 0]])
      (by decide) (by decide)).1.1 (by decide), by decide⟩

/-- Claim C10: `create_graph(n)` returns `NULL` exactly when `n ≤ 0`; for `n > 0`
it returns a graph with `num_vertices = n` whose `n`-by-`n` adjacency matrix is
all zeros, and `has_cycle` returns `0` on that fresh graph. -/
theorem create_graph_fresh (n : Int) :
    (create_graph n = none ↔ n ≤ 0) ∧
    (0 < n → ∃ g, create_graph n = some g ∧ (g.num_vertices : Int) = n ∧ g.WellFormed ∧
      (∀ u v, g.entry u v = 0) ∧ has_cycle g = some false) := by
  classical
  refine ⟨?_, fun hn => ?_⟩
  · unfold create_graph
    by_cases h : n ≤ 0 <;> simp [h]
  · have hentry : ∀ u v, (Graph.mk n.toNat
        (List.replicate n.toNat (List.replicate n.toNat (0 : Int)))).entry u v = 0 := by
      intro u v
      unfold Graph.entry
      simp only [List.getD_eq_getElem?_getD, List.getElem?_replicate]
      by_cases hu : u < n.toNat
      · by_cases hv : v < n.toNat <;> simp [hu, hv]
      · simp [hu]
    refine ⟨Graph.mk n.toNat (List.replicate n.toNat (List.replicate n.toNat 0)), ?_, ?_, ?_,
      hentry, ?_⟩
    · unfold create_graph
      rw [if_neg (not_le.2 hn)]
    · exact Int.toNat_of_nonneg hn.le
    · refine ⟨by simp, fun row hrow => ?_⟩
      rw [List.eq_of_mem_replicate hrow]
      simp
    · rw [has_cycle_eq_decide]
      have hno : ¬ (Graph.mk n.toNat
          (List.replicate n.toNat (List.replicate n.toNat (0 : Int)))).HasCycle := by
        rintro ⟨v, hv⟩
        obtain ⟨x, hvx, _⟩ := Relation.TransGen.head'_iff.1 hv
        have := hvx.2.2
        rw [hentry] at this
        exact absurd this (by decide)
      simp [hno]

/-- Instance of claim C10 at `n = 3`. -/
theorem create_graph_fresh_witness :
    (0 : Int) < 3 ∧ ∃ g, create_graph 3 = some g ∧ (g.num_vertices : Int) = 3 ∧ g.WellFormed ∧
      (∀ u v, g.entry u v = 0) ∧ has_cycle g = some false :=
  ⟨by decide, (create_graph_fresh 3).2 (by decide)⟩

/-- Claim C9, evaluated at `from = -1`, `to = 0` on the fresh graph with two
vertices: both comparisons of the guard hold, so the store is performed with
row index `-1`, outside the matrix; the call is not a no-op. -/
theorem add_edge_negative_index :
    ∃ g, create_graph 2 = some g ∧
      (((-1 : Int) < (g.num_vertices : Int) ∧ (0 : Int) < (g.num_vertices : Int)) ∧
        add_edge g (-1) 0 = none) :=
  ⟨Graph.mk 2 [[0, 0], [0, 0]], by decide, by decide, by decide⟩

/-! ## Properties of the two serializability tests -/

/-- Claim C1: on a schedule finalised by `find_unique_transactions`,
`is_conflict_serializable` returns `1` exactly when the conflict relation on the
transactions is acyclic, and `0` exactly when it has a cycle; transaction `u`
precedes `v` (`u ≠ v`) when positions `i < j` carry operations of `u` and `v`
on the same attribute other than `'-'`, at least one of them a `W`. -/
theorem conflict_serializable_iff_acyclic (s : Schedule) (hfin : Finalised s) :
    (is_conflict_serializable s = some true ↔ ConflictAcyclic s.ops) ∧
    (is_conflict_serializable s = some false ↔ ¬ ConflictAcyclic s.ops) := by
  obtain ⟨b, hb, hiff⟩ := is_conflict_serializable_covered s (finalised_covered hfin)
  rw [hb]
  cases b with
  | true =>
    have hac : ConflictAcyclic s.ops := hiff.1 rfl
    simp [hac]
  | false =>
    have hac : ¬ ConflictAcyclic s.ops := fun h => Bool.noConfusion (hiff.2 h)
    simp [hac]

/-- Instance of claim C1 on `R1(A) W2(A) W1(A) W3(A) C1 C2 C3`, whose conflict
relation has the cycle `1 → 2 → 1`. -/
theorem conflict_serializable_iff_acyclic_witness :
    Finalised schedule_blind_write ∧
    is_conflict_serializable schedule_blind_write = some false ∧
    ¬ ConflictAcyclic schedule_blind_write.ops :=
  ⟨⟨_, rfl⟩, by decide,
    (conflict_serializable_iff_acyclic schedule_blind_write ⟨_, rfl⟩).2.1 (by decide)⟩

/-- Claim C3: on a finalised schedule, `is_view_serializable` returns `1` exactly
when `is_conflict_serializable` returns `1` or some permutation `p` of
`trans_ids` makes both `compare_final_writes` and `compare_read_from` return
`1`; it returns `0` exactly when `is_conflict_serializable` returns `0` and every
permutation fails one of the two checks; and when the attributes are uppercase
letters or `'-'`, it returns `0` exactly when the schedule is not
conflict-serializable and no permutation passes both checks. -/
theorem view_serializable_iff_search (s : Schedule) (hfin : Finalised s) :
    (is_view_serializable s = some true ↔
      (is_conflict_serializable s = some true ∨ ∃ p, p.Perm s.trans_ids ∧
        compare_final_writes s p = some true ∧ compare_read_from s p = true)) ∧
    (is_view_serializable s = some false ↔
      (is_conflict_serializable s = some false ∧ ∀ p, p.Perm s.trans_ids →
        (compare_final_writes s p = some false ∨
          (compare_final_writes s p = some true ∧ compare_read_from s p = false)))) ∧
    (AttrsInRange s →
      (is_view_serializable s = some false ↔
        (¬ is_conflict_serializable s = some true ∧ ¬ ∃ p, p.Perm s.trans_ids ∧
          compare_final_writes s p = some true ∧ compare_read_from s p = true))) := by
  obtain ⟨b, hb, _⟩ := is_conflict_serializable_covered s (finalised_covered hfin)
  obtain ⟨h1, h2, h3⟩ := is_view_serializable_spec s b hb
  refine ⟨h1, h2, fun hattr => ?_⟩
  rw [← not_or, ← h1]
  cases hv : is_view_serializable s with
  | none => exact absurd hv (h3 hattr)
  | some r => cases r <;> simp

/-- Instance of claim C3 on `R1(A) W2(A) W1(A) R1(A) W3(A) C1 C2 C3`: the
attributes are in range, the test returns `0`, the schedule is not
conflict-serializable and no permutation passes both checks. -/
theorem view_serializable_iff_search_witness :
    Finalised schedule_own_read ∧ AttrsInRange schedule_own_read ∧
    is_view_serializable schedule_own_read = some false ∧
    (¬ is_conflict_serializable schedule_own_read = some true ∧
      ¬ ∃ p, p.Perm schedule_own_read.trans_ids ∧
        compare_final_writes schedule_own_read p = some true ∧
        compare_read_from schedule_own_read p = true) :=
  ⟨⟨_, rfl⟩, by decide, by decide,
    ((view_serializable_iff_search schedule_own_read ⟨_, rfl⟩).2.2 (by decide)).1 (by decide)⟩

/-- Claim C4, evaluated on `R1(A) W2(A) W1(A) R1(A) W3(A) C1 C2 C3`: the schedule
is view-equivalent to the serial schedule `T1 T2 T3` (each read reads from the
same transaction, `A` has the same final writer), yet `is_view_serializable`
returns `0`. -/
theorem view_serializable_misses_own_read :
    Finalised schedule_own_read ∧ ViewSerializable schedule_own_read ∧
    is_view_serializable schedule_own_read = some false := by
  refine ⟨⟨_, rfl⟩, ⟨[1, 2, 3], by decide, fun e => ?_, fun a => ?_⟩, by decide⟩
  · have h1 : readsFrom schedule_own_read.ops.enum = [(0, 0), (3, 1)] := by decide
    have h2 : readsFrom (serial_schedule schedule_own_read.ops [1, 2, 3]) =
        [(0, 0), (3, 1)] := by decide
    rw [h1, h2]
  · by_cases h : a = 'A'
    · subst h; decide
    · have hw1 : ∀ o ∈ schedule_own_read.ops.enum.map Prod.snd, o.op = 'W' → o.attr = 'A' := by
        decide
      have hw2 : ∀ o ∈ (serial_schedule schedule_own_read.ops [1, 2, 3]).map Prod.snd,
          o.op = 'W' → o.attr = 'A' := by decide
      rw [lastWriteOn_eq_zero _ a (fun o ho hw e => h (e.symm.trans (hw1 o ho hw))),
        lastWriteOn_eq_zero _ a (fun o ho hw e => h (e.symm.trans (hw2 o ho hw)))]

/-- Claim C5: on a schedule whose attributes are uppercase letters or `'-'`,
`compare_final_writes(s, p, len)` returns `1` exactly when, for every attribute
`a ≠ '-'` carried by some operation of `s`, the transaction of the last `W` on
`a` in `s.ops` (`0` if none) equals the last element of `p` that has a `W` on `a`
in `s` (`0` if none); otherwise it returns `0`. -/
theorem compare_final_writes_iff (s : Schedule) (p : List Int) (hattr : AttrsInRange s) :
    (compare_final_writes s p = some true ↔
      ∀ a, a ≠ '-' → (∃ o ∈ s.ops, o.attr = a) →
        lastWriteOn s.ops a = lastWritingElement s.ops p a) ∧
    (compare_final_writes s p = some false ↔
      ¬ ∀ a, a ≠ '-' → (∃ o ∈ s.ops, o.attr = a) →
        lastWriteOn s.ops a = lastWritingElement s.ops p a) := by
  obtain ⟨b, hb, hiff⟩ := compare_final_writes_spec s p hattr
  have hform : (∀ o ∈ s.ops, o.attr ≠ '-' → FinalWriterAgrees s p o.attr) ↔
      ∀ a, a ≠ '-' → (∃ o ∈ s.ops, o.attr = a) →
        lastWriteOn s.ops a = lastWritingElement s.ops p a := by
    constructor
    · rintro h a ha ⟨o, ho, rfl⟩
      exact h o ho ha
    · intro h o ho hd
      exact h o.attr hd ⟨o, ho, rfl⟩
  rw [hform] at hiff
  rw [hb]
  cases b with
  | true =>
    have hyes := hiff.1 rfl
    exact ⟨⟨fun _ => hyes, fun _ => rfl⟩, ⟨fun h => (by cases h), fun h => absurd hyes h⟩⟩
  | false =>
    have hno := mt hiff.2 Bool.false_ne_true
    exact ⟨⟨fun h => (by cases h), fun h => absurd h hno⟩, ⟨fun _ => hno, fun _ => rfl⟩⟩

/-- Instance of claim C5 on `R1(A) W2(A) W1(A) W3(A) C1 C2 C3` with the order
`1, 2, 3`. -/
theorem compare_final_writes_iff_witness :
    AttrsInRange schedule_blind_write ∧
    compare_final_writes schedule_blind_write [1, 2, 3] = some true ∧
    (∀ a, a ≠ '-' → (∃ o ∈ schedule_blind_write.ops, o.attr = a) →
      lastWriteOn schedule_blind_write.ops a =
        lastWritingElement schedule_blind_write.ops [1, 2, 3] a) :=
  ⟨by decide, by decide,
    (compare_final_writes_iff schedule_blind_write [1, 2, 3] (by decide)).1.1 (by decide)⟩

/-- Claim C6: for a serial order `p` in which every reading transaction has one
position, `compare_read_from(s, p, len)` returns `1` exactly when, for every `R`
operation at index `i` of `s.ops`, the transaction of the last `W` on the same
attribute below index `i` (`0` if none) equals the last element of `p` that
stands strictly before the position of the reading transaction and has a `W` on
that attribute anywhere in `s` (`0` if none); otherwise it returns `0`. -/
theorem compare_read_from_iff (s : Schedule) (p : List Int)
    (hpos : ∀ o ∈ s.ops, o.op = 'R' → p.count o.trans_id = 1) :
    (compare_read_from s p = true ↔
      ∀ i o, s.ops[i]? = some o → o.op = 'R' →
        lastWriteOn (s.ops.take i) o.attr =
          lastWritingElement s.ops (p.take (p.indexOf o.trans_id)) o.attr) ∧
    (compare_read_from s p = false ↔
      ¬ ∀ i o, s.ops[i]? = some o → o.op = 'R' →
        lastWriteOn (s.ops.take i) o.attr =
          lastWritingElement s.ops (p.take (p.indexOf o.trans_id)) o.attr) := by
  have hiff : compare_read_from s p = true ↔
      ∀ i o, s.ops[i]? = some o → o.op = 'R' →
        lastWriteOn (s.ops.take i) o.attr =
          lastWritingElement s.ops (p.take (p.indexOf o.trans_id)) o.attr := by
    unfold compare_read_from
    rw [compare_read_from_loop_spec]
    constructor
    · intro h i o hi hr
      have := h i o hi hr
      rwa [Nat.zero_add, find_last_writer_eq,
        serial_writer_eq s p o (hpos o (List.mem_iff_getElem?.2 ⟨i, hi⟩) hr)] at this
    · intro h i o hi hr
      rw [Nat.zero_add, find_last_writer_eq,
        serial_writer_eq s p o (hpos o (List.mem_iff_getElem?.2 ⟨i, hi⟩) hr)]
      exact h i o hi hr
  refine ⟨hiff, ?_⟩
  rw [← hiff]
  cases compare_read_from s p <;> simp

/-- Instance of claim C6 on `R1(A) W2(A) W1(A) W3(A) C1 C2 C3` with the order
`1, 2, 3`. -/
theorem compare_read_from_iff_witness :
    (∀ o ∈ schedule_blind_write.ops, o.op = 'R' → ([1, 2, 3] : List Int).count o.trans_id = 1) ∧
    compare_read_from schedule_blind_write [1, 2, 3] = true ∧
    (∀ i o, schedule_blind_write.ops[i]? = some o → o.op = 'R' →
      lastWriteOn (schedule_blind_write.ops.take i) o.attr =
        lastWritingElement schedule_blind_write.ops
          (([1, 2, 3] : List Int).take (([1, 2, 3] : List Int).indexOf o.trans_id)) o.attr) :=
  ⟨by decide, by decide,
    (compare_read_from_iff schedule_blind_write [1, 2, 3] (by decide)).1.1 (by decide)⟩

/-- Claim C7 (subsumption): whenever `is_conflict_serializable(s)` returns `1`,
`is_view_serializable(s)` returns `1`. -/
theorem conflict_implies_view (s : Schedule) (h : is_conflict_serializable s = some true) :
    is_view_serializable s = some true := by
  unfold is_view_serializable
  rw [h]

/-- Instance of claim C7 on `R1(A) W1(A) C1 R2(A) W2(A) C2`. -/
theorem conflict_implies_view_witness :
    is_conflict_serializable schedule_serial = some true ∧
    is_view_serializable schedule_serial = some true :=
  ⟨by decide, conflict_implies_view schedule_serial (by decide)⟩

/-- Claim C8: a schedule with `trans_count ≤ 1` is accepted by both tests,
whatever its operations. -/
theorem trivial_acceptance (s : Schedule) (h : s.trans_count ≤ 1) :
    is_conflict_serializable s = some true ∧ is_view_serializable s = some true := by
  have hc : is_conflict_serializable s = some true := by
    unfold is_conflict_serializable
    rw [if_pos h]
  refine ⟨hc, ?_⟩
  unfold is_view_serializable
  rw [hc]

/-- Instance of claim C8 on the one-transaction schedule `W1(A) R1(A) C1`. -/
theorem trivial_acceptance_witness :
    schedule_single.trans_count ≤ 1 ∧
    is_conflict_serializable schedule_single = some true ∧
    is_view_serializable schedule_single = some true :=
  ⟨by decide, trivial_acceptance schedule_single (by decide)⟩

/-- Claim C12: on a finalised schedule in which no two operations of different
transactions carry the same attribute other than `'-'`, the construction of the
precedence graph adds no edge (the graph stays the fresh, edgeless one), and
`is_conflict_serializable` and `is_view_serializable` both return `1`, whatever
the interleaving. -/
theorem disjoint_attributes_accepted (s : Schedule) (hfin : Finalised s)
    (hdis : DisjointAttrs s.ops) :
    (∀ g, conflict_outer s s.ops g = some g) ∧
    (1 < s.trans_count → ∃ g, create_graph (s.trans_count : Int) = some g ∧
      conflict_outer s s.ops g = some g ∧ ∀ u v, ¬ g.edge u v) ∧
    is_conflict_serializable s = some true ∧ is_view_serializable s = some true := by
  refine ⟨fun g => conflict_outer_no_conflict s s.ops g hdis, fun hcount => ?_,
    conflict_true_of_acyclic hfin (conflictAcyclic_of_disjoint hdis)⟩
  obtain ⟨hcreate, _, hent⟩ := create_graph_spec s.trans_count (by omega)
  refine ⟨_, hcreate, conflict_outer_no_conflict s s.ops _ hdis, fun u v huv => ?_⟩
  have h1 := huv.2.2
  rw [hent u v] at h1
  exact absurd h1 (by decide)

/-- Instance of claim C12 on `R1(A) W2(B) W1(A) R2(B) C2 C1`. -/
theorem disjoint_attributes_accepted_witness :
    Finalised schedule_disjoint ∧ DisjointAttrs schedule_disjoint.ops ∧
    is_conflict_serializable schedule_disjoint = some true ∧
    is_view_serializable schedule_disjoint = some true :=
  ⟨⟨_, rfl⟩, by decide,
    (disjoint_attributes_accepted schedule_disjoint ⟨_, rfl⟩ (by decide)).2.2⟩

/-- Claim C14: view-serializability as computed is strictly more permissive than
conflict-serializability: on the finalised schedule
`R1(A) W2(A) W1(A) W3(A) C1 C2 C3`, `is_conflict_serializable` returns `0` and
`is_view_serializable` returns `1`. -/
theorem view_strictly_more_permissive :
    ∃ s, Finalised s ∧ is_conflict_serializable s = some false ∧
      is_view_serializable s = some true :=
  ⟨schedule_blind_write, ⟨_, rfl⟩, by decide, by decide⟩

/-- Claim C20: when every attribute of the schedule is an uppercase letter or
`'-'`, every index `attr - 'A'` used by `compare_final_writes` on the table
`processed_attrs` lies in `0 .. 25`, so the function never leaves the table; the
precondition is needed, since any other attribute different from `'-'` gives an
index outside `0 .. 25`, and the function leaves the table when the first
operation carries such an attribute. -/
theorem processed_attrs_index_in_range (s : Schedule) (hattr : AttrsInRange s) :
    (∀ o ∈ s.ops, o.attr ≠ '-' → 0 ≤ attr_index o.attr ∧ attr_index o.attr ≤ 25) ∧
    (∀ p, compare_final_writes s p ≠ none) ∧
    (∀ c : Char, c ≠ '-' → ¬ UpperLetter c → attr_index c < 0 ∨ 25 < attr_index c) ∧
    (∀ (s1 : Schedule) (p : List Int) (o : Operation) (rest : List Operation),
      s1.ops = o :: rest → o.attr ≠ '-' → ¬ UpperLetter o.attr →
      compare_final_writes s1 p = none) := by
  refine ⟨fun o ho hd => ?_, fun p => ?_, fun c _ hc => ?_, fun s1 p o rest hops hd hu => ?_⟩
  · have := attr_index_of_upper ((hattr o ho).resolve_left hd)
    omega
  · obtain ⟨b, hb, _⟩ := compare_final_writes_spec s p hattr
    rw [hb]
    exact Option.some_ne_none b
  · by_contra hcon
    push_neg at hcon
    exact hc (upper_of_attr_index hcon.1 (by omega))
  · unfold compare_final_writes
    rw [hops, compare_final_writes_loop, if_pos hd, if_neg]
    rintro ⟨h0, h1⟩
    exact hu (upper_of_attr_index h0 (by simpa using h1))

/-- Instance of claim C20 on `R1(A) W2(A) W1(A) W3(A) C1 C2 C3`, together with
the schedule `R2(a) W1(a) W2(a) C1 C2` on which the table is left. -/
theorem processed_attrs_index_in_range_witness :
    AttrsInRange schedule_blind_write ∧
    (∀ p, compare_final_writes schedule_blind_write p ≠ none) ∧
    compare_final_writes schedule_lowercase [1, 2] = none :=
  ⟨by decide, (processed_attrs_index_in_range schedule_blind_write (by decide)).2.1,
    by decide⟩

/-- Claim C19: on a finalised schedule, `get_trans_index` maps the transaction of
every operation to an index `i` with `0 ≤ i < trans_count` and
`trans_ids[i]` equal to that transaction (never `-1`), and different
transactions get different indices; hence every `add_edge` call made by
`is_conflict_serializable` has both endpoints in range and distinct, every such
call stays inside the matrix, and the precedence graph has `trans_count`
vertices and no self-loop. -/
theorem get_trans_index_valid (s : Schedule) (hfin : Finalised s) :
    (∀ o ∈ s.ops, ∃ i : Nat, get_trans_index s o.trans_id = (i : Int) ∧ i < s.trans_count ∧
      s.trans_ids[i]? = some o.trans_id) ∧
    (∀ o1 ∈ s.ops, ∀ o2 ∈ s.ops, o1.trans_id ≠ o2.trans_id →
      get_trans_index s o1.trans_id ≠ get_trans_index s o2.trans_id) ∧
    (∀ c ∈ add_edge_calls s s.ops, 0 ≤ c.1 ∧ c.1 < (s.trans_count : Int) ∧ 0 ≤ c.2 ∧
      c.2 < (s.trans_count : Int) ∧ c.1 ≠ c.2) ∧
    (1 < s.trans_count → ∃ g0 g1, create_graph (s.trans_count : Int) = some g0 ∧
      conflict_outer s s.ops g0 = some g1 ∧ apply_edge_calls (add_edge_calls s s.ops) g0 = some g1 ∧
      g1.num_vertices = s.trans_count ∧ g1.WellFormed ∧ ∀ u, ¬ g1.edge u u) := by
  have hcov := finalised_covered hfin
  refine ⟨fun o ho => get_trans_index_mem s o.trans_id (hcov o ho),
    fun o1 h1 o2 h2 hne => get_trans_index_ne s (hcov o1 h1) (hcov o2 h2) hne,
    fun c hc => ?_, fun hcount => ?_⟩
  · obtain ⟨o1, h1, o2, h2, hne, rfl⟩ := mem_add_edge_calls s c s.ops hc
    obtain ⟨k1, e1, l1, _⟩ := get_trans_index_mem s o1.trans_id (hcov o1 h1)
    obtain ⟨k2, e2, l2, _⟩ := get_trans_index_mem s o2.trans_id (hcov o2 h2)
    have hd := get_trans_index_ne s (hcov o1 h1) (hcov o2 h2) hne
    refine ⟨?_, ?_, ?_, ?_, hd⟩
    · show 0 ≤ get_trans_index s o1.trans_id
      rw [e1]; exact Int.natCast_nonneg k1
    · show get_trans_index s o1.trans_id < (s.trans_count : Int)
      rw [e1]; exact_mod_cast l1
    · show 0 ≤ get_trans_index s o2.trans_id
      rw [e2]; exact Int.natCast_nonneg k2
    · show get_trans_index s o2.trans_id < (s.trans_count : Int)
      rw [e2]; exact_mod_cast l2
  · obtain ⟨hcreate, hwf0, hent0⟩ := create_graph_spec s.trans_count (by omega)
    obtain ⟨g1, hres, hwf1, hn1, hent⟩ := conflict_outer_spec s s.ops _ hwf0 rfl hcov
    refine ⟨_, g1, hcreate, hres, by rw [← conflict_outer_eq_calls]; exact hres, hn1, hwf1,
      fun u huu => ?_⟩
    rcases (hent u u).1 huu.2.2 with h | ⟨op1, op2, hin, hc, hv1, hv2⟩
    · rw [hent0] at h
      exact absurd h (by decide)
    · have g1 := (vertex_of_mem s _ (hcov _ (inOrder_mem hin).1)).2.2
      have g2 := (vertex_of_mem s _ (hcov _ (inOrder_mem hin).2)).2.2
      rw [hv1] at g1
      rw [hv2, g1] at g2
      exact hc.1 (Option.some.inj g2)

/-- Instance of claim C19 on `R1(A) W2(A) W1(A) W3(A) C1 C2 C3`. -/
theorem get_trans_index_valid_witness :
    Finalised schedule_blind_write ∧
    add_edge_calls schedule_blind_write schedule_blind_write.ops =
      [(0, 1), (0, 2), (1, 0), (1, 2), (0, 2)] ∧
    (∀ c ∈ add_edge_calls schedule_blind_write schedule_blind_write.ops,
      0 ≤ c.1 ∧ c.1 < (schedule_blind_write.trans_count : Int) ∧ 0 ≤ c.2 ∧
      c.2 < (schedule_blind_write.trans_count : Int) ∧ c.1 ≠ c.2) :=
  ⟨⟨_, rfl⟩, by decide, (get_trans_index_valid schedule_blind_write ⟨_, rfl⟩).2.2.1⟩

/-- Claim C13: on a finalised schedule that is already serial (the operations of
each transaction are contiguous in `s.ops`), `is_conflict_serializable` returns
`1` and `is_view_serializable` returns `1`. -/
theorem serial_schedule_accepted (s : Schedule) (hfin : Finalised s)
    (hserial : Contiguous s.ops) :
    is_conflict_serializable s = some true ∧ is_view_serializable s = some true :=
  conflict_true_of_acyclic hfin (conflictAcyclic_of_contiguous hserial)

/-- Instance of claim C13 on `R1(A) W1(A) C1 R2(A) W2(A) C2`. -/
theorem serial_schedule_accepted_witness :
    Finalised schedule_serial ∧ Contiguous schedule_serial.ops ∧
    is_conflict_serializable schedule_serial = some true ∧
    is_view_serializable schedule_serial = some true :=
  ⟨⟨_, rfl⟩, by decide, serial_schedule_accepted schedule_serial ⟨_, rfl⟩ (by decide)⟩

/-- Claim C15 fails as stated: no interleaving of three transactions, each
consisting only of one `W(A)` followed by its Commit, makes
`is_conflict_serializable` return `0` (and `is_view_serializable` return `1`). -/
theorem scenario_b_never_rejected :
    ¬ ∃ (t1 t2 t3 : Int) (ops : List Operation), ScenarioB t1 t2 t3 ops ∧
      is_conflict_serializable (find_unique_transactions (Schedule.mk ops [])) = some false ∧
      is_view_serializable (find_unique_transactions (Schedule.mk ops [])) = some true := by
  rintro ⟨t1, t2, t3, ops, h, hc, _⟩
  rw [(scenario_b_results h).1] at hc
  cases hc

/-- Claim C15 as amended: for every interleaving of three transactions, each
consisting only of one `W(A)` followed by its Commit, the write-write conflicts
order the transactions by the position of their writes, the precedence graph is
acyclic, and `is_conflict_serializable` and `is_view_serializable` both return
`1`. -/
theorem scenario_b_accepted (t1 t2 t3 : Int) (ops : List Operation)
    (h : ScenarioB t1 t2 t3 ops) :
    ConflictAcyclic ops ∧
    is_conflict_serializable (find_unique_transactions (Schedule.mk ops [])) = some true ∧
    is_view_serializable (find_unique_transactions (Schedule.mk ops [])) = some true :=
  ⟨conflictAcyclic_of_scenario_b h, scenario_b_results h⟩

/-- Instance of the amended claim C15 on `W1(A) W2(A) W3(A) C1 C2 C3`. -/
theorem scenario_b_accepted_witness :
    ScenarioB 1 2 3 scenario_b_ops ∧
    is_conflict_serializable (find_unique_transactions (Schedule.mk scenario_b_ops []))
      = some true ∧
    is_view_serializable (find_unique_transactions (Schedule.mk scenario_b_ops []))
      = some true :=
  ⟨by decide, (scenario_b_accepted 1 2 3 scenario_b_ops (by decide)).2⟩

/-- Claim C11: for a schedule with at least one operation and positive
transaction ids (values of the type `int`), after `find_unique_transactions`
the array `trans_ids`, of length `trans_count`, is strictly ascending and holds
exactly the `trans_id` values that occur in `ops`; `ops` is left unchanged. -/
theorem find_unique_transactions_sorted (s : Schedule) (hne : 0 < s.op_count)
    (hpos : ∀ o ∈ s.ops, 0 < o.trans_id ∧ o.trans_id ≤ INT_MAX) :
    (find_unique_transactions s).trans_ids.Sorted (fun a b => a < b) ∧
    (∀ t, t ∈ (find_unique_transactions s).trans_ids ↔ ∃ o ∈ s.ops, o.trans_id = t) ∧
    (find_unique_transactions s).trans_count = (find_unique_transactions s).trans_ids.length ∧
    (find_unique_transactions s).ops = s.ops := by
  have hmem : ∀ t, t ∈ collect_ids s.ops [] ↔ ∃ o ∈ s.ops, o.trans_id = t := by
    intro t
    rw [mem_collect_ids]
    simp
  have hrange : ∀ a ∈ collect_ids s.ops [], 0 < a ∧ a ≤ INT_MAX := by
    intro a ha
    obtain ⟨o, ho, rfl⟩ := (hmem a).1 ha
    exact hpos o ho
  have hids : (find_unique_transactions s).trans_ids =
      (collect_ids s.ops []).insertionSort (fun a b => a ≤ b) := by
    unfold find_unique_transactions
    rw [if_neg (by omega)]
    exact qsort_compare_ints_eq _ hrange
  refine ⟨?_, fun t => ?_, rfl, find_unique_transactions_ops s⟩
  · rw [hids]
    apply List.Sorted.lt_of_le (List.sorted_insertionSort _ _)
    exact (List.perm_insertionSort _ _).nodup_iff.2 (collect_ids_nodup _ _ List.nodup_nil)
  · rw [hids, (List.perm_insertionSort _ _).mem_iff]
    exact hmem t

/-- Instance of claim C11 on `W3(A) R1(A) W2(B) C1 C3 C2`. -/
theorem find_unique_transactions_sorted_witness :
    0 < schedule_raw.op_count ∧
    (∀ o ∈ schedule_raw.ops, 0 < o.trans_id ∧ o.trans_id ≤ INT_MAX) ∧
    (find_unique_transactions schedule_raw).trans_ids = [1, 2, 3] ∧
    (find_unique_transactions schedule_raw).trans_ids.Sorted (fun a b => a < b) :=
  ⟨by decide, by decide, by decide,
    (find_unique_transactions_sorted schedule_raw (by decide) (by decide)).1⟩

/-- Claim C16: with the read loop of `main` modelled as a fold over the input
records, every schedule handed to `process_schedule` is non-empty, ends with a
`C` operation, and holds, for every transaction that occurs in it, a last
operation that is its Commit; the indices handed over are `1, 2, ...` in order;
the blocks handed over followed by the current block are the input; the active
set is the set of transactions of the current block whose last operation is
not a Commit, and on the next record a block is handed over exactly when the
active set becomes empty. -/
theorem main_segmentation (input : List Operation) :
    (∀ c ∈ (main_loop input).processed, c.1.ops ≠ [] ∧
      (∃ o, c.1.ops.getLast? = some o ∧ o.op = 'C') ∧
      ∀ o ∈ c.1.ops, LastIsCommit c.1.ops o.trans_id) ∧
    (main_loop input).processed.map Prod.snd =
      (List.range (main_loop input).processed.length).map (fun k : Nat => (k : Int) + 1) ∧
    (main_loop input).processed.flatMap (fun c => c.1.ops) ++
      (main_loop input).current_schedule.ops = input ∧
    (∀ t, t ∈ (main_loop input).active_trans ↔
      Uncommitted (main_loop input).current_schedule.ops t) ∧
    (∀ r : Operation,
      ((main_loop (input ++ [r])).active_trans = [] →
        (main_loop (input ++ [r])).processed = (main_loop input).processed ++
          [(add_operation (main_loop input).current_schedule r.time r.trans_id r.op r.attr,
            (main_loop input).schedule_counter)]) ∧
      ((main_loop (input ++ [r])).active_trans ≠ [] →
        (main_loop (input ++ [r])).processed = (main_loop input).processed)) := by
  obtain ⟨_, hact, hclosed, _, hids, hparts⟩ := main_loop_inv input
  refine ⟨hclosed, hids, hparts, hact, fun r => ?_⟩
  rw [main_loop_concat]
  exact main_step_closing (main_loop input) r

/-- Claim C18: for an array `arr` of `n ≥ 1` pairwise distinct ids, when the
check fails on every ordering, `check_all_permutations(s, arr, 0, n-1)` returns
`0`, restores the array, and hands to the check each of the `n!` permutations of
`arr` exactly once (the list of tested orderings has no repetition and holds
exactly the permutations of `arr`); for an arbitrary check the tested orderings
are an initial part of that list, all of them but the last fail, and the search
stops at the first ordering that passes, returning `1`.  The logged search has
the same result as `check_all_permutations` for the check of the program. -/
theorem permutation_search_enumerates (arr : List Int) (hn : 0 < arr.length)
    (hnd : arr.Nodup) (test : List Int → Option Bool) :
    ((∀ q, test q = some false) →
      (check_all_permutations_log test arr 0 ((arr.length : Int) - 1)).1 = some (false, arr) ∧
      (check_all_permutations_log test arr 0 ((arr.length : Int) - 1)).2.Nodup ∧
      (∀ q, q ∈ (check_all_permutations_log test arr 0 ((arr.length : Int) - 1)).2 ↔
        q.Perm arr) ∧
      (check_all_permutations_log test arr 0 ((arr.length : Int) - 1)).2.length =
        Nat.factorial arr.length) ∧
    ((check_all_permutations_log test arr 0 ((arr.length : Int) - 1)).2 <+:
        (check_all_permutations_log (fun _ => some false) arr 0 ((arr.length : Int) - 1)).2 ∧
      (∀ x ∈ (check_all_permutations_log test arr 0 ((arr.length : Int) - 1)).2.dropLast,
        test x = some false) ∧
      (((check_all_permutations_log test arr 0 ((arr.length : Int) - 1)).1 = some (false, arr) ∧
          (check_all_permutations_log test arr 0 ((arr.length : Int) - 1)).2 =
            (check_all_permutations_log (fun _ => some false) arr 0
              ((arr.length : Int) - 1)).2 ∧
          ∀ x ∈ (check_all_permutations_log (fun _ => some false) arr 0
            ((arr.length : Int) - 1)).2, test x = some false) ∨
        ∃ q, (check_all_permutations_log test arr 0 ((arr.length : Int) - 1)).2.getLast? =
            some q ∧
          ((test q = some true ∧
              ∃ arr1, (check_all_permutations_log test arr 0 ((arr.length : Int) - 1)).1 =
                some (true, arr1)) ∨
            (test q = none ∧
              (check_all_permutations_log test arr 0 ((arr.length : Int) - 1)).1 = none)))) ∧
    (∀ s : Schedule,
      (check_all_permutations_log (test_order s) arr 0 ((arr.length : Int) - 1)).1 =
        check_all_permutations s arr 0 ((arr.length : Int) - 1)) := by
  refine ⟨fun hfail => ?_, ?_, fun s => check_all_permutations_log_fst s arr 0 _⟩
  · rw [check_all_permutations_log_eq_rec test arr hn]
    obtain ⟨h1, h2, h3⟩ := enum_rec_spec test hfail (arr.length - 1) (arr.length - 1) arr 0
      (by omega) (by omega) hnd
    have hmem : ∀ q, q ∈ (check_all_permutations_log_rec test (arr.length - 1)
        (arr.length - 1) arr 0).2 ↔ q.Perm arr :=
      fun q => (h3 q).trans (reachable_zero arr q)
    refine ⟨h1, h2, hmem, ?_⟩
    have hperm : (check_all_permutations_log_rec test (arr.length - 1)
        (arr.length - 1) arr 0).2.Perm arr.permutations := by
      rw [List.perm_ext_iff_of_nodup h2 (List.nodup_permutations arr hnd)]
      intro q
      rw [hmem q, List.mem_permutations]
    rw [hperm.length_eq, List.length_permutations]
  · rw [check_all_permutations_log_eq_rec test arr hn,
      check_all_permutations_log_eq_rec (fun _ => some false) arr hn]
    obtain ⟨_, hstop⟩ := stop_rec_spec test (arr.length - 1) (arr.length - 1) arr 0
      (by omega) (by omega)
    rcases hstop with ⟨hall, hres⟩ | ⟨l, q, rest, hfull, hl, hlog, hq⟩
    · rw [hres]
      refine ⟨List.prefix_refl _, fun x hx => hall x (List.mem_of_mem_dropLast hx),
        Or.inl ⟨rfl, rfl, hall⟩⟩
    · rw [hlog, hfull]
      refine ⟨⟨rest, by simp⟩, ?_, Or.inr ⟨q, by simp, ?_⟩⟩
      · rw [List.dropLast_concat]
        exact hl
      · rcases hq with ⟨h1, h2⟩ | ⟨h1, h2⟩
        · exact Or.inr ⟨h1, h2⟩
        · exact Or.inl ⟨h1, h2⟩

/-- Instance of claim C18 on the array `1, 2, 3` with a check that always
fails. -/
theorem permutation_search_enumerates_witness :
    0 < ([1, 2, 3] : List Int).length ∧ ([1, 2, 3] : List Int).Nodup ∧
    check_all_permutations_log (fun _ => some false) [1, 2, 3] 0 2 =
      (some (false, [1, 2, 3]),
        [[1, 2, 3], [1, 3, 2], [2, 1, 3], [2, 3, 1], [3, 2, 1], [3, 1, 2]]) ∧
    (check_all_permutations_log (fun _ => some false) [1, 2, 3] 0
      ((([1, 2, 3] : List Int).length : Int) - 1)).2.length = Nat.factorial 3 :=
  ⟨by decide, by decide, by decide,
    ((permutation_search_enumerates [1, 2, 3] (by decide) (by decide)
      (fun _ => some false)).1 (fun _ => rfl)).2.2.2⟩

/-- Instance of claim C16 on the input `R1(A) W2(A) C1 C2 W3(B) C3 R4(A)`: two
blocks are handed over, with the indices `1` and `2`, and transaction 4 stays
active. -/
theorem main_segmentation_witness :
    (main_loop sample_input).processed.map (fun c => c.1.ops.length) = [4, 2] ∧
    (main_loop sample_input).active_trans = [4] ∧
    (main_loop sample_input).processed.map Prod.snd =
      (List.range (main_loop sample_input).processed.length).map
        (fun k : Nat => (k : Int) + 1) :=
  ⟨by decide, by decide, (main_segmentation sample_input).2.1⟩

/-- Claim C21: on a finalised schedule with attributes in `'A' .. 'Z'` or `'-'` in
which no transaction reads an attribute after having itself written it, and for
a permutation `p` of `trans_ids`, `compare_final_writes` and `compare_read_from`
both return `1` exactly when the schedule is view-equivalent to the serial
schedule that concatenates the operations of each transaction in the order `p`:
every `R` operation reads from the same transaction in both sequences (the
writer being computed over the serial sequence itself), and every attribute
other than the sentinel `'-'` has the same final writer; when no `W` operation
carries `'-'`, the final writers agree on every character. -/
theorem checks_iff_view_equivalent (s : Schedule) (p : List Int) (hfin : Finalised s)
    (hattr : AttrsInRange s) (hown : NoOwnRead s.ops) (hperm : p.Perm s.trans_ids) :
    ((compare_final_writes s p = some true ∧ compare_read_from s p = true) ↔
      ((∀ e, e ∈ readsFrom s.ops.enum ↔ e ∈ readsFrom (serial_schedule s.ops p)) ∧
        ∀ a, a ≠ '-' →
          lastWriteOn s.ops a = lastWriteOn ((serial_schedule s.ops p).map Prod.snd) a)) ∧
    ((∀ o ∈ s.ops, o.op = 'W' → o.attr ≠ '-') →
      ((compare_final_writes s p = some true ∧ compare_read_from s p = true) ↔
        ViewEquivalent s.ops.enum (serial_schedule s.ops p))) := by
  have hmain := both_checks_spec s p hfin hattr hown hperm
  refine ⟨hmain, fun hw => hmain.trans ?_⟩
  unfold ViewEquivalent
  rw [List.enum_map_snd]
  constructor
  · rintro ⟨h1, h2⟩
    refine ⟨h1, fun a => ?_⟩
    by_cases ha : a = '-'
    · subst ha
      rw [lastWriteOn_serial, lastWriteOn_eq_zero _ _ hw, lastWritingElement_eq_zero _ p _ hw]
    · exact h2 a ha
  · rintro ⟨h1, h2⟩
    exact ⟨h1, fun a _ => h2 a⟩

/-- Instance of claim C21 on `R1(A) W2(A) W1(A) W3(A) C1 C2 C3` with the order
`1, 2, 3`. -/
theorem checks_iff_view_equivalent_witness :
    Finalised schedule_blind_write ∧ AttrsInRange schedule_blind_write ∧
    NoOwnRead schedule_blind_write.ops ∧
    ([1, 2, 3] : List Int).Perm schedule_blind_write.trans_ids ∧
    compare_final_writes schedule_blind_write [1, 2, 3] = some true ∧
    compare_read_from schedule_blind_write [1, 2, 3] = true ∧
    ViewEquivalent schedule_blind_write.ops.enum
      (serial_schedule schedule_blind_write.ops [1, 2, 3]) :=
  ⟨⟨_, rfl⟩, by decide, by decide, by decide, by decide, by decide,
    ((checks_iff_view_equivalent schedule_blind_write [1, 2, 3] ⟨_, rfl⟩ (by decide)
      (by decide) (by decide)).2 (by decide)).1 ⟨by decide, by decide⟩⟩
